import Mathlib

/-!
# Contiguous frame pool (MP3 `cont_frame_pool.C`)

A shallow embedding of `ContFramePool`: the constructor, `get_frames`,
`mark_inaccessible` and `release_frames`, followed by the properties of the
frame-pool contract.

Modelling conventions.

* `unsigned int` / `unsigned long` are 32-bit on the target; arithmetic that
  can wrap is taken modulo `U32`.
* `unsigned char` stores are truncated modulo 256 (`setByte`).
* `bitmap` is a pointer into raw memory, so it is modelled as a total function
  from the byte offset to the byte stored there; offsets past `nframes / 4`
  are the memory that follows the bitmap.
* The static registry (`head`, `pools`, `next`) is the list of the pools in
  construction order.
* `Console::puts` / `Console::puti` output is not modelled.
-/

/-- Number of values of a 32-bit unsigned integer. -/
def U32 : Nat := 4294967296

/-- The C expression `x - 1` (or `x--`) on a 32-bit unsigned integer. -/
def dec32 (x : Nat) : Nat := (x + U32 - 1) % U32

/-- The C expression `x + 1` (or `x++`) on a 32-bit unsigned integer. -/
def inc32 (x : Nat) : Nat := (x + 1) % U32

/-- Modelled from the spec: `FRAME_SIZE` is declared in `cont_frame_pool.H`,
which is not among the sources; the spec fixes the frame size F = 4096. -/
def FRAME_SIZE : Nat := 4096

/-- The data members of `class ContFramePool`; `next` is the position in the
registry list. -/
structure ContFramePool where
  base_frame_no : Nat
  nframes : Nat
  nFreeFrames : Nat
  info_frame_no : Nat
  n_info_frames : Nat
  bitmap : Nat → Nat

/-- The store `bitmap[i] = v` of an `unsigned char`. -/
def setByte (bitmap : Nat → Nat) (i v : Nat) : Nat → Nat :=
  fun x => if x = i then v % 256 else bitmap x

/-- The C expression `mask >> k | mask << (8 - k)` assigned to an
`unsigned char` (right circular shift of a byte). -/
def rotr8 (mask k : Nat) : Nat := ((mask >>> k) ||| (mask <<< (8 - k))) % 256

/-! ## Cell states -/

/-- State `00`. -/
abbrev FREE : Nat := 0
/-- State `01`. -/
abbrev HEAD : Nat := 1
/-- State `10`. -/
abbrev INACCESSIBLE : Nat := 2
/-- State `11`. -/
abbrev ALLOCATED : Nat := 3

/-- The two bits of cell `j` (0..3) of the byte `b`, read with the mask
`0xC0 >> 2j` the code uses. -/
def cellOf (b j : Nat) : Nat := (b &&& (0xC0 >>> (2 * j))) >>> (6 - 2 * j)

/-- The state of cell `k` of a bitmap: byte `k / 4`, position `k % 4`. -/
def cellAt (bitmap : Nat → Nat) (k : Nat) : Nat := cellOf (bitmap (k / 4)) (k % 4)

/-- The state of cell `k` of the pool. -/
def ContFramePool.cell (p : ContFramePool) (k : Nat) : Nat := cellAt p.bitmap k

/-! ## Constructor -/

/-- The loop `for(int i=0; i*(8/2) < nframes; i++) bitmap[i] = 0x00;`.
The first argument bounds the number of iterations. -/
def zeroBitmap (nframes : Nat) : Nat → Nat → (Nat → Nat) → (Nat → Nat)
  | 0, _, bitmap => bitmap
  | fuel + 1, i, bitmap =>
    if i * (8 / 2) < nframes then zeroBitmap nframes fuel (i + 1) (setByte bitmap i 0x00)
    else bitmap

/-- The constructor `ContFramePool::ContFramePool`, without the registry update. `mem` is the
content of the memory the bitmap pointer refers to before the call; a failed
`assert` gives `none`. -/
def ContFramePool.construct (_base_frame_no _n_frames _info_frame_no _n_info_frames : Nat)
    (mem : Nat → Nat) : Option ContFramePool :=
  if ¬ (_n_frames ≤ FRAME_SIZE * (8 / 2)) then none
  else if ¬ (_n_frames % 4 = 0) then none
  else
    let bitmap := zeroBitmap _n_frames _n_frames 0 mem
    if _info_frame_no = 0 then
      some { base_frame_no := _base_frame_no, nframes := _n_frames,
             nFreeFrames := dec32 _n_frames, info_frame_no := _info_frame_no,
             n_info_frames := _n_info_frames, bitmap := setByte bitmap 0 0x40 }
    else
      some { base_frame_no := _base_frame_no, nframes := _n_frames,
             nFreeFrames := _n_frames, info_frame_no := _info_frame_no,
             n_info_frames := _n_info_frames, bitmap := bitmap }

/-- The registry update at the end of the constructor: the new pool becomes the
last element of the list that starts at `head` (the constructor does not
initialise `next`; the `next` of the last pool is taken to be `NULL`). -/
def ContFramePool.link (registry : List ContFramePool) (this : ContFramePool) :
    List ContFramePool :=
  registry ++ [this]

/-! ## get_frames -/

/-- The local variables of the search loop of `get_frames`. -/
structure ScanState where
  isfree : Nat
  frame_no : Nat
  m : Nat
  n : Nat
  num_frames_req : Nat

/-- The body of the inner search loop up to (not including) the
`num_frames_req == 0` test, for byte `i`, position `j` and the current mask. -/
def scanCell (p : ContFramePool) (_n_frames i j mask : Nat) (s : ScanState) : ScanState :=
  if p.bitmap i &&& mask = 0 then
    if s.isfree = 0 then
      { isfree := 1, frame_no := (s.frame_no + (i * 4 + j)) % U32, m := i, n := j,
        num_frames_req := dec32 s.num_frames_req }
    else
      { s with num_frames_req := dec32 s.num_frames_req }
  else
    { s with isfree := 0, num_frames_req := _n_frames, frame_no := p.base_frame_no }

/-- The loop `for(int j=0; j<4; j++)` of the search; the first argument is the
number of iterations left (`4 - j`). -/
def scanInner (p : ContFramePool) (_n_frames i : Nat) : Nat → Nat → Nat → ScanState → ScanState
  | 0, _, _, s => s
  | left + 1, j, mask, s =>
    let s1 := scanCell p _n_frames i j mask s
    if s1.num_frames_req = 0 then s1
    else scanInner p _n_frames i left (j + 1) (mask >>> 2) s1

/-- The loop `for(i=0; i<(nframes/4); i++)` of the search; the first argument
is the number of iterations left (`nframes/4 - i`). -/
def scanOuter (p : ContFramePool) (_n_frames : Nat) : Nat → Nat → ScanState → ScanState
  | 0, _, s => s
  | left + 1, i, s =>
    let s1 := scanInner p _n_frames i 4 0 0xC0 s
    if s1.num_frames_req = 0 then s1
    else scanOuter p _n_frames left (i + 1) s1

/-- The loop `while (num_frames>0 && n<4)` that marks the rest of byte `m`
ALLOCATED. `n` grows by one per iteration, so the first argument (4 at the
call) bounds the number of iterations. Returns the bitmap and `num_frames`. -/
def markFirst (m : Nat) : Nat → (Nat → Nat) → Nat → Nat → Nat → (Nat → Nat) × Nat
  | 0, bitmap, num_frames, _, _ => (bitmap, num_frames)
  | fuel + 1, bitmap, num_frames, n, mask =>
    if num_frames > 0 ∧ n < 4 then
      markFirst m fuel (setByte bitmap m (bitmap m ||| mask)) (dec32 num_frames) (n + 1)
        (mask >>> 2)
    else (bitmap, num_frames)

/-- The loop `for (int j = 0; j<4; j++)` of the marking phase for byte `i`;
the first argument is the number of iterations left. -/
def markInner (i : Nat) : Nat → (Nat → Nat) → Nat → Nat → (Nat → Nat) × Nat
  | 0, bitmap, num_frames, _ => (bitmap, num_frames)
  | left + 1, bitmap, num_frames, mask =>
    if num_frames = 0 then (bitmap, num_frames)
    else markInner i left (setByte bitmap i (bitmap i ||| mask)) (dec32 num_frames) (mask >>> 2)

/-- The loop `for (i=m+1; i<(nframes/4); i++)` of the marking phase; the first
argument is the number of iterations left. -/
def markOuter : Nat → Nat → (Nat → Nat) → Nat → (Nat → Nat) × Nat
  | 0, _, bitmap, num_frames => (bitmap, num_frames)
  | left + 1, i, bitmap, num_frames =>
    let r := markInner i 4 bitmap num_frames 0xC0
    if r.2 = 0 then r else markOuter left (i + 1) r.1 r.2

/-- The initial values of the locals of `get_frames`. `m` and `n` are
uninitialised in the source; they are written before they are read whenever
`_n_frames ≥ 1`, and are given the value 0 here. -/
def scanInit (p : ContFramePool) (_n_frames : Nat) : ScanState :=
  { isfree := 0, frame_no := p.base_frame_no, m := 0, n := 0, num_frames_req := _n_frames }

/-- The marking phase of `get_frames` (from `unsigned int num_frames = _n_frames`
to the end of the second `for` loop), for the run that the search found at
byte `m`, position `n`. Returns the bitmap and the final `num_frames`. -/
def markRun (p : ContFramePool) (_n_frames m n : Nat) : (Nat → Nat) × Nat :=
  let num_frames := _n_frames
  let mask1 := rotr8 0x3F (n * 2)
  let mask2 := 0x40 >>> (n * 2)
  let bitmap := setByte p.bitmap m ((p.bitmap m &&& mask1) ||| mask2)
  let num_frames := dec32 num_frames
  let n := n + 1
  let mask := 0xC0 >>> (n * 2)
  let r1 := markFirst m 4 bitmap num_frames n mask
  markOuter (p.nframes / 4 - (m + 1)) (m + 1) r1.1 r1.2

/-- The method `ContFramePool::get_frames`: the returned frame number and the pool after
the call. The statement `nFreeFrames -= _n_frames` is inside a comment in the
source, so `nFreeFrames` is not changed. -/
def ContFramePool.get_frames (p : ContFramePool) (_n_frames : Nat) : Nat × ContFramePool :=
  let s := scanOuter p _n_frames (p.nframes / 4) 0 (scanInit p _n_frames)
  if s.num_frames_req ≠ 0 then (0, p)
  else
    let r := markRun p _n_frames s.m s.n
    if r.2 = 0 then (s.frame_no, { p with bitmap := r.1 })
    else (0, { p with bitmap := r.1 })

/-! ## mark_inaccessible -/

/-- The C expression `a - b` on 32-bit unsigned integers. -/
def sub32 (a b : Nat) : Nat := (a + U32 - b % U32) % U32

/-- The loop `while (n<4 && num_of_frames>0)` that marks the rest of byte `m`
INACCESSIBLE. `n` grows by one per iteration, so the first argument (4 at the
call) bounds the number of iterations. Returns the bitmap and
`num_of_frames`. -/
def inaccFirst (m : Nat) : Nat → (Nat → Nat) → Nat → Nat → Nat → Nat → (Nat → Nat) × Nat
  | 0, bitmap, _, num_of_frames, _, _ => (bitmap, num_of_frames)
  | fuel + 1, bitmap, n, num_of_frames, mask1, mask2 =>
    if n < 4 ∧ num_of_frames > 0 then
      inaccFirst m fuel (setByte bitmap m ((bitmap m &&& mask2) ||| mask1)) (n + 1)
        (dec32 num_of_frames) (mask1 >>> 2) (rotr8 mask2 2)
    else (bitmap, num_of_frames)

/-- The loop `for (int j = 0; j<4; j++)` of `mark_inaccessible` for byte `i`;
the first argument is the number of iterations left. -/
def inaccInner (i : Nat) : Nat → (Nat → Nat) → Nat → Nat → Nat → (Nat → Nat) × Nat
  | 0, bitmap, num_of_frames, _, _ => (bitmap, num_of_frames)
  | left + 1, bitmap, num_of_frames, mask1, mask2 =>
    if num_of_frames = 0 then (bitmap, num_of_frames)
    else
      inaccInner i left (setByte bitmap i ((bitmap i &&& mask2) ||| mask1))
        (dec32 num_of_frames) (mask1 >>> 2) (rotr8 mask2 2)

/-- The loop `for (i = m+1; i < m + (_n_frames/4); i++)` of
`mark_inaccessible`; the first argument is the number of iterations left. -/
def inaccOuter : Nat → Nat → (Nat → Nat) → Nat → (Nat → Nat) × Nat
  | 0, _, bitmap, num_of_frames => (bitmap, num_of_frames)
  | left + 1, i, bitmap, num_of_frames =>
    let r := inaccInner i 4 bitmap num_of_frames 0x80 0x3F
    if r.2 = 0 then r else inaccOuter left (i + 1) r.1 r.2

/-- The bitmap and the value of `num_of_frames` at the end of
`ContFramePool::mark_inaccessible` (the value decides which of the two log
lines is printed: 0 is "successful", anything else is "failed"). -/
def ContFramePool.mark_inaccessible_run (p : ContFramePool) (_base_frame_no _n_frames : Nat) :
    (Nat → Nat) × Nat :=
  let num_of_frames := _n_frames
  let num_of_frames_used := sub32 _base_frame_no p.base_frame_no
  let num_of_bits := (num_of_frames_used * 2) % U32
  let m := num_of_bits / 8
  let n := (num_of_bits % 8) / 2
  let mask1 := 0x80
  let mask2 := 0x3F
  let mask3 := 0x40
  let mask3 := mask3 >>> (n * 2)
  let mask2 := rotr8 mask2 (n * 2)
  let bitmap := setByte p.bitmap m ((p.bitmap m &&& mask2) ||| mask3)
  let n := n + 1
  let mask1 := mask1 >>> (n * 2)
  let mask2 := rotr8 mask2 2
  let num_of_frames := dec32 num_of_frames
  let r1 := inaccFirst m 4 bitmap n num_of_frames mask1 mask2
  inaccOuter ((m + _n_frames / 4) % U32 - (m + 1)) (m + 1) r1.1 r1.2

/-- The method `ContFramePool::mark_inaccessible`: the pool after the call. -/
def ContFramePool.mark_inaccessible (p : ContFramePool) (_base_frame_no _n_frames : Nat) :
    ContFramePool :=
  { p with nFreeFrames := sub32 p.nFreeFrames _n_frames,
           bitmap := (p.mark_inaccessible_run _base_frame_no _n_frames).1 }

/-! ## release_frames -/

/-- The loop `while (n<4)` of `release_frames` that frees the ALLOCATED cells
that follow the head inside byte `m`. `n` grows by one per iteration, so the
first argument (4 at the call) bounds the number of iterations. Returns the
bitmap and `nFreeFrames`. -/
def releaseFirst (m : Nat) : Nat → (Nat → Nat) → Nat → Nat → Nat → Nat → (Nat → Nat) × Nat
  | 0, bits, nFreeFrames, _, _, _ => (bits, nFreeFrames)
  | fuel + 1, bits, nFreeFrames, n, mask1, mask =>
    if n < 4 then
      if bits m &&& mask1 = mask1 then
        releaseFirst m fuel (setByte bits m (bits m &&& mask)) (inc32 nFreeFrames) (n + 1)
          (mask1 >>> 2) (rotr8 mask 2)
      else (bits, nFreeFrames)
    else (bits, nFreeFrames)

/-- The loop `for (int j = 0; j < 4; j++)` of `release_frames` for byte `i`;
the first argument is the number of iterations left. Returns the bitmap,
`nFreeFrames` and the flag `c` (0 after the `break`). -/
def releaseInner (i : Nat) : Nat → (Nat → Nat) → Nat → Nat → Nat → (Nat → Nat) × Nat × Nat
  | 0, bits, nFreeFrames, _, _ => (bits, nFreeFrames, 1)
  | left + 1, bits, nFreeFrames, mask1, mask =>
    if bits i &&& mask1 = mask1 then
      releaseInner i left (setByte bits i (bits i &&& mask)) (inc32 nFreeFrames)
        (mask1 >>> 2) (rotr8 mask 2)
    else (bits, nFreeFrames, 0)

/-- The loop `for (i = m+1; i < (cur->base_frame_no + cur->nframes/4); i++)`
of `release_frames`; the first argument is the number of iterations left. -/
def releaseOuter : Nat → Nat → (Nat → Nat) → Nat → (Nat → Nat) × Nat
  | 0, _, bits, nFreeFrames => (bits, nFreeFrames)
  | left + 1, i, bits, nFreeFrames =>
    let r := releaseInner i 4 bits nFreeFrames 0xC0 0x3F
    if r.2.2 = 0 then (r.1, r.2.1) else releaseOuter left (i + 1) r.1 r.2.1

/-- The part of `ContFramePool::release_frames` that follows the registry walk:
`cur` is the pool whose band contains `_first_frame_no`. -/
def ContFramePool.release_in (cur : ContFramePool) (_first_frame_no : Nat) : ContFramePool :=
  let num_of_frames_used := sub32 _first_frame_no cur.base_frame_no
  let num_of_bits := (num_of_frames_used * 2) % U32
  let m := num_of_bits / 8
  let n := (num_of_bits % 8) / 2
  let bits := cur.bitmap
  let mask1 := 0xC0 >>> (n * 2)
  let mask2 := 0x40 >>> (n * 2)
  let mask := rotr8 0x3F (n * 2)
  if bits m &&& mask1 = mask2 then
    let bits := setByte bits m (bits m &&& mask)
    let nFreeFrames := inc32 cur.nFreeFrames
    let n := n + 1
    let mask1 := mask1 >>> 2
    let mask := rotr8 mask 2
    let r1 := releaseFirst m 4 bits nFreeFrames n mask1 mask
    let r2 := releaseOuter ((cur.base_frame_no + cur.nframes / 4) % U32 - (m + 1)) (m + 1)
      r1.1 r1.2
    { cur with bitmap := r2.1, nFreeFrames := r2.2 }
  else cur

/-- The static method `ContFramePool::release_frames`: the registry after the call. The
walk starts at `head` and stops at the first pool whose band contains the
frame; when no pool does, nothing changes. (With an empty registry the source
dereferences a null `head`; the model leaves the empty registry as it is.) -/
def ContFramePool.release_frames : List ContFramePool → Nat → List ContFramePool
  | [], _ => []
  | cur :: rest, _first_frame_no =>
    if (cur.base_frame_no + cur.nframes) % U32 ≤ _first_frame_no
        ∨ cur.base_frame_no > _first_frame_no then
      cur :: ContFramePool.release_frames rest _first_frame_no
    else cur.release_in _first_frame_no :: rest

/-- The pool after `release_frames(_first_frame_no)` when it is the only pool
of the registry. -/
def ContFramePool.release (p : ContFramePool) (_first_frame_no : Nat) : ContFramePool :=
  (ContFramePool.release_frames [p] _first_frame_no).headD p

/-! ## Cells as a list -/

/-- The states of the first `k` cells of a pool, as a list. -/
def ContFramePool.cells (p : ContFramePool) (k : Nat) : List Nat := (List.range k).map p.cell

/-! ## Specification vocabulary, loop invariants and scenarios -/

/-- The hypotheses on a pool state that the types and the constructor's
assertions give: bitmap bytes are `unsigned char`, the band length is a
multiple of 4 that fits one info frame, and the frames of the band are 32-bit
frame numbers. -/
structure ContFramePool.Valid (p : ContFramePool) : Prop where
  byte_lt : ∀ i, p.bitmap i < 256
  mult4 : p.nframes % 4 = 0
  fits : p.nframes ≤ FRAME_SIZE * 4
  band : p.base_frame_no + p.nframes ≤ U32

/-- Cells `k .. k+n-1` lie in the band and are all FREE. -/
def ContFramePool.FreeRun (p : ContFramePool) (k n : Nat) : Prop :=
  k + n ≤ p.nframes ∧ ∀ c, c < k + n → k ≤ c → p.cell c = FREE

instance (p : ContFramePool) (k n : Nat) : Decidable (p.FreeRun k n) := by
  unfold ContFramePool.FreeRun
  infer_instance

/-- The bitmap contains a run of `n` consecutive FREE cells. -/
def ContFramePool.HasFreeRun (p : ContFramePool) (n : Nat) : Prop :=
  ∃ k, k < p.nframes + 1 ∧ p.FreeRun k n

instance (p : ContFramePool) (n : Nat) : Decidable (p.HasFreeRun n) := by
  unfold ContFramePool.HasFreeRun
  infer_instance

/-- The call `get_frames(n)` reaches `return frame_no`: the search ends with
`num_frames_req == 0` and the marking phase ends with `num_frames == 0`, so
neither error branch is taken. -/
def ContFramePool.get_frames_succeeds (p : ContFramePool) (n : Nat) : Prop :=
  (scanOuter p n (p.nframes / 4) 0 (scanInit p n)).num_frames_req = 0 ∧
  (markRun p n (scanOuter p n (p.nframes / 4) 0 (scanInit p n)).m
    (scanOuter p n (p.nframes / 4) 0 (scanInit p n)).n).2 = 0

instance (p : ContFramePool) (n : Nat) : Decidable (p.get_frames_succeeds n) := by
  unfold ContFramePool.get_frames_succeeds
  infer_instance

/-- Loop invariant of the search before cell `k` is examined: `r` FREE cells
have been accumulated, they are the cells just before `k`, and no window that
starts before them is entirely FREE. -/
def ScanInv (p : ContFramePool) (n k : Nat) (s : ScanState) : Prop :=
  ∃ r, r + s.num_frames_req = n ∧ 0 < s.num_frames_req ∧ r ≤ k ∧
    (∀ c, k ≤ c + r → c < k → p.cell c = 0) ∧
    (s.isfree = 0 → r = 0 ∧ s.frame_no = p.base_frame_no) ∧
    (s.isfree ≠ 0 → 0 < r ∧ s.frame_no + r = p.base_frame_no + k ∧
      4 * s.m + s.n + r = k ∧ s.n < 4) ∧
    (∀ t, t + r < k → ∃ c, t ≤ c ∧ c < t + n ∧ c < k ∧ p.cell c ≠ 0)

/-- State of the search when it stops on `num_frames_req == 0` after cell
`k - 1`: the `n` cells before `k` are FREE, `frame_no`, `m`, `n` address the
first of them, and no earlier window is entirely FREE. -/
def ScanDone (p : ContFramePool) (n k : Nat) (s : ScanState) : Prop :=
  s.num_frames_req = 0 ∧ n ≤ k ∧
    (∀ c, k ≤ c + n → c < k → p.cell c = 0) ∧
    s.frame_no + n = p.base_frame_no + k ∧
    4 * s.m + s.n + n = k ∧ s.n < 4 ∧
    (∀ t, t + n < k → ∃ c, t ≤ c ∧ c < t + n ∧ p.cell c ≠ 0)

/-- Relation between two bitmaps: cells `k .. k+cnt-1` have become ALLOCATED,
every other cell is unchanged, and the bytes are still bytes. -/
def AllocSpec (bm bm2 : Nat → Nat) (k cnt : Nat) : Prop :=
  (∀ c, cellAt bm2 c = if k ≤ c ∧ c < k + cnt then 3 else cellAt bm c) ∧ ∀ x, bm2 x < 256

/-- Relation between two bitmaps: cells `k .. k+cnt-1` were ALLOCATED and have
become FREE, every other cell is unchanged, and the bytes are still bytes. -/
def ClearSpec (bm bm2 : Nat → Nat) (k cnt : Nat) : Prop :=
  (∀ c, k ≤ c → c < k + cnt → cellAt bm c = 3) ∧
  (∀ c, cellAt bm2 c = if k ≤ c ∧ c < k + cnt then 0 else cellAt bm c) ∧
  ∀ x, bm2 x < 256

/-- Every ALLOCATED cell of the band has index > 0 and is immediately preceded
by a HEAD or ALLOCATED cell. -/
def ContFramePool.WellFormed (p : ContFramePool) : Prop :=
  ∀ c, c < p.nframes → p.cell c = ALLOCATED →
    0 < c ∧ (p.cell (c - 1) = HEAD ∨ p.cell (c - 1) = ALLOCATED)

instance (p : ContFramePool) : Decidable p.WellFormed := by
  unfold ContFramePool.WellFormed
  infer_instance

/-- Scenario S1: the pool built with `base=512, n_frames=1024, info_frame_no=0`
over memory that held `0xFF` in every byte. -/
def poolS1 : ContFramePool :=
  (ContFramePool.construct 512 1024 0 0 (fun _ => 0xFF)).get (by decide)

/-- Scenario S2: the pool built with `base=0, n_frames=16, info_frame_no=1`
over memory that held `0xFF` in every byte. -/
def poolS2 : ContFramePool :=
  (ContFramePool.construct 0 16 1 1 (fun _ => 0xFF)).get (by decide)

/-- Scenario S2 after `mark_inaccessible(4,2)`. -/
def poolS2marked : ContFramePool := poolS2.mark_inaccessible 4 2

/-- Scenario S2 after `mark_inaccessible(4,2)` and `get_frames(4)`. -/
def poolS2first : ContFramePool := (poolS2marked.get_frames 4).2

/-- Scenario S2 after both allocations, the state S3 starts from. -/
def poolS2second : ContFramePool := (poolS2first.get_frames 6).2

/-- A call made on a pool after its construction. -/
inductive PoolOp where
  | get_frames (n : Nat)
  | release_frames (f : Nat)

/-- The request fits the parameter type and, for `get_frames`, asks for at
least one frame. -/
def PoolOp.WellTyped : PoolOp → Prop
  | .get_frames n => 1 ≤ n ∧ n < U32
  | .release_frames _ => True

/-- The pool after one call (the pool is the only one of the registry). -/
def ContFramePool.step (p : ContFramePool) : PoolOp → ContFramePool
  | .get_frames n => (p.get_frames n).2
  | .release_frames f => p.release f

/-- The pool after a sequence of calls. -/
def ContFramePool.run (p : ContFramePool) (ops : List PoolOp) : ContFramePool :=
  ops.foldl ContFramePool.step p

/-- Number of FREE cells of the band. -/
def ContFramePool.freeCount (p : ContFramePool) : Nat :=
  ((List.range p.nframes).filter (fun k => decide (p.cell k = FREE))).length

/-- The 16-frame pool of S2 after `get_frames(1)` and `get_frames(4)`: a run of
one frame at cell 0 and a run of four frames at cells 1..4. -/
def poolTwoRuns : ContFramePool := poolS2.run [.get_frames 1, .get_frames 4]

/-! # Info frames, page table (MP4 `page_table.C`) and virtual-memory pool (MP4 `vm_pool.C`)

Modelling conventions, in addition to those of the frame pool.

* Physical memory is a total function from a byte address to the 32-bit word
  stored there; the code only uses 4-byte aligned addresses.
* A pointer dereference is a virtual access: with paging disabled it reaches
  the physical address itself, with paging enabled it goes through the
  two-level walk `walk`; an access that cannot be translated gives `none`.
* The static members of `PageTable`, the control registers, physical memory
  and the frame-pool registry form one `Kernel` value. Pointers to pools are
  positions in the registry; the bitmaps of the pools are kept in the pool
  values and are taken not to overlap the page tables.
* The region table of a `VMPool` is the content of the memory at its
  `base_address`, seen as an array of descriptors indexed by an unsigned
  32-bit index; the calls that `release` makes on its page table are recorded
  as a list.
-/

/-- The function `ContFramePool::needed_info_frames`; `16 KB` expands to
`16 * (0x1 << 10)` by the macro `KB`. For a 32-bit argument the sum is below
2^32, so no reduction is needed. -/
def ContFramePool.needed_info_frames (_n_frames : Nat) : Nat :=
  _n_frames / (16 * (0x1 <<< 10)) + (if _n_frames % (16 * (0x1 <<< 10)) > 0 then 1 else 0)

/-- Modelled from the spec: `PAGE_SIZE` (`Machine::PAGE_SIZE`,
`PageTable::PAGE_SIZE`) is declared in headers that are not among the
sources; the spec fixes the page size F = 4096. -/
def PAGE_SIZE : Nat := 4096

/-! ## Virtual-memory pool -/

/-- The `struct region` of `vm_pool.H`: two `unsigned long` fields. -/
structure region where
  base_address : Nat
  size : Nat
deriving DecidableEq

/-- Modelled from the spec: `sizeof(region)`; the header is not among the
sources, the spec describes a descriptor as `(u32 base, u32 size)`. -/
def SIZEOF_REGION : Nat := 8

/-- The data members of `class VMPool` that its methods read or write. The
pointers `frame_pool` and `page_table` are not represented: they are never
read apart from the calls `page_table->free_page` and `page_table->load`,
which `release` records. -/
structure VMPool where
  base_address : Nat
  size : Nat
  region_no : Nat
  max_regions : Nat
  regions : Nat → region

/-- The store `regions[i] = r`. -/
def setRegion (regions : Nat → region) (i : Nat) (r : region) : Nat → region :=
  fun x => if x = i then r else regions x

/-- The constructor `VMPool::VMPool`, without the call of `register_pool`.
`mem` is the content of the memory at `_base_address` seen as a region
table. -/
def VMPool.construct (_base_address _size : Nat) (mem : Nat → region) : VMPool :=
  { base_address := _base_address, size := _size, region_no := 0,
    max_regions := PAGE_SIZE / SIZEOF_REGION, regions := mem }

/-- The method `VMPool::allocate`: the returned address and the pool after the
call; a failed `assert` gives `none`. -/
def VMPool.allocate (p : VMPool) (_size : Nat) : Option (Nat × VMPool) :=
  if _size = 0 then some (0, p)
  else
    let num_frames := _size / PAGE_SIZE
    let rem := _size % PAGE_SIZE
    let num_frames := if rem > 0 then inc32 num_frames else num_frames
    if p.region_no = 0 then
      let address := p.base_address
      let regions := setRegion p.regions p.region_no
        { (p.regions p.region_no) with base_address := (address + PAGE_SIZE) % U32 }
      let regions := setRegion regions p.region_no
        { (regions p.region_no) with size := (num_frames * PAGE_SIZE) % U32 }
      some ((address + PAGE_SIZE) % U32,
        { p with regions := regions, region_no := inc32 p.region_no })
    else
      let address := ((p.regions (dec32 p.region_no)).base_address
        + (p.regions (dec32 p.region_no)).size) % U32
      let regions := setRegion p.regions p.region_no
        { (p.regions p.region_no) with base_address := address }
      let regions := setRegion regions p.region_no
        { (regions p.region_no) with size := (num_frames * PAGE_SIZE) % U32 }
      let region_no := inc32 p.region_no
      if ¬ (region_no < p.max_regions) then none
      else some (address, { p with regions := regions, region_no := region_no })

/-- A call that `VMPool::release` makes on its page table. -/
inductive PTCall where
  | free_page (_page_no : Nat)
  | load
deriving DecidableEq

/-- The search loop `for (unsigned int i = 0; i < max_regions; i++)` of
`release`; the first argument is the number of iterations left and the last
one the current value of `cur_region`. -/
def findRegion (regions : Nat → region) (_start_address : Nat) : Nat → Nat → Nat → Nat
  | 0, _, cur_region => cur_region
  | left + 1, i, cur_region =>
    if (regions i).base_address = _start_address then i
    else findRegion regions _start_address left (i + 1) cur_region

/-- The loop of `release` that calls `free_page` once per page and advances
`_start_address`; the first argument is the number of iterations
(`regions[cur_region].size / PAGE_SIZE`). -/
def freePages : Nat → Nat → List PTCall
  | 0, _ => []
  | left + 1, _start_address =>
    PTCall.free_page _start_address :: freePages left ((_start_address + PAGE_SIZE) % U32)

/-- The loop `for (unsigned int i = cur_region; i < region_no - 1; i++)` of
`release`; the first argument is the number of iterations left. -/
def shiftRegions : Nat → Nat → (Nat → region) → (Nat → region)
  | 0, _, regions => regions
  | left + 1, i, regions => shiftRegions left (i + 1) (setRegion regions i (regions (i + 1)))

/-- The method `VMPool::release`: the pool after the call and the calls made
on the page table, in order; a failed `assert` gives `none`. `cur_region` is an
`unsigned int` initialised with `-1`, and `regions[cur_region]` with that
value is the descriptor read just before the table. -/
def VMPool.release (p : VMPool) (_start_address : Nat) : Option (VMPool × List PTCall) :=
  let cur_region := findRegion p.regions _start_address p.max_regions 0 (U32 - 1)
  if cur_region < 0 then none
  else
    let calls := freePages ((p.regions cur_region).size / PAGE_SIZE) _start_address
    let regions := shiftRegions (dec32 p.region_no - cur_region) cur_region p.regions
    some ({ p with regions := regions, region_no := dec32 p.region_no },
      calls ++ [PTCall.load])

/-- The method `VMPool::is_legitimate`. -/
def VMPool.is_legitimate (p : VMPool) (_address : Nat) : Bool :=
  let addr_limit := (p.base_address + p.size) % U32
  let base := p.base_address
  if _address < addr_limit ∧ _address ≥ base then true else false

/-! ## Page table -/

/-- The data members of a `PageTable` object. `registered_vm_pool` holds
pointers (`none` is `NULL`); the pools are kept by value, of which
`handle_fault` reads `base_address` and `size` only. -/
structure PageTable where
  page_directory : Nat
  registered_vm_pool : Nat → Option VMPool
  vm_pool_no : Nat

/-- Physical memory, the paging registers, the frame-pool registry and the
static members of `PageTable`. `paging_enabled` stands for the paging bit of
CR0 as well. -/
structure Kernel where
  mem : Nat → Nat
  cr3 : Nat
  paging_enabled : Nat
  pools : List ContFramePool
  kernel_mem_pool : Nat
  process_mem_pool : Nat
  shared_size : Nat
  current_page_table : Option PageTable

/-- The store of a 32-bit word at a physical address. -/
def store (mem : Nat → Nat) (addr val : Nat) : Nat → Nat :=
  fun x => if x = addr then val else mem x

/-- Modelled from the spec: the two-level translation of the MMU, which is
hardware and not code of the repository. An entry is a 32-bit word whose bit 0
is the present bit and whose high 20 bits are the frame number; the directory
is at the physical address `cr3`, the directory index is `vaddr >> 22` and the
table index is `(vaddr >> 12) & 0x3FF`. No translation exists when an entry on
the way is not present. -/
def walk (mem : Nat → Nat) (cr3 vaddr : Nat) : Option Nat :=
  let pde := mem (cr3 + 4 * (vaddr / 4194304))
  if pde % 2 = 0 then none
  else
    let pte := mem (pde / 4096 * 4096 + 4 * (vaddr / 4096 % 1024))
    if pte % 2 = 0 then none
    else some (pte / 4096 * 4096 + vaddr % 4096)

/-- The physical address a pointer value refers to. -/
def Kernel.translate (k : Kernel) (vaddr : Nat) : Option Nat :=
  if k.paging_enabled = 0 then some vaddr else walk k.mem k.cr3 vaddr

/-- The read `*p` of an `unsigned long`. -/
def Kernel.vread (k : Kernel) (vaddr : Nat) : Option Nat :=
  (k.translate vaddr).map k.mem

/-- The write `*p = val` of an `unsigned long`. -/
def Kernel.vwrite (k : Kernel) (vaddr val : Nat) : Option Kernel :=
  (k.translate vaddr).map fun pa => { k with mem := store k.mem pa val }

/-- The call `process_mem_pool->get_frames(n)`: the returned frame number and
the state with the pool updated in the registry; a null pointer gives
`none`. -/
def Kernel.process_get_frames (k : Kernel) (n : Nat) : Option (Nat × Kernel) :=
  match k.pools.get? k.process_mem_pool with
  | none => none
  | some p =>
    some ((p.get_frames n).1,
      { k with pools := k.pools.set k.process_mem_pool (p.get_frames n).2 })

/-- The function `PageTable::init_paging`. -/
def PageTable.init_paging (k : Kernel) (_kernel_mem_pool _process_mem_pool _shared_size : Nat) :
    Kernel :=
  { k with kernel_mem_pool := _kernel_mem_pool, process_mem_pool := _process_mem_pool,
           shared_size := _shared_size }

/-- The loop `for(int i = 0; i<shared_frames; i++)` of the constructor that
fills the shared page table; the first argument is the number of iterations
left. -/
def fillShared (page_table : Nat) : Nat → Nat → Nat → Kernel → Option Kernel
  | 0, _, _, k => some k
  | left + 1, i, page_addr, k =>
    (k.vwrite ((page_table + 4 * i) % U32) (page_addr ||| 3)).bind fun k1 =>
      fillShared page_table left (i + 1) ((page_addr + PAGE_SIZE) % U32) k1

/-- The loop `for(int i = 1; i<shared_frames; i++)` of the constructor that
writes 2 into directory slots; the first argument is the number of iterations
left. -/
def fillDirectory (page_directory : Nat) : Nat → Nat → Kernel → Option Kernel
  | 0, _, k => some k
  | left + 1, i, k =>
    (k.vwrite ((page_directory + 4 * i) % U32) 2).bind fun k1 =>
      fillDirectory page_directory left (i + 1) k1

/-- The constructor `PageTable::PageTable` of MP4: the new object and the state
after the call. Every slot of `registered_vm_pool` (there are `MAX_VMS`, a
constant of the absent `page_table.H`) is set to `NULL`. -/
def PageTable.construct (k : Kernel) : Option (PageTable × Kernel) :=
  (k.process_get_frames 1).bind fun r1 =>
  let page_directory := (r1.1 * PAGE_SIZE) % U32
  (r1.2.process_get_frames 1).bind fun r2 =>
  let page_table := (r2.1 * PAGE_SIZE) % U32
  let page_addr := 0
  let shared_frames := r2.2.shared_size / PAGE_SIZE
  (fillShared page_table shared_frames 0 page_addr r2.2).bind fun k1 =>
  (k1.vwrite ((page_directory + 4 * 0) % U32) (page_table ||| 3)).bind fun k2 =>
  (fillDirectory page_directory (shared_frames - 1) 1 k2).bind fun k3 =>
  (k3.vwrite ((page_directory + 4 * dec32 shared_frames) % U32) (page_directory ||| 3)).bind
    fun k4 =>
  some ({ page_directory := page_directory,
          registered_vm_pool := fun _ => none,
          vm_pool_no := 0 }, k4)

/-- The method `PageTable::load`. -/
def PageTable.load (this : PageTable) (k : Kernel) : Kernel :=
  { k with current_page_table := some this, cr3 := this.page_directory }

/-- The function `PageTable::enable_paging`. -/
def PageTable.enable_paging (k : Kernel) : Kernel :=
  { k with paging_enabled := 1 }

/-- The method `PageTable::register_pool`. `MAX_VMS` is declared in
`page_table.H`, which is not among the sources, and is a parameter. -/
def PageTable.register_pool (MAX_VMS : Nat) (this : PageTable) (_vm_pool : VMPool) : PageTable :=
  if this.vm_pool_no < MAX_VMS then
    { this with
      registered_vm_pool := fun i =>
        if i = this.vm_pool_no then some _vm_pool else this.registered_vm_pool i,
      vm_pool_no := inc32 this.vm_pool_no }
  else this

/-- The loop of `handle_fault` over the registered pools: the value of
`vm_idx` (an `int`, initially `-1`) at its end. The first argument is the
number of iterations left. -/
def legitLoop (vm_pool : Nat → Option VMPool) (addr : Nat) : Nat → Nat → Int → Int
  | 0, _, vm_idx => vm_idx
  | left + 1, i, vm_idx =>
    match vm_pool i with
    | some pool =>
      if pool.is_legitimate addr then (i : Int) else legitLoop vm_pool addr left (i + 1) vm_idx
    | none => legitLoop vm_pool addr left (i + 1) vm_idx

/-- The loop `for (int i = 0; i<1024; i++) page_tb[i] = 4;` of `handle_fault`;
the first argument is the number of iterations left. -/
def fillTable (page_tb : Nat) : Nat → Nat → Kernel → Option Kernel
  | 0, _, k => some k
  | left + 1, i, k =>
    (k.vwrite ((page_tb + 4 * i) % U32) 4).bind fun k1 => fillTable page_tb left (i + 1) k1

/-- The function `PageTable::handle_fault` of MP4, for the faulting address
`cr2` (what `read_cr2()` returns) and the error code `err_code` of the fault
record. The result of the legitimacy loop, `vm_idx`, is not used by the
source (the `assert` on it is commented out). -/
def PageTable.handle_fault (k : Kernel) (cr2 err_code : Nat) : Option Kernel :=
  let page_dir := 0xFFFFF000
  let addr := cr2
  let error_code := err_code
  let page_directory_addr := addr >>> 22
  let page_table_addr := addr >>> 12
  if error_code &&& 1 = 0 then
    match k.current_page_table with
    | none => none
    | some cpt =>
      let _vm_idx := legitLoop cpt.registered_vm_pool addr cpt.vm_pool_no 0 (-1)
      (k.vread ((page_dir + 4 * page_directory_addr) % U32)).bind fun pde =>
      if pde &&& 1 = 1 then
        let page_tb := (page_directory_addr <<< 12) ||| 0xFFC00000
        (k.process_get_frames 1).bind fun r =>
        r.2.vwrite ((page_tb + 4 * (page_table_addr &&& 0x03FF)) % U32)
          (((r.1 * PAGE_SIZE) % U32) ||| 3)
      else
        (k.process_get_frames 1).bind fun r1 =>
        (r1.2.vwrite ((page_dir + 4 * page_directory_addr) % U32)
          (((r1.1 * PAGE_SIZE) % U32) ||| 3)).bind fun k1 =>
        let page_tb := (page_directory_addr <<< 12) ||| 0xFFC00000
        (fillTable page_tb 1024 0 k1).bind fun k2 =>
        (k2.process_get_frames 1).bind fun r2 =>
        r2.2.vwrite ((page_tb + 4 * (page_table_addr &&& 0x03FF)) % U32)
          (((r2.1 * PAGE_SIZE) % U32) ||| 3)
  else some k

/-- The method `PageTable::free_page` of MP4. `release_frames` is static, so
the call through `process_mem_pool` walks the registry; writing CR3 with the
value just read leaves the register as it is. -/
def PageTable.free_page (k : Kernel) (_page_no : Nat) : Option Kernel :=
  let page_directory_addr := _page_no >>> 22
  let page_table_addr := _page_no >>> 12
  let page_tb := (page_directory_addr <<< 12) ||| 0xFFC00000
  (k.vread ((page_tb + 4 * (page_table_addr &&& 0x03FF)) % U32)).bind fun pte =>
  let frame := pte / PAGE_SIZE
  let k1 := { k with pools := ContFramePool.release_frames k.pools frame }
  k1.vwrite ((page_tb + 4 * (page_table_addr &&& 0x03FF)) % U32) 2

/-! ## Specification vocabulary for the virtual-memory pool and the page table -/

/-- The number `bytes` rounded up to a multiple of the page size (the `r` of
the allocation claims), as a natural number. -/
def pageRound (bytes : Nat) : Nat := (bytes + 4095) / 4096 * 4096

/-- The address at which `allocate` places the next region: one page after
`base_address` for an empty table, the end of the last region otherwise. -/
def VMPool.endAddr (p : VMPool) : Nat :=
  if p.region_no = 0 then p.base_address + 4096
  else (p.regions (p.region_no - 1)).base_address + (p.regions (p.region_no - 1)).size

/-- The table has the capacity the constructor gives it and `region_no` is
below it (as the assertion of `allocate` leaves it). -/
def VMPool.Valid (p : VMPool) : Prop :=
  p.max_regions = 512 ∧ p.region_no < p.max_regions

instance (p : VMPool) : Decidable p.Valid := by
  unfold VMPool.Valid
  infer_instance

/-- A sequence of `allocate` calls: the returned addresses, in order, and the
pool after the last call; `none` when an assertion fails. -/
def VMPool.allocateAll (p : VMPool) : List Nat → Option (List Nat × VMPool)
  | [] => some ([], p)
  | b :: bs =>
    (p.allocate b).bind fun r =>
      (VMPool.allocateAll r.2 bs).map fun rs => (r.1 :: rs.1, rs.2)

/-- A call made on a virtual-memory pool after its construction. -/
inductive VMOp where
  | allocate (bytes : Nat)
  | release (start : Nat)

/-- The pool after one call; `none` when an assertion fails. -/
def VMPool.step (p : VMPool) : VMOp → Option VMPool
  | .allocate bytes => (p.allocate bytes).map fun r => r.2
  | .release start => (p.release start).map fun r => r.1

/-- The pool after a sequence of calls; `none` when an assertion fails. -/
def VMPool.run (p : VMPool) : List VMOp → Option VMPool
  | [] => some p
  | op :: ops => (p.step op).bind fun q => VMPool.run q ops

/-- The calls of the sequence are the ones the region claims speak of, each in
the state it is made in: `allocate` asks for at least one byte and the new
region ends inside the 32-bit address space, `release` gets the start of a live
region. -/
def VMPool.Admissible : VMPool → List VMOp → Prop
  | _, [] => True
  | p, .allocate bytes :: ops =>
    (0 < bytes ∧ p.endAddr + pageRound bytes ≤ U32) ∧
      match p.step (.allocate bytes) with
      | some q => VMPool.Admissible q ops
      | none => True
  | p, .release start :: ops =>
    (∃ j, j < p.region_no ∧ (p.regions j).base_address = start) ∧
      match p.step (.release start) with
      | some q => VMPool.Admissible q ops
      | none => True

/-- Admissibility of a sequence can be computed. -/
def VMPool.decAdmissible : (p : VMPool) → (ops : List VMOp) → Decidable (p.Admissible ops)
  | _, [] => isTrue trivial
  | p, .allocate bytes :: ops =>
    match h : p.step (.allocate bytes) with
    | some q =>
      match VMPool.decAdmissible q ops with
      | isTrue hq =>
        if hc : 0 < bytes ∧ p.endAddr + pageRound bytes ≤ U32 then
          isTrue (by unfold VMPool.Admissible; rw [h]; exact ⟨hc, hq⟩)
        else isFalse (by unfold VMPool.Admissible; exact fun hh => hc hh.1)
      | isFalse hq => isFalse (by unfold VMPool.Admissible; rw [h]; exact fun hh => hq hh.2)
    | none =>
      if hc : 0 < bytes ∧ p.endAddr + pageRound bytes ≤ U32 then
        isTrue (by unfold VMPool.Admissible; rw [h]; exact ⟨hc, trivial⟩)
      else isFalse (by unfold VMPool.Admissible; exact fun hh => hc hh.1)
  | p, .release start :: ops =>
    match h : p.step (.release start) with
    | some q =>
      match VMPool.decAdmissible q ops with
      | isTrue hq =>
        if hc : ∃ j, j < p.region_no ∧ (p.regions j).base_address = start then
          isTrue (by unfold VMPool.Admissible; rw [h]; exact ⟨hc, hq⟩)
        else isFalse (by unfold VMPool.Admissible; exact fun hh => hc hh.1)
      | isFalse hq => isFalse (by unfold VMPool.Admissible; rw [h]; exact fun hh => hq hh.2)
    | none =>
      if hc : ∃ j, j < p.region_no ∧ (p.regions j).base_address = start then
        isTrue (by unfold VMPool.Admissible; rw [h]; exact ⟨hc, trivial⟩)
      else isFalse (by unfold VMPool.Admissible; exact fun hh => hc hh.1)

instance (p : VMPool) (ops : List VMOp) : Decidable (p.Admissible ops) :=
  VMPool.decAdmissible p ops

/-- The live regions lie in increasing address order after the metadata page,
without overlap, each at least one page long and inside the address space. -/
def VMPool.Ordered (p : VMPool) : Prop :=
  (∀ k, k < p.region_no →
    4096 ≤ (p.regions k).size ∧ (p.regions k).base_address + (p.regions k).size ≤ U32) ∧
  (0 < p.region_no → p.base_address + 4096 ≤ (p.regions 0).base_address) ∧
  ∀ k, k + 1 < p.region_no →
    (p.regions k).base_address + (p.regions k).size ≤ (p.regions (k + 1)).base_address

/-- The chain of the region claims: region 0 starts one page after
`base_address` and every live region starts where the previous one ends. -/
def VMPool.Chained (p : VMPool) : Prop :=
  (0 < p.region_no → (p.regions 0).base_address = p.base_address + 4096) ∧
  ∀ k, k + 1 < p.region_no →
    (p.regions (k + 1)).base_address = (p.regions k).base_address + (p.regions k).size

/-- Scenario S4: a fresh pool at `B = 0x10000000` with size 16 F, over memory
whose descriptors are all zero except the one just before the table. -/
def vmS4 : VMPool :=
  VMPool.construct 0x10000000 (16 * 4096)
    (fun i => if i = U32 - 1 then { base_address := 7, size := 8192 }
              else { base_address := 0, size := 0 })

/-- A pool at `B = 0x10000000` whose table holds 511 one-page regions. -/
def vmAlmostFull : VMPool :=
  { base_address := 0x10000000, size := 0x10000000, region_no := 511, max_regions := 512,
    regions := fun i => { base_address := 0x10000000 + 4096 * (i + 1), size := 4096 } }

/-- Page-directory entry `d` of the installed directory. -/
def Kernel.pde (k : Kernel) (d : Nat) : Nat := k.mem (k.cr3 + 4 * d)

/-- Entry `i` of the page table that page-directory entry `d` refers to. -/
def Kernel.pte (k : Kernel) (d i : Nat) : Nat := k.mem (k.pde d / 4096 * 4096 + 4 * i)

/-- Paging is enabled on a page-aligned directory whose slot 1023 is present
and refers to the directory itself (the self-map). -/
def Kernel.SelfMapped (k : Kernel) : Prop :=
  k.paging_enabled ≠ 0 ∧ k.cr3 % 4096 = 0 ∧ k.cr3 + 4096 ≤ U32 ∧
  k.pde 1023 % 2 = 1 ∧ k.pde 1023 / 4096 * 4096 = k.cr3

instance (k : Kernel) : Decidable k.SelfMapped := by
  unfold Kernel.SelfMapped
  infer_instance

/-- A pool at `B = 0x10000000` with three live regions of 2, 1 and 1 pages
(the state of S4 after `allocate(8192)`, `allocate(4096)`, `allocate(4096)`). -/
def vmThree : VMPool :=
  { base_address := 0x10000000, size := 16 * 4096, region_no := 3, max_regions := 512,
    regions := fun i =>
      if i = 0 then { base_address := 0x10001000, size := 8192 }
      else if i = 1 then { base_address := 0x10003000, size := 4096 }
      else if i = 2 then { base_address := 0x10004000, size := 4096 }
      else { base_address := 0, size := 0 } }

/-- The sequence contains `allocate` calls only. -/
def VMOp.isAllocate : VMOp → Prop
  | .allocate _ => True
  | .release _ => False

/-- The state at boot, before paging is enabled: zeroed physical memory, the
S1 pool (frames 512..1535) as the only pool of the registry and as the process
pool, and the given `shared_size`. -/
def kernelBoot (_shared_size : Nat) : Kernel :=
  { mem := fun _ => 0, cr3 := 0, paging_enabled := 0, pools := [poolS1],
    kernel_mem_pool := 0, process_mem_pool := 0, shared_size := _shared_size,
    current_page_table := none }

/-- A state with paging enabled: the directory is frame 513 (`0x201000`), its
slot 0 refers to the page table in frame 514 (`0x202000`), whose entry 0 maps
page 0; slot 1023 is the self-map and the slots between hold 2. Frames 513 and
514 are taken from the S1 pool, which is the process pool. -/
def kernelPaged : Kernel :=
  { mem := fun x =>
      if x = 0x201000 then 0x202003
      else if x = 0x201FFC then 0x201003
      else if x = 0x202000 then 3
      else if 0x201000 < x ∧ x < 0x201FFC ∧ x % 4 = 0 then 2
      else 0,
    cr3 := 0x201000, paging_enabled := 1,
    pools := [((poolS1.get_frames 1).2.get_frames 1).2],
    kernel_mem_pool := 0, process_mem_pool := 0, shared_size := 4194304,
    current_page_table :=
      some { page_directory := 0x201000, registered_vm_pool := fun _ => none, vm_pool_no := 0 } }

/-! # Scheduler (MP5 and MP6 `scheduler.C`) and blocking disk (MP6 `blocking_disk.C`)

Modelling conventions.

* A `Thread *` is a thread handle; only `ThreadId()` is read from it.
* `Thread::dispatch_to(t)` hands the CPU to `t`; for the scheduler state it is
  the event "`t` is dispatched", which `yield` returns next to the new state.
* `disk->is_ready()` polls the controller; what it returns is an argument of
  the call that polls.
* The `BlockingDisk` that the scheduler points to is kept by value in the
  scheduler state (`none` is the `NULL` pointer); an access through `NULL`
  gives `none`.
-/

/-- Modelled from the spec: the class `Thread` is declared in `thread.H`, which
is not among the sources; the spec describes an opaque thread handle with an
integer thread id. `handle` tells apart thread objects, `ThreadId` is what
`ThreadId()` returns. -/
structure Thread where
  handle : Nat
  ThreadId : Int
deriving DecidableEq

/-- Modelled from the spec: the class `Queue` is declared in `queue.H`, which is
not among the sources; the spec describes a FIFO queue with enqueue and
dequeue. The content of a queue, head first. -/
abbrev Queue : Type := List Thread

/-- Modelled from the spec: `Queue::enqueue` puts a thread at the tail. -/
def Queue.enqueue (q : Queue) (t : Thread) : Queue := q ++ [t]

/-- Modelled from the spec: `Queue::dequeue` takes the thread at the head; the
spec does not say what it does on an empty queue, which gives `none`. -/
def Queue.dequeue (q : Queue) : Option (Thread × Queue) :=
  match q with
  | [] => none
  | t :: rest => some (t, rest)

/-- Modelled from the spec: the counters `size` of `Scheduler` and of
`BlockingDisk` are declared in headers that are not among the sources; they
are taken to be `int` (as the loop index they are compared with). The value of
a 32-bit `int` after an arithmetic step on it. -/
def int32 (x : Int) : Int := (x + 2147483648) % 4294967296 - 2147483648

/-- The data members of the class `Scheduler` of MP5. -/
structure MP5.Scheduler where
  size : Int
  queue : Queue

/-- The constructor `Scheduler::Scheduler` of MP5; the queue member starts
empty. -/
def MP5.Scheduler.construct : MP5.Scheduler := { size := 0, queue := [] }

/-- The method `Scheduler::yield` of MP5: the thread dispatched, if any, and the
state after the call. -/
def MP5.Scheduler.yield (s : MP5.Scheduler) : Option (Option Thread × MP5.Scheduler) :=
  if s.size = 0 then some (none, s)
  else
    let size := int32 (s.size - 1)
    match s.queue.dequeue with
    | none => none
    | some (cur_thread, queue) => some (some cur_thread, { size := size, queue := queue })

/-- The method `Scheduler::resume` of MP5. -/
def MP5.Scheduler.resume (s : MP5.Scheduler) (_thread : Thread) : MP5.Scheduler :=
  { queue := s.queue.enqueue _thread, size := int32 (s.size + 1) }

/-- The method `Scheduler::add` of MP5. -/
def MP5.Scheduler.add (s : MP5.Scheduler) (_thread : Thread) : MP5.Scheduler :=
  { queue := s.queue.enqueue _thread, size := int32 (s.size + 1) }

/-- The loop `for (int i = 0; i < size; i++)` of `Scheduler::terminate` (the
same text in MP5 and MP6): `size` and the queue after the loop. The bound
`size` is read again at every iteration. `i` grows by one per iteration and
`size` never grows, so the first argument (the value of `size` at the call)
bounds the number of iterations; `none` when `dequeue` meets an empty queue or
the bound is used up. -/
def terminateLoop (_thread : Thread) : Nat → Int → Int → Queue → Option (Int × Queue)
  | 0, i, size, queue => if i < size then none else some (size, queue)
  | fuel + 1, i, size, queue =>
    if i < size then
      match queue.dequeue with
      | none => none
      | some (temp, q) =>
        if _thread.ThreadId = temp.ThreadId then
          terminateLoop _thread fuel (i + 1) (int32 (size - 1)) q
        else terminateLoop _thread fuel (i + 1) size (q.enqueue temp)
    else some (size, queue)

/-- The method `Scheduler::terminate` of MP5. -/
def MP5.Scheduler.terminate (s : MP5.Scheduler) (_thread : Thread) : Option MP5.Scheduler :=
  (terminateLoop _thread s.size.toNat 0 s.size s.queue).map fun r =>
    { size := r.1, queue := r.2 }

/-- The data members of the class `BlockingDisk` that the scheduler and the
disk's own methods read or write. -/
structure BlockingDisk where
  size : Int
  disk_queue : Queue
deriving DecidableEq

/-- The constructor `BlockingDisk::BlockingDisk`. -/
def BlockingDisk.construct : BlockingDisk := { size := 0, disk_queue := [] }

/-- The method `BlockingDisk::disk_enqueue`. -/
def BlockingDisk.disk_enqueue (this : BlockingDisk) (thread : Thread) : BlockingDisk :=
  { disk_queue := this.disk_queue.enqueue thread, size := int32 (this.size + 1) }

/-- The data members of the class `Scheduler` of MP6. -/
structure MP6.Scheduler where
  size : Int
  queue : Queue
  disk : Option BlockingDisk

/-- The constructor `Scheduler::Scheduler` of MP6. -/
def MP6.Scheduler.construct : MP6.Scheduler := { size := 0, queue := [], disk := none }

/-- The method `Scheduler::yield` of MP6: the thread dispatched, if any, and the
state after the call. `is_ready` is what `disk->is_ready()` returns. The
condition is evaluated from the left, so `disk->is_ready()` is called through
`disk` before `disk != NULL` is tested. -/
def MP6.Scheduler.yield (s : MP6.Scheduler) (is_ready : Bool) :
    Option (Option Thread × MP6.Scheduler) :=
  match s.disk with
  | none => none
  | some disk =>
    if is_ready = true ∧ disk.size ≠ 0 ∧ s.disk.isSome = true then
      match disk.disk_queue.dequeue with
      | none => none
      | some (disk_head, disk_queue) =>
        some (some disk_head,
          { s with disk := some { disk_queue := disk_queue, size := int32 (disk.size - 1) } })
    else
      if s.size = 0 then some (none, s)
      else
        let size := int32 (s.size - 1)
        match s.queue.dequeue with
        | none => none
        | some (cur_thread, queue) => some (some cur_thread, { s with size := size, queue := queue })

/-- The method `Scheduler::resume` of MP6. -/
def MP6.Scheduler.resume (s : MP6.Scheduler) (_thread : Thread) : MP6.Scheduler :=
  { s with queue := s.queue.enqueue _thread, size := int32 (s.size + 1) }

/-- The method `Scheduler::add` of MP6. -/
def MP6.Scheduler.add (s : MP6.Scheduler) (_thread : Thread) : MP6.Scheduler :=
  { s with queue := s.queue.enqueue _thread, size := int32 (s.size + 1) }

/-- The method `Scheduler::terminate` of MP6. -/
def MP6.Scheduler.terminate (s : MP6.Scheduler) (_thread : Thread) : Option MP6.Scheduler :=
  (terminateLoop _thread s.size.toNat 0 s.size s.queue).map fun r =>
    { s with size := r.1, queue := r.2 }

/-- The method `Scheduler::add_BlockingDisk` of MP6. -/
def MP6.Scheduler.add_BlockingDisk (s : MP6.Scheduler) (_disk : BlockingDisk) : MP6.Scheduler :=
  { s with disk := some _disk }

/-- The method `BlockingDisk::wait_until_ready`, called by `cur_thread` on the
disk that is registered with `SYSTEM_SCHEDULER`; `is_ready` is what the poll of
the method returns and `is_ready_at_yield` what the poll inside `yield`
returns. A disk that is not registered is not represented. -/
def BlockingDisk.wait_until_ready (s : MP6.Scheduler) (cur_thread : Thread)
    (is_ready is_ready_at_yield : Bool) : Option (Option Thread × MP6.Scheduler) :=
  if ¬ (is_ready = true) then
    match s.disk with
    | none => none
    | some this =>
      MP6.Scheduler.yield { s with disk := some (this.disk_enqueue cur_thread) } is_ready_at_yield
  else some (none, s)

/-! ## Specification vocabulary for the scheduler, and further scenarios -/

/-- A call that puts a thread on the ready queue. -/
inductive SchedCall where
  | add (_thread : Thread)
  | resume (_thread : Thread)

/-- The thread a call enqueues. -/
def SchedCall.thread : SchedCall → Thread
  | .add t => t
  | .resume t => t

/-- The MP5 scheduler after a sequence of `add`/`resume` calls. -/
def MP5.Scheduler.enqueueAll (s : MP5.Scheduler) : List SchedCall → MP5.Scheduler
  | [] => s
  | .add t :: calls => MP5.Scheduler.enqueueAll (s.add t) calls
  | .resume t :: calls => MP5.Scheduler.enqueueAll (s.resume t) calls

/-- The MP6 scheduler after a sequence of `add`/`resume` calls. -/
def MP6.Scheduler.enqueueAll (s : MP6.Scheduler) : List SchedCall → MP6.Scheduler
  | [] => s
  | .add t :: calls => MP6.Scheduler.enqueueAll (s.add t) calls
  | .resume t :: calls => MP6.Scheduler.enqueueAll (s.resume t) calls

/-- The outcome of `k` successive `yield` calls of MP5: what each call
dispatched, in order, and the state after the last one. -/
def MP5.Scheduler.yields : Nat → MP5.Scheduler → Option (List (Option Thread) × MP5.Scheduler)
  | 0, s => some ([], s)
  | k + 1, s =>
    s.yield.bind fun r =>
      (MP5.Scheduler.yields k r.2).map fun rs => (r.1 :: rs.1, rs.2)

/-- The outcome of successive `yield` calls of MP6, one per poll result of the
list: what each call dispatched, in order, and the state after the last one. -/
def MP6.Scheduler.yields : List Bool → MP6.Scheduler →
    Option (List (Option Thread) × MP6.Scheduler)
  | [], s => some ([], s)
  | is_ready :: polls, s =>
    (s.yield is_ready).bind fun r =>
      (MP6.Scheduler.yields polls r.2).map fun rs => (r.1 :: rs.1, rs.2)

/-- Three threads with the ids 1, 2 and 3. -/
def T1 : Thread := { handle := 1, ThreadId := 1 }

/-- The second thread of the scenarios. -/
def T2 : Thread := { handle := 2, ThreadId := 2 }

/-- The third thread of the scenarios. -/
def T3 : Thread := { handle := 3, ThreadId := 3 }

/-- Scenario S5: `add(T1)`, `add(T2)` on a new MP6 scheduler with a new disk
registered, then `disk_enqueue(T3)` on that disk. -/
def schedS5 : MP6.Scheduler :=
  { ((MP6.Scheduler.construct.add_BlockingDisk BlockingDisk.construct).add T1).add T2 with
    disk := some (BlockingDisk.construct.disk_enqueue T3) }

/-- A pool whose band does not start at frame 0: 16 frames from frame 16 on,
the bitmap (4 bytes) in the first frame, over memory that held `0xFF` in every
byte. -/
def poolHigh : ContFramePool :=
  (ContFramePool.construct 16 16 0 0 (fun _ => 0xFF)).get (by decide)

/-- A process pool of 16 frames from frame 512 on with no FREE frame left: the
first frame holds the bitmap and `get_frames(15)` has taken the other 15. -/
def poolExhausted : ContFramePool :=
  (((ContFramePool.construct 512 16 0 0 (fun _ => 0xFF)).get (by decide)).get_frames 15).2

/-- The paged state with the exhausted pool as the only pool. -/
def kernelExhausted : Kernel := { kernelPaged with pools := [poolExhausted] }

/-- The state with `current_page_table` replaced, everything else as it is. -/
def Kernel.withPageTable (k : Kernel) (pt : Option PageTable) : Kernel :=
  { k with current_page_table := pt }

/-- The page table of the paged state after `register_pool` of the pool of S4
(the window `0x10000000 .. 0x1000FFFF`), with room for it (`MAX_VMS` taken as
8). -/
def ptRegistered : PageTable :=
  PageTable.register_pool 8
    { page_directory := 0x201000, registered_vm_pool := fun _ => none, vm_pool_no := 0 } vmS4

/-! # Properties -/

/-! ## Byte-level facts -/

set_option maxRecDepth 1000000 in
theorem cellOf_free_test : ∀ b, b < 256 → ∀ j, j < 4 →
    ((b &&& (0xC0 >>> (2 * j)) = 0) ↔ cellOf b j = 0) := by
  decide

set_option maxRecDepth 1000000 in
theorem cellOf_lt_four : ∀ b, b < 256 → ∀ j, j < 4 → cellOf b j < 4 := by
  decide

set_option maxRecDepth 1000000 in
theorem cellOf_set_head : ∀ b, b < 256 → ∀ j, j < 4 → ∀ j2, j2 < 4 →
    cellOf (((b &&& rotr8 0x3F (j * 2)) ||| (0x40 >>> (j * 2))) % 256) j2
      = if j2 = j then 1 else cellOf b j2 := by
  decide

set_option maxRecDepth 1000000 in
theorem cellOf_set_alloc : ∀ b, b < 256 → ∀ j, j < 4 → ∀ j2, j2 < 4 →
    cellOf ((b ||| (0xC0 >>> (2 * j))) % 256) j2 = if j2 = j then 3 else cellOf b j2 := by
  decide

theorem cellAt_setByte (bitmap : Nat → Nat) (i v c : Nat) :
    cellAt (setByte bitmap i v) c
      = if c / 4 = i then cellOf (v % 256) (c % 4) else cellAt bitmap c := by
  unfold cellAt setByte
  by_cases h : c / 4 = i <;> simp [h]

theorem setByte_lt (bitmap : Nat → Nat) (i v : Nat) (h : ∀ x, bitmap x < 256) :
    ∀ x, setByte bitmap i v x < 256 := by
  intro x
  unfold setByte
  split
  · exact Nat.mod_lt _ (by decide)
  · exact h x

theorem dec32_of_pos {x : Nat} (h0 : 0 < x) (h1 : x ≤ U32) : dec32 x = x - 1 := by
  unfold dec32 U32 at *
  omega

/-! ## The search loop of get_frames -/

theorem scanCell_step (p : ContFramePool) (hv : p.Valid) (n i j : Nat) (s : ScanState)
    (hn : 1 ≤ n) (hn32 : n < U32) (hj : j < 4) (hk : 4 * i + j < p.nframes)
    (hinv : ScanInv p n (4 * i + j) s) :
    ((scanCell p n i j (0xC0 >>> (2 * j)) s).num_frames_req = 0 →
        ScanDone p n (4 * i + j + 1) (scanCell p n i j (0xC0 >>> (2 * j)) s)) ∧
    ((scanCell p n i j (0xC0 >>> (2 * j)) s).num_frames_req ≠ 0 →
        ScanInv p n (4 * i + j + 1) (scanCell p n i j (0xC0 >>> (2 * j)) s)) := by
  obtain ⟨r, hr, hpos, hrk, hfree, h0, h1, hfit⟩ := hinv
  have hcell : p.cell (4 * i + j) = cellOf (p.bitmap i) j := by
    unfold ContFramePool.cell cellAt
    have e1 : (4 * i + j) / 4 = i := by omega
    have e2 : (4 * i + j) % 4 = j := by omega
    rw [e1, e2]
  have htest := cellOf_free_test (p.bitmap i) (hv.byte_lt i) j hj
  have hband := hv.band
  have hdec : dec32 s.num_frames_req = s.num_frames_req - 1 :=
    dec32_of_pos hpos (by unfold U32 at *; omega)
  by_cases hc : p.bitmap i &&& (0xC0 >>> (2 * j)) = 0
  · have hfr : p.cell (4 * i + j) = 0 := by rw [hcell]; exact htest.mp hc
    by_cases hi : s.isfree = 0
    · obtain ⟨hr0, hfn⟩ := h0 hi
      have hmod : (s.frame_no + (i * 4 + j)) % U32 = p.base_frame_no + (4 * i + j) := by
        have hlt : s.frame_no + (i * 4 + j) < U32 := by omega
        rw [Nat.mod_eq_of_lt hlt]; omega
      simp only [scanCell, hc, hi, if_true, hdec, hmod]
      unfold ScanDone ScanInv
      dsimp only
      refine ⟨fun hz => ⟨hz, by omega, ?_, by omega, by omega, hj, ?_⟩,
              fun hz => ⟨1, by omega, by omega, by omega, ?_, ?_, ?_, ?_⟩⟩
      · intro c hc1 hc2
        have : c = 4 * i + j := by omega
        rw [this]; exact hfr
      · intro t ht
        obtain ⟨c, a1, a2, _, a4⟩ := hfit t (by omega)
        exact ⟨c, a1, a2, a4⟩
      · intro c hc1 hc2
        have : c = 4 * i + j := by omega
        rw [this]; exact hfr
      · intro h; simp at h
      · intro _; exact ⟨by omega, by omega, by omega, hj⟩
      · intro t ht
        obtain ⟨c, a1, a2, a3, a4⟩ := hfit t (by omega)
        exact ⟨c, a1, a2, by omega, a4⟩
    · obtain ⟨hrpos, hfn, hmn, hn4⟩ := h1 hi
      simp only [scanCell, hc, hi, if_true, if_false, hdec]
      unfold ScanDone ScanInv
      dsimp only
      refine ⟨fun hz => ⟨hz, by omega, ?_, by omega, by omega, hn4, ?_⟩,
              fun hz => ⟨r + 1, by omega, by omega, by omega, ?_, ?_, ?_, ?_⟩⟩
      · intro c hc1 hc2
        by_cases hck : c = 4 * i + j
        · rw [hck]; exact hfr
        · exact hfree c (by omega) (by omega)
      · intro t ht
        obtain ⟨c, a1, a2, _, a4⟩ := hfit t (by omega)
        exact ⟨c, a1, a2, a4⟩
      · intro c hc1 hc2
        by_cases hck : c = 4 * i + j
        · rw [hck]; exact hfr
        · exact hfree c (by omega) (by omega)
      · intro h; exact absurd h hi
      · intro _; exact ⟨by omega, by omega, by omega, hn4⟩
      · intro t ht
        obtain ⟨c, a1, a2, a3, a4⟩ := hfit t (by omega)
        exact ⟨c, a1, a2, by omega, a4⟩
  · have hnf : p.cell (4 * i + j) ≠ 0 := by
      rw [hcell]; exact fun h => hc (htest.mpr h)
    simp only [scanCell, hc, if_false]
    unfold ScanDone ScanInv
    dsimp only
    refine ⟨fun hz => by omega, fun _ => ⟨0, by omega, by omega, by omega, ?_, ?_, ?_, ?_⟩⟩
    · intro c hc1 hc2; omega
    · intro _; exact ⟨rfl, rfl⟩
    · intro h; simp at h
    · intro t ht
      by_cases htr : t + r < 4 * i + j
      · obtain ⟨c, a1, a2, a3, a4⟩ := hfit t htr
        exact ⟨c, a1, a2, by omega, a4⟩
      · exact ⟨4 * i + j, by omega, by omega, by omega, hnf⟩

theorem scanInner_spec (p : ContFramePool) (hv : p.Valid) (n i : Nat)
    (hn : 1 ≤ n) (hn32 : n < U32) (hi : 4 * i + 4 ≤ p.nframes) :
    ∀ left j s, left + j = 4 → ScanInv p n (4 * i + j) s →
      ((scanInner p n i left j (0xC0 >>> (2 * j)) s).num_frames_req = 0 →
        ∃ k, k ≤ 4 * i + 4 ∧ ScanDone p n k (scanInner p n i left j (0xC0 >>> (2 * j)) s)) ∧
      ((scanInner p n i left j (0xC0 >>> (2 * j)) s).num_frames_req ≠ 0 →
        ScanInv p n (4 * i + 4) (scanInner p n i left j (0xC0 >>> (2 * j)) s)) := by
  intro left
  induction left with
  | zero =>
    intro j s hj hinv
    have hj4 : j = 4 := by omega
    subst hj4
    simp only [scanInner]
    refine ⟨fun hz => ?_, fun _ => hinv⟩
    obtain ⟨r, _, hpos, _⟩ := hinv
    omega
  | succ left ih =>
    intro j s hj hinv
    have hj4 : j < 4 := by omega
    have hstep := scanCell_step p hv n i j s hn hn32 hj4 (by omega) hinv
    simp only [scanInner]
    by_cases hz : (scanCell p n i j (0xC0 >>> (2 * j)) s).num_frames_req = 0
    · simp only [hz, if_true]
      exact ⟨fun _ => ⟨4 * i + j + 1, by omega, hstep.1 hz⟩, fun h => absurd rfl h⟩
    · simp only [hz, if_false]
      have hmask : (0xC0 >>> (2 * j)) >>> 2 = 0xC0 >>> (2 * (j + 1)) := by
        rw [← Nat.shiftRight_add, Nat.mul_succ]
      rw [hmask]
      exact ih (j + 1) _ (by omega) (hstep.2 hz)

theorem scanOuter_spec (p : ContFramePool) (hv : p.Valid) (n : Nat)
    (hn : 1 ≤ n) (hn32 : n < U32) :
    ∀ left i s, 4 * (i + left) ≤ p.nframes → ScanInv p n (4 * i) s →
      ((scanOuter p n left i s).num_frames_req = 0 →
        ∃ k, k ≤ 4 * (i + left) ∧ ScanDone p n k (scanOuter p n left i s)) ∧
      ((scanOuter p n left i s).num_frames_req ≠ 0 →
        ScanInv p n (4 * (i + left)) (scanOuter p n left i s)) := by
  intro left
  induction left with
  | zero =>
    intro i s _ hinv
    simp only [scanOuter]
    refine ⟨fun hz => ?_, fun _ => hinv⟩
    obtain ⟨r, _, hpos, _⟩ := hinv
    omega
  | succ left ih =>
    intro i s hi hinv
    have hin := scanInner_spec p hv n i hn hn32 (by omega) 4 0 s rfl hinv
    simp only [scanOuter]
    by_cases hz : (scanInner p n i 4 0 0xC0 s).num_frames_req = 0
    · simp only [hz, if_true]
      obtain ⟨k, hk, hd⟩ := hin.1 hz
      exact ⟨fun _ => ⟨k, by omega, hd⟩, fun h => absurd rfl h⟩
    · simp only [hz, if_false]
      have h2 := ih (i + 1) _ (by omega) (hin.2 hz)
      have e : 4 * (i + 1 + left) = 4 * (i + (left + 1)) := by omega
      rw [e] at h2
      exact h2

theorem scanInit_inv (p : ContFramePool) (n : Nat) (hn : 1 ≤ n) :
    ScanInv p n (4 * 0) (scanInit p n) := by
  refine ⟨0, by simp [scanInit], by simp [scanInit]; omega, by omega, ?_, ?_, ?_, ?_⟩
  · intro c _ h; omega
  · intro _; exact ⟨rfl, rfl⟩
  · intro h; simp [scanInit] at h
  · intro t h; omega

/-- Outcome of the whole search: either it stops with a first-fit run, or it
exhausts the bitmap and there is no FREE run of the requested length. -/
theorem scan_outcome (p : ContFramePool) (hv : p.Valid) (n : Nat)
    (hn : 1 ≤ n) (hn32 : n < U32) :
    ((scanOuter p n (p.nframes / 4) 0 (scanInit p n)).num_frames_req = 0 →
      ∃ k, k ≤ p.nframes ∧
        ScanDone p n k (scanOuter p n (p.nframes / 4) 0 (scanInit p n))) ∧
    ((scanOuter p n (p.nframes / 4) 0 (scanInit p n)).num_frames_req ≠ 0 →
      ¬ p.HasFreeRun n) := by
  have hm := hv.mult4
  have hN : 4 * (0 + p.nframes / 4) = p.nframes := by omega
  have h := scanOuter_spec p hv n hn hn32 (p.nframes / 4) 0 (scanInit p n) (by omega)
    (scanInit_inv p n hn)
  rw [hN] at h
  refine ⟨h.1, fun hz => ?_⟩
  obtain ⟨r, hr, hpos, hrk, _, _, _, hfit⟩ := h.2 hz
  rintro ⟨t, _, ht, hfree⟩
  obtain ⟨c, a1, a2, a3, a4⟩ := hfit t (by omega)
  exact a4 (hfree c a2 a1)

/-! ## The marking phase of get_frames -/

theorem allocSpec_zero (bm : Nat → Nat) (hb : ∀ x, bm x < 256) (k : Nat) :
    AllocSpec bm bm k 0 := by
  refine ⟨fun c => ?_, hb⟩
  have : ¬ (k ≤ c ∧ c < k + 0) := by omega
  rw [if_neg this]

theorem allocSpec_trans {bm bm1 bm2 : Nat → Nat} {k a b : Nat}
    (h1 : AllocSpec bm bm1 k a) (h2 : AllocSpec bm1 bm2 (k + a) b) :
    AllocSpec bm bm2 k (a + b) := by
  refine ⟨fun c => ?_, h2.2⟩
  rw [h2.1 c, h1.1 c]
  by_cases hA : k + a ≤ c ∧ c < k + a + b
  · have hB : k ≤ c ∧ c < k + (a + b) := by omega
    simp [hA, hB]
  · by_cases hB : k ≤ c ∧ c < k + a
    · have hC : k ≤ c ∧ c < k + (a + b) := by omega
      simp [hA, hB, hC]
    · have hC : ¬ (k ≤ c ∧ c < k + (a + b)) := by omega
      simp [hA, hB, hC]

theorem allocSpec_one (bm : Nat → Nat) (hb : ∀ x, bm x < 256) (i j : Nat) (hj : j < 4) :
    AllocSpec bm (setByte bm i (bm i ||| (0xC0 >>> (2 * j)))) (4 * i + j) 1 := by
  refine ⟨fun c => ?_, setByte_lt bm i _ hb⟩
  rw [cellAt_setByte]
  by_cases hc : c / 4 = i
  · have hset := cellOf_set_alloc (bm i) (hb i) j hj (c % 4) (Nat.mod_lt _ (by decide))
    rw [if_pos hc, hset]
    by_cases hcj : c % 4 = j
    · have hB : 4 * i + j ≤ c ∧ c < 4 * i + j + 1 := by omega
      simp [hcj, hB]
    · have hB : ¬ (4 * i + j ≤ c ∧ c < 4 * i + j + 1) := by omega
      simp only [hcj, hB, if_false]
      unfold cellAt
      rw [hc]
  · have hB : ¬ (4 * i + j ≤ c ∧ c < 4 * i + j + 1) := by omega
    simp [hc, hB]

theorem markInner_spec (i : Nat) :
    ∀ left j bm num, left + j = 4 → (∀ x, bm x < 256) → num < U32 →
      AllocSpec bm (markInner i left bm num (0xC0 >>> (2 * j))).1 (4 * i + j) (min num left) ∧
      (markInner i left bm num (0xC0 >>> (2 * j))).2 = num - min num left := by
  intro left
  induction left with
  | zero =>
    intro j bm num _ hb _
    simp only [markInner, Nat.min_zero, Nat.sub_zero, and_true]
    exact allocSpec_zero bm hb _
  | succ left ih =>
    intro j bm num hj hb hnum
    simp only [markInner]
    by_cases hz : num = 0
    · subst hz
      simp only [if_true, Nat.zero_min, Nat.sub_zero, and_true]
      exact allocSpec_zero bm hb _
    · simp only [hz, if_false]
      have hmask : (0xC0 >>> (2 * j)) >>> 2 = 0xC0 >>> (2 * (j + 1)) := by
        rw [← Nat.shiftRight_add, Nat.mul_succ]
      have hdec : dec32 num = num - 1 := dec32_of_pos (by omega) (by omega)
      rw [hmask, hdec]
      have h1 := allocSpec_one bm hb i j (by omega)
      have h2 := ih (j + 1) (setByte bm i (bm i ||| (0xC0 >>> (2 * j)))) (num - 1) (by omega)
        h1.2 (by omega)
      have e : 4 * i + (j + 1) = 4 * i + j + 1 := by omega
      rw [e] at h2
      have h3 := allocSpec_trans h1 h2.1
      have e2 : 1 + min (num - 1) left = min num (left + 1) := by omega
      rw [e2] at h3
      exact ⟨h3, by rw [h2.2]; omega⟩

theorem markOuter_spec :
    ∀ left i bm num, (∀ x, bm x < 256) → num < U32 →
      AllocSpec bm (markOuter left i bm num).1 (4 * i) (min num (4 * left)) ∧
      (markOuter left i bm num).2 = num - min num (4 * left) := by
  intro left
  induction left with
  | zero =>
    intro i bm num hb _
    simp only [markOuter, Nat.mul_zero, Nat.min_zero, Nat.sub_zero, and_true]
    exact allocSpec_zero bm hb _
  | succ left ih =>
    intro i bm num hb hnum
    have hin := markInner_spec i 4 0 bm num rfl hb hnum
    simp only [markOuter]
    simp only [Nat.mul_zero, Nat.shiftRight_zero, Nat.add_zero] at hin
    by_cases hz : (markInner i 4 bm num 0xC0).2 = 0
    · rw [if_pos hz]
      have hle : num ≤ 4 := by have := hin.2; omega
      have e : min num (4 * (left + 1)) = min num 4 := by omega
      rw [e]
      exact hin
    · rw [if_neg hz]
      have hgt : 4 < num := by have := hin.2; omega
      have h2 := ih (i + 1) (markInner i 4 bm num 0xC0).1 (markInner i 4 bm num 0xC0).2
        hin.1.2 (by have := hin.2; omega)
      have hin1 := hin.1
      have e0 : min num 4 = 4 := by omega
      rw [e0] at hin1
      have e1 : 4 * (i + 1) = 4 * i + 4 := by omega
      rw [e1] at h2
      have h3 := allocSpec_trans hin1 h2.1
      have hr := hin.2
      have e2 : 4 + min (markInner i 4 bm num 0xC0).2 (4 * left) = min num (4 * (left + 1)) := by
        omega
      rw [e2] at h3
      exact ⟨h3, by rw [h2.2]; omega⟩

theorem markFirst_spec (m : Nat) :
    ∀ fuel n bm num, 4 ≤ fuel + n → (∀ x, bm x < 256) → num < U32 →
      AllocSpec bm (markFirst m fuel bm num n (0xC0 >>> (2 * n))).1 (4 * m + n)
        (min num (4 - n)) ∧
      (markFirst m fuel bm num n (0xC0 >>> (2 * n))).2 = num - min num (4 - n) := by
  intro fuel
  induction fuel with
  | zero =>
    intro n bm num hn hb _
    have e : min num (4 - n) = 0 := by omega
    simp only [markFirst, e, Nat.sub_zero, and_true]
    exact allocSpec_zero bm hb _
  | succ fuel ih =>
    intro n bm num hn hb hnum
    simp only [markFirst]
    by_cases hc : num > 0 ∧ n < 4
    · simp only [hc, and_self, if_true]
      have hmask : (0xC0 >>> (2 * n)) >>> 2 = 0xC0 >>> (2 * (n + 1)) := by
        rw [← Nat.shiftRight_add, Nat.mul_succ]
      have hdec : dec32 num = num - 1 := dec32_of_pos (by omega) (by omega)
      rw [hmask, hdec]
      have h1 := allocSpec_one bm hb m n hc.2
      have h2 := ih (n + 1) (setByte bm m (bm m ||| (0xC0 >>> (2 * n)))) (num - 1) (by omega)
        h1.2 (by omega)
      have e : 4 * m + (n + 1) = 4 * m + n + 1 := by omega
      rw [e] at h2
      have h3 := allocSpec_trans h1 h2.1
      have e2 : 1 + min (num - 1) (4 - (n + 1)) = min num (4 - n) := by omega
      rw [e2] at h3
      exact ⟨h3, by rw [h2.2]; omega⟩
    · simp only [hc, if_false]
      have e : min num (4 - n) = 0 := by omega
      simp only [e, Nat.sub_zero, and_true]
      exact allocSpec_zero bm hb _

theorem allocSpec_zero_shift {bm bm2 : Nat → Nat} {k : Nat} (k2 : Nat)
    (h : AllocSpec bm bm2 k 0) : AllocSpec bm bm2 k2 0 := by
  refine ⟨fun c => ?_, h.2⟩
  have h1 := h.1 c
  have e1 : ¬ (k ≤ c ∧ c < k + 0) := by omega
  have e2 : ¬ (k2 ≤ c ∧ c < k2 + 0) := by omega
  rw [if_neg e1] at h1
  rw [if_neg e2]
  exact h1

theorem headSpec (bm : Nat → Nat) (hb : ∀ x, bm x < 256) (m j : Nat) (hj : j < 4) :
    (∀ c, cellAt (setByte bm m ((bm m &&& rotr8 0x3F (j * 2)) ||| (0x40 >>> (j * 2)))) c
        = if c = 4 * m + j then 1 else cellAt bm c) ∧
    ∀ x, setByte bm m ((bm m &&& rotr8 0x3F (j * 2)) ||| (0x40 >>> (j * 2))) x < 256 := by
  refine ⟨fun c => ?_, setByte_lt bm m _ hb⟩
  rw [cellAt_setByte]
  by_cases hc : c / 4 = m
  · have hset := cellOf_set_head (bm m) (hb m) j hj (c % 4) (Nat.mod_lt _ (by decide))
    rw [if_pos hc, hset]
    by_cases hcj : c % 4 = j
    · have hB : c = 4 * m + j := by omega
      rw [if_pos hcj, if_pos hB]
    · have hB : ¬ (c = 4 * m + j) := by omega
      rw [if_neg hcj, if_neg hB]
      unfold cellAt
      rw [hc]
  · have hB : ¬ (c = 4 * m + j) := by omega
    rw [if_neg hc, if_neg hB]

/-- The marking phase writes HEAD on the first cell of the run and ALLOCATED on
the next `n - 1`, touches nothing else, and ends with `num_frames = 0`. -/
theorem markRun_spec (p : ContFramePool) (hv : p.Valid) (n m j : Nat)
    (hn : 1 ≤ n) (hn32 : n < U32) (hj : j < 4) (hfit : 4 * m + j + n ≤ p.nframes) :
    (∀ c, cellAt (markRun p n m j).1 c
        = if c = 4 * m + j then 1
          else if 4 * m + j < c ∧ c < 4 * m + j + n then 3 else p.cell c) ∧
    (∀ x, (markRun p n m j).1 x < 256) ∧ (markRun p n m j).2 = 0 := by
  have hm4 := hv.mult4
  have hh := headSpec p.bitmap hv.byte_lt m j hj
  have hdec : dec32 n = n - 1 := dec32_of_pos (by omega) (by omega)
  have e0 : (j + 1) * 2 = 2 * (j + 1) := by omega
  have hf := markFirst_spec m 4 (j + 1)
    (setByte p.bitmap m ((p.bitmap m &&& rotr8 0x3F (j * 2)) ||| (0x40 >>> (j * 2))))
    (n - 1) (by omega) hh.2 (by omega)
  unfold markRun
  simp only [hdec, e0]
  generalize hr1 : markFirst m 4
    (setByte p.bitmap m ((p.bitmap m &&& rotr8 0x3F (j * 2)) ||| (0x40 >>> (j * 2))))
    (n - 1) (j + 1) (0xC0 >>> (2 * (j + 1))) = r1 at hf
  obtain ⟨hf1, hf2⟩ := hf
  have ho := markOuter_spec (p.nframes / 4 - (m + 1)) (m + 1) r1.1 r1.2 hf1.2
    (by rw [hf2]; omega)
  generalize hr2 : markOuter (p.nframes / 4 - (m + 1)) (m + 1) r1.1 r1.2 = r2 at ho
  obtain ⟨ho1, ho2⟩ := ho
  have hall : AllocSpec
      (setByte p.bitmap m ((p.bitmap m &&& rotr8 0x3F (j * 2)) ||| (0x40 >>> (j * 2))))
      r2.1 (4 * m + (j + 1)) (n - 1) := by
    by_cases hcase : n - 1 ≤ 4 - (j + 1)
    · have ea : min (n - 1) (4 - (j + 1)) = n - 1 := by omega
      have eb : min r1.2 (4 * (p.nframes / 4 - (m + 1))) = 0 := by omega
      rw [ea] at hf1
      rw [eb] at ho1
      have h3 := allocSpec_trans hf1 (allocSpec_zero_shift (4 * m + (j + 1) + (n - 1)) ho1)
      exact h3
    · have ea : min (n - 1) (4 - (j + 1)) = 4 - (j + 1) := by omega
      have eb : min r1.2 (4 * (p.nframes / 4 - (m + 1))) = n - 1 - (4 - (j + 1)) := by omega
      rw [ea] at hf1
      rw [eb] at ho1
      have ec : 4 * (m + 1) = 4 * m + (j + 1) + (4 - (j + 1)) := by omega
      rw [ec] at ho1
      have h3 := allocSpec_trans hf1 ho1
      have ed : 4 - (j + 1) + (n - 1 - (4 - (j + 1))) = n - 1 := by omega
      rw [ed] at h3
      exact h3
  refine ⟨fun c => ?_, hall.2, by omega⟩
  rw [hall.1 c, hh.1 c]
  by_cases h1 : c = 4 * m + j
  · have h2 : ¬ (4 * m + (j + 1) ≤ c ∧ c < 4 * m + (j + 1) + (n - 1)) := by omega
    rw [if_neg h2, if_pos h1, if_pos h1]
  · by_cases h2 : 4 * m + (j + 1) ≤ c ∧ c < 4 * m + (j + 1) + (n - 1)
    · have h3 : 4 * m + j < c ∧ c < 4 * m + j + n := by omega
      rw [if_pos h2, if_neg h1, if_pos h3]
    · have h3 : ¬ (4 * m + j < c ∧ c < 4 * m + j + n) := by omega
      rw [if_neg h2, if_neg h1, if_neg h1, if_neg h3]
      rfl

/-! ## get_frames as a whole -/

/-- Success of `get_frames`: when a FREE run of length `n` exists, the call
returns the frame of the first-fit run and marks exactly that run. -/
theorem get_frames_spec (p : ContFramePool) (hv : p.Valid) (n : Nat)
    (hn : 1 ≤ n) (hn32 : n < U32) (hrun : p.HasFreeRun n) :
    ∃ k, p.FreeRun k n ∧ (∀ t, p.FreeRun t n → k ≤ t) ∧
      (p.get_frames n).1 = p.base_frame_no + k ∧
      (∀ c, (p.get_frames n).2.cell c
          = if c = k then HEAD else if k < c ∧ c < k + n then ALLOCATED else p.cell c) ∧
      (∀ x, (p.get_frames n).2.bitmap x < 256) := by
  have ho := scan_outcome p hv n hn hn32
  unfold ContFramePool.get_frames
  generalize scanOuter p n (p.nframes / 4) 0 (scanInit p n) = s at ho
  by_cases hz : s.num_frames_req = 0
  · obtain ⟨k2, hk2, _, hnk, hfree, hfn, hmn, hsn, hfirst⟩ := ho.1 hz
    have hmr := markRun_spec p hv n s.m s.n hn hn32 hsn (by omega)
    refine ⟨4 * s.m + s.n, ⟨by omega, fun c h1 h2 => hfree c (by omega) (by omega)⟩,
      ?_, ?_, ?_, ?_⟩
    · intro t ht
      by_contra hlt
      obtain ⟨c, a1, a2, a3⟩ := hfirst t (by omega)
      exact a3 (ht.2 c a2 a1)
    · simp only [hz, hmr.2.2, ne_eq, not_true_eq_false, if_false, if_true]
      omega
    · intro c
      simp only [hz, hmr.2.2, ne_eq, not_true_eq_false, if_false, if_true]
      exact hmr.1 c
    · intro x
      simp only [hz, hmr.2.2, ne_eq, not_true_eq_false, if_false, if_true]
      exact hmr.2.1 x
  · exact absurd hrun (ho.2 hz)

/-- Failure of `get_frames`: without a FREE run of length `n` the call returns
0 and the pool is returned as it was. -/
theorem get_frames_fail (p : ContFramePool) (hv : p.Valid) (n : Nat)
    (hn : 1 ≤ n) (hn32 : n < U32) (hrun : ¬ p.HasFreeRun n) :
    p.get_frames n = (0, p) := by
  have ho := scan_outcome p hv n hn hn32
  unfold ContFramePool.get_frames
  generalize scanOuter p n (p.nframes / 4) 0 (scanInit p n) = s at ho
  by_cases hz : s.num_frames_req = 0
  · obtain ⟨k2, hk2, _, hnk, hfree, _, _, _, _⟩ := ho.1 hz
    exact absurd ⟨k2 - n, by omega, by omega, fun c h1 h2 => hfree c (by omega) (by omega)⟩ hrun
  · simp only [hz, ne_eq, not_false_eq_true, if_true]

/-- The call succeeds exactly when a FREE run of the requested length exists. -/
theorem get_frames_succeeds_iff (p : ContFramePool) (hv : p.Valid) (n : Nat)
    (hn : 1 ≤ n) (hn32 : n < U32) : p.get_frames_succeeds n ↔ p.HasFreeRun n := by
  have ho := scan_outcome p hv n hn hn32
  unfold ContFramePool.get_frames_succeeds
  generalize scanOuter p n (p.nframes / 4) 0 (scanInit p n) = s at ho
  constructor
  · intro hok
    obtain ⟨k2, hk2, _, hnk, hfree, _, _, _, _⟩ := ho.1 hok.1
    exact ⟨k2 - n, by omega, by omega, fun c h1 h2 => hfree c (by omega) (by omega)⟩
  · intro hrun
    by_cases hz : s.num_frames_req = 0
    · obtain ⟨k2, hk2, _, hnk, _, _, hmn, hsn, _⟩ := ho.1 hz
      exact ⟨hz, (markRun_spec p hv n s.m s.n hn hn32 hsn (by omega)).2.2⟩
    · exact absurd hrun (ho.2 hz)

theorem get_frames_fields (p : ContFramePool) (n : Nat) :
    (p.get_frames n).2.base_frame_no = p.base_frame_no ∧
    (p.get_frames n).2.nframes = p.nframes ∧
    (p.get_frames n).2.nFreeFrames = p.nFreeFrames ∧
    (p.get_frames n).2.info_frame_no = p.info_frame_no ∧
    (p.get_frames n).2.n_info_frames = p.n_info_frames := by
  unfold ContFramePool.get_frames
  dsimp only
  split
  · exact ⟨rfl, rfl, rfl, rfl, rfl⟩
  · split <;> exact ⟨rfl, rfl, rfl, rfl, rfl⟩

theorem get_frames_valid (p : ContFramePool) (hv : p.Valid) (n : Nat)
    (hn : 1 ≤ n) (hn32 : n < U32) : (p.get_frames n).2.Valid := by
  have hf := get_frames_fields p n
  by_cases hrun : p.HasFreeRun n
  · obtain ⟨k, _, _, _, _, hb⟩ := get_frames_spec p hv n hn hn32 hrun
    exact ⟨hb, by rw [hf.2.1]; exact hv.mult4, by rw [hf.2.1]; exact hv.fits,
      by rw [hf.1, hf.2.1]; exact hv.band⟩
  · rw [get_frames_fail p hv n hn hn32 hrun]
    exact hv

/-! ## The release walk -/

set_option maxRecDepth 1000000 in
theorem cellOf_head_test : ∀ b, b < 256 → ∀ j, j < 4 →
    ((b &&& (0xC0 >>> (j * 2)) = 0x40 >>> (j * 2)) ↔ cellOf b j = 1) := by
  decide

set_option maxRecDepth 1000000 in
theorem cellOf_alloc_test : ∀ b, b < 256 → ∀ j, j < 4 →
    ((b &&& (0xC0 >>> (2 * j)) = 0xC0 >>> (2 * j)) ↔ cellOf b j = 3) := by
  decide

set_option maxRecDepth 1000000 in
theorem cellOf_clear : ∀ b, b < 256 → ∀ j, j < 4 → ∀ j2, j2 < 4 →
    cellOf ((b &&& rotr8 0x3F (2 * j)) % 256) j2 = if j2 = j then 0 else cellOf b j2 := by
  decide

theorem rotr8_step : ∀ j, j < 4 → rotr8 (rotr8 0x3F (2 * j)) 2 = rotr8 0x3F (2 * (j + 1)) := by
  decide

theorem clearSpec_zero (bm : Nat → Nat) (hb : ∀ x, bm x < 256) (k : Nat) :
    ClearSpec bm bm k 0 := by
  refine ⟨fun c h1 h2 => by omega, fun c => ?_, hb⟩
  have : ¬ (k ≤ c ∧ c < k + 0) := by omega
  rw [if_neg this]

theorem clearSpec_trans {bm bm1 bm2 : Nat → Nat} {k a b : Nat}
    (h1 : ClearSpec bm bm1 k a) (h2 : ClearSpec bm1 bm2 (k + a) b) :
    ClearSpec bm bm2 k (a + b) := by
  refine ⟨fun c c1 c2 => ?_, fun c => ?_, h2.2.2⟩
  · by_cases hc : c < k + a
    · exact h1.1 c c1 hc
    · have h3 := h2.1 c (by omega) (by omega)
      rw [h1.2.1 c] at h3
      have hB : ¬ (k ≤ c ∧ c < k + a) := by omega
      rw [if_neg hB] at h3
      exact h3
  · rw [h2.2.1 c, h1.2.1 c]
    by_cases hA : k + a ≤ c ∧ c < k + a + b
    · have hB : k ≤ c ∧ c < k + (a + b) := by omega
      rw [if_pos hA, if_pos hB]
    · by_cases hB : k ≤ c ∧ c < k + a
      · have hC : k ≤ c ∧ c < k + (a + b) := by omega
        rw [if_neg hA, if_pos hB, if_pos hC]
      · have hC : ¬ (k ≤ c ∧ c < k + (a + b)) := by omega
        rw [if_neg hA, if_neg hB, if_neg hC]

theorem cellAt_eq_cellOf (bm : Nat → Nat) (i j : Nat) (hj : j < 4) :
    cellAt bm (4 * i + j) = cellOf (bm i) j := by
  unfold cellAt
  have e1 : (4 * i + j) / 4 = i := by omega
  have e2 : (4 * i + j) % 4 = j := by omega
  rw [e1, e2]

theorem clearSpec_one (bm : Nat → Nat) (hb : ∀ x, bm x < 256) (i j : Nat) (hj : j < 4)
    (h3 : cellAt bm (4 * i + j) = 3) :
    ClearSpec bm (setByte bm i (bm i &&& rotr8 0x3F (2 * j))) (4 * i + j) 1 := by
  refine ⟨fun c c1 c2 => ?_, fun c => ?_, setByte_lt bm i _ hb⟩
  · have : c = 4 * i + j := by omega
    rw [this]; exact h3
  · rw [cellAt_setByte]
    by_cases hc : c / 4 = i
    · have hset := cellOf_clear (bm i) (hb i) j hj (c % 4) (Nat.mod_lt _ (by decide))
      rw [if_pos hc, hset]
      by_cases hcj : c % 4 = j
      · have hB : 4 * i + j ≤ c ∧ c < 4 * i + j + 1 := by omega
        rw [if_pos hcj, if_pos hB]
      · have hB : ¬ (4 * i + j ≤ c ∧ c < 4 * i + j + 1) := by omega
        rw [if_neg hcj, if_neg hB]
        unfold cellAt
        rw [hc]
    · have hB : ¬ (4 * i + j ≤ c ∧ c < 4 * i + j + 1) := by omega
      rw [if_neg hc, if_neg hB]

/-- The inner `for` loop of the release walk frees a streak of ALLOCATED cells
of byte `i` from position `j`; it stops with `c = 0` exactly when it meets a
cell that is not ALLOCATED. -/
theorem releaseInner_spec (i : Nat) :
    ∀ left j bits nf, left + j = 4 → (∀ x, bits x < 256) →
      ∃ L, L ≤ left ∧
        ClearSpec bits (releaseInner i left bits nf (0xC0 >>> (2 * j)) (rotr8 0x3F (2 * j))).1
          (4 * i + j) L ∧
        ((releaseInner i left bits nf (0xC0 >>> (2 * j)) (rotr8 0x3F (2 * j))).2.2 = 0 →
          L < left ∧ cellAt bits (4 * i + j + L) ≠ 3) ∧
        ((releaseInner i left bits nf (0xC0 >>> (2 * j)) (rotr8 0x3F (2 * j))).2.2 ≠ 0 →
          L = left) := by
  intro left
  induction left with
  | zero =>
    intro j bits nf _ hb
    refine ⟨0, Nat.le_refl _, ?_, ?_, fun _ => rfl⟩
    · simp only [releaseInner]; exact clearSpec_zero bits hb _
    · simp only [releaseInner]; intro h; omega
  | succ left ih =>
    intro j bits nf hj hb
    have hj4 : j < 4 := by omega
    have htest := cellOf_alloc_test (bits i) (hb i) j hj4
    rw [← cellAt_eq_cellOf bits i j hj4] at htest
    simp only [releaseInner]
    by_cases hc : bits i &&& (0xC0 >>> (2 * j)) = 0xC0 >>> (2 * j)
    · rw [if_pos hc]
      have hmask : (0xC0 >>> (2 * j)) >>> 2 = 0xC0 >>> (2 * (j + 1)) := by
        rw [← Nat.shiftRight_add, Nat.mul_succ]
      rw [hmask, rotr8_step j hj4]
      have h1 := clearSpec_one bits hb i j hj4 (htest.mp hc)
      obtain ⟨L, hL, hcs, hbrk, hfull⟩ :=
        ih (j + 1) (setByte bits i (bits i &&& rotr8 0x3F (2 * j))) (inc32 nf) (by omega) h1.2.2
      have e : 4 * i + (j + 1) = 4 * i + j + 1 := by omega
      rw [e] at hcs
      refine ⟨1 + L, by omega, clearSpec_trans h1 hcs, fun hz => ?_, fun hz => ?_⟩
      · obtain ⟨a1, a2⟩ := hbrk hz
        refine ⟨by omega, ?_⟩
        have hx := h1.2.1 (4 * i + (j + 1) + L)
        have hB : ¬ (4 * i + j ≤ 4 * i + (j + 1) + L ∧ 4 * i + (j + 1) + L < 4 * i + j + 1) := by
          omega
        rw [if_neg hB] at hx
        have e2 : 4 * i + j + (1 + L) = 4 * i + (j + 1) + L := by omega
        rw [e2, ← hx]
        exact a2
      · have := hfull hz
        omega
    · rw [if_neg hc]
      refine ⟨0, by omega, clearSpec_zero bits hb _, fun _ => ⟨by omega, ?_⟩, fun h => absurd rfl h⟩
      exact fun h => hc (htest.mpr h)

/-- The outer `for` loop of the release walk frees the maximal streak of
ALLOCATED cells that starts at the first cell of byte `i`, within the `left`
bytes it may visit. -/
theorem releaseOuter_spec :
    ∀ left i bits nf, (∀ x, bits x < 256) →
      ∃ L, L ≤ 4 * left ∧ ClearSpec bits (releaseOuter left i bits nf).1 (4 * i) L ∧
        (L < 4 * left → cellAt bits (4 * i + L) ≠ 3) := by
  intro left
  induction left with
  | zero =>
    intro i bits nf hb
    exact ⟨0, by omega, by simp only [releaseOuter]; exact clearSpec_zero bits hb _,
      fun h => by omega⟩
  | succ left ih =>
    intro i bits nf hb
    obtain ⟨L, hL, hcs, hbrk, hfull⟩ := releaseInner_spec i 4 0 bits nf rfl hb
    simp only [Nat.mul_zero, Nat.shiftRight_zero, Nat.add_zero] at hcs hbrk hfull
    rw [show rotr8 0x3F 0 = 0x3F by decide] at hcs hbrk hfull
    simp only [releaseOuter]
    by_cases hz : (releaseInner i 4 bits nf 0xC0 0x3F).2.2 = 0
    · rw [if_pos hz]
      obtain ⟨a1, a2⟩ := hbrk hz
      exact ⟨L, by omega, hcs, fun _ => a2⟩
    · rw [if_neg hz]
      have hL4 : L = 4 := hfull hz
      subst hL4
      obtain ⟨L2, hL2, hcs2, hend⟩ := ih (i + 1) (releaseInner i 4 bits nf 0xC0 0x3F).1
        (releaseInner i 4 bits nf 0xC0 0x3F).2.1 hcs.2.2
      have e : 4 * (i + 1) = 4 * i + 4 := by omega
      rw [e] at hcs2 hend
      refine ⟨4 + L2, by omega, clearSpec_trans hcs hcs2, fun hlt => ?_⟩
      have hx := hcs.2.1 (4 * i + 4 + L2)
      have hB : ¬ (4 * i ≤ 4 * i + 4 + L2 ∧ 4 * i + 4 + L2 < 4 * i + 4) := by omega
      rw [if_neg hB] at hx
      have e2 : 4 * i + (4 + L2) = 4 * i + 4 + L2 := by omega
      rw [e2, ← hx]
      exact hend (by omega)

/-- The `while (n<4)` loop of the release walk frees the streak of ALLOCATED
cells of byte `m` from position `n`, stopping at the end of the byte or at the
first cell that is not ALLOCATED. -/
theorem releaseFirst_spec (m : Nat) :
    ∀ fuel n bits nf, 4 ≤ fuel + n → n ≤ 4 → (∀ x, bits x < 256) →
      ∃ L, n + L ≤ 4 ∧
        ClearSpec bits (releaseFirst m fuel bits nf n (0xC0 >>> (2 * n)) (rotr8 0x3F (2 * n))).1
          (4 * m + n) L ∧
        (n + L < 4 → cellAt bits (4 * m + n + L) ≠ 3) := by
  intro fuel
  induction fuel with
  | zero =>
    intro n bits nf h1 h2 hb
    exact ⟨0, by omega, by simp only [releaseFirst]; exact clearSpec_zero bits hb _,
      fun h => by omega⟩
  | succ fuel ih =>
    intro n bits nf h1 h2 hb
    simp only [releaseFirst]
    by_cases hn : n < 4
    · rw [if_pos hn]
      have htest := cellOf_alloc_test (bits m) (hb m) n hn
      rw [← cellAt_eq_cellOf bits m n hn] at htest
      by_cases hc : bits m &&& (0xC0 >>> (2 * n)) = 0xC0 >>> (2 * n)
      · rw [if_pos hc]
        have hmask : (0xC0 >>> (2 * n)) >>> 2 = 0xC0 >>> (2 * (n + 1)) := by
          rw [← Nat.shiftRight_add, Nat.mul_succ]
        rw [hmask, rotr8_step n hn]
        have hone := clearSpec_one bits hb m n hn (htest.mp hc)
        obtain ⟨L, hL, hcs, hend⟩ :=
          ih (n + 1) (setByte bits m (bits m &&& rotr8 0x3F (2 * n))) (inc32 nf) (by omega)
            (by omega) hone.2.2
        have e : 4 * m + (n + 1) = 4 * m + n + 1 := by omega
        rw [e] at hcs hend
        refine ⟨1 + L, by omega, clearSpec_trans hone hcs, fun hlt => ?_⟩
        have hx := hone.2.1 (4 * m + n + 1 + L)
        have hB : ¬ (4 * m + n ≤ 4 * m + n + 1 + L ∧ 4 * m + n + 1 + L < 4 * m + n + 1) := by
          omega
        rw [if_neg hB] at hx
        have e2 : 4 * m + n + (1 + L) = 4 * m + n + 1 + L := by omega
        rw [e2, ← hx]
        exact hend (by omega)
      · rw [if_neg hc]
        exact ⟨0, by omega, clearSpec_zero bits hb _, fun _ => fun h => hc (htest.mpr h)⟩
    · rw [if_neg hn]
      exact ⟨0, by omega, clearSpec_zero bits hb _, fun h => by omega⟩

theorem clearCell_spec (bm : Nat → Nat) (hb : ∀ x, bm x < 256) (i j : Nat) (hj : j < 4) :
    (∀ c, cellAt (setByte bm i (bm i &&& rotr8 0x3F (2 * j))) c
        = if c = 4 * i + j then 0 else cellAt bm c) ∧
    ∀ x, setByte bm i (bm i &&& rotr8 0x3F (2 * j)) x < 256 := by
  refine ⟨fun c => ?_, setByte_lt bm i _ hb⟩
  rw [cellAt_setByte]
  by_cases hc : c / 4 = i
  · have hset := cellOf_clear (bm i) (hb i) j hj (c % 4) (Nat.mod_lt _ (by decide))
    rw [if_pos hc, hset]
    by_cases hcj : c % 4 = j
    · have hB : c = 4 * i + j := by omega
      rw [if_pos hcj, if_pos hB]
    · have hB : ¬ (c = 4 * i + j) := by omega
      rw [if_neg hcj, if_neg hB]
      unfold cellAt
      rw [hc]
  · have hB : ¬ (c = 4 * i + j) := by omega
    rw [if_neg hc, if_neg hB]

theorem release_in_index (cur : ContFramePool) (hv : cur.Valid) (f : Nat)
    (h1 : cur.base_frame_no ≤ f) (h2 : f < cur.base_frame_no + cur.nframes) :
    (sub32 f cur.base_frame_no * 2) % U32 / 8 = (f - cur.base_frame_no) / 4 ∧
    (sub32 f cur.base_frame_no * 2) % U32 % 8 / 2 = (f - cur.base_frame_no) % 4 ∧
    (cur.base_frame_no + cur.nframes / 4) % U32 = cur.base_frame_no + cur.nframes / 4 := by
  have hband := hv.band
  have hfits := hv.fits
  unfold sub32
  unfold U32 FRAME_SIZE at *
  omega

/-- What `release_frames` does on the owning pool when the cell of the frame
is HEAD: with `h` the cell of the frame, it frees `h`, the `L1` ALLOCATED cells
that follow `h` inside its byte, and the `L2` ALLOCATED cells at the start of
the next byte; both streaks are maximal (the first within the byte). -/
theorem release_in_spec (cur : ContFramePool) (hv : cur.Valid) (f : Nat)
    (h1 : cur.base_frame_no ≤ f) (h2 : f < cur.base_frame_no + cur.nframes)
    (hhead : cur.cell (f - cur.base_frame_no) = HEAD) :
    ∃ L1 L2,
      (f - cur.base_frame_no) % 4 + 1 + L1 ≤ 4 ∧
      (∀ c, f - cur.base_frame_no < c → c ≤ f - cur.base_frame_no + L1 → cur.cell c = 3) ∧
      ((f - cur.base_frame_no) % 4 + 1 + L1 < 4 →
        cur.cell (f - cur.base_frame_no + 1 + L1) ≠ 3) ∧
      (∀ c, 4 * ((f - cur.base_frame_no) / 4 + 1) ≤ c →
        c < 4 * ((f - cur.base_frame_no) / 4 + 1) + L2 → cur.cell c = 3) ∧
      (4 * ((f - cur.base_frame_no) / 4 + 1) + L2 < cur.nframes →
        cur.cell (4 * ((f - cur.base_frame_no) / 4 + 1) + L2) ≠ 3) ∧
      (∀ c, (cur.release_in f).cell c
          = if c = f - cur.base_frame_no
              ∨ (f - cur.base_frame_no < c ∧ c ≤ f - cur.base_frame_no + L1)
              ∨ (4 * ((f - cur.base_frame_no) / 4 + 1) ≤ c
                  ∧ c < 4 * ((f - cur.base_frame_no) / 4 + 1) + L2)
            then 0 else cur.cell c) ∧
      (∀ x, (cur.release_in f).bitmap x < 256) := by
  have hb := hv.byte_lt
  have hm4 := hv.mult4
  obtain ⟨e1, e2, e3⟩ := release_in_index cur hv f h1 h2
  generalize hh : f - cur.base_frame_no = h at *
  have hn : h % 4 < 4 := Nat.mod_lt _ (by decide)
  have hsplit : 4 * (h / 4) + h % 4 = h := by omega
  have htest := cellOf_head_test (cur.bitmap (h / 4)) (hb _) (h % 4) hn
  have hc : cur.bitmap (h / 4) &&& (0xC0 >>> (h % 4 * 2)) = 0x40 >>> (h % 4 * 2) :=
    htest.mpr hhead
  have ecomm : h % 4 * 2 = 2 * (h % 4) := Nat.mul_comm _ _
  have hclr := clearCell_spec cur.bitmap hb (h / 4) (h % 4) hn
  rw [hsplit] at hclr
  obtain ⟨L1, hL1, hcs1, hend1⟩ := releaseFirst_spec (h / 4) 4 (h % 4 + 1)
    (setByte cur.bitmap (h / 4) (cur.bitmap (h / 4) &&& rotr8 0x3F (2 * (h % 4))))
    (inc32 cur.nFreeFrames) (by omega) (by omega) hclr.2
  have hmask : (0xC0 >>> (h % 4 * 2)) >>> 2 = 0xC0 >>> (2 * (h % 4 + 1)) := by
    have e : h % 4 * 2 + 2 = 2 * (h % 4 + 1) := by omega
    rw [← Nat.shiftRight_add, e]
  unfold ContFramePool.release_in
  simp only [e1, e2, e3, hc, if_true, hmask]
  simp only [ecomm, rotr8_step (h % 4) hn]
  generalize releaseFirst (h / 4) 4
    (setByte cur.bitmap (h / 4) (cur.bitmap (h / 4) &&& rotr8 0x3F (2 * (h % 4))))
    (inc32 cur.nFreeFrames) (h % 4 + 1) (0xC0 >>> (2 * (h % 4 + 1)))
    (rotr8 0x3F (2 * (h % 4 + 1))) = r1 at hcs1
  obtain ⟨L2, hL2, hcs2, hend2⟩ := releaseOuter_spec
    (cur.base_frame_no + cur.nframes / 4 - (h / 4 + 1)) (h / 4 + 1) r1.1 r1.2 hcs1.2.2
  generalize releaseOuter (cur.base_frame_no + cur.nframes / 4 - (h / 4 + 1)) (h / 4 + 1)
    r1.1 r1.2 = r2 at hcs2
  have ek : 4 * (h / 4) + (h % 4 + 1) = h + 1 := by omega
  rw [ek] at hcs1 hend1
  -- cells of the intermediate bitmaps in terms of the original one
  have hmid : ∀ c, cellAt r1.1 c
      = if c = h ∨ (h < c ∧ c ≤ h + L1) then 0 else cellAt cur.bitmap c := by
    intro c
    rw [hcs1.2.1 c, hclr.1 c]
    by_cases hA : h + 1 ≤ c ∧ c < h + 1 + L1
    · have hB : c = h ∨ (h < c ∧ c ≤ h + L1) := by omega
      rw [if_pos hA, if_pos hB]
    · by_cases hB : c = h
      · have hC : c = h ∨ (h < c ∧ c ≤ h + L1) := Or.inl hB
        rw [if_neg hA, if_pos hB, if_pos hC]
      · have hC : ¬ (c = h ∨ (h < c ∧ c ≤ h + L1)) := by omega
        rw [if_neg hA, if_neg hB, if_neg hC]
  refine ⟨L1, L2, by omega, ?_, ?_, ?_, ?_, ?_, hcs2.2.2⟩
  · intro c c1 c2
    have hx := hcs1.1 c (by omega) (by omega)
    rw [hclr.1 c, if_neg (by omega)] at hx
    exact hx
  · intro hlt
    have hx := hend1 (by omega)
    rw [hclr.1 (h + 1 + L1), if_neg (by omega)] at hx
    exact hx
  · intro c c1 c2
    have hx := hcs2.1 c c1 c2
    rw [hmid c, if_neg (by omega)] at hx
    exact hx
  · intro hlt
    have hx := hend2 (by omega)
    rw [hmid _, if_neg (by omega)] at hx
    exact hx
  · intro c
    show cellAt r2.1 c = _
    rw [hcs2.2.1 c, hmid c]
    by_cases hA : 4 * (h / 4 + 1) ≤ c ∧ c < 4 * (h / 4 + 1) + L2
    · rw [if_pos hA, if_pos (Or.inr (Or.inr hA))]
    · by_cases hB : c = h ∨ (h < c ∧ c ≤ h + L1)
      · have hC : c = h ∨ (h < c ∧ c ≤ h + L1) ∨
            (4 * (h / 4 + 1) ≤ c ∧ c < 4 * (h / 4 + 1) + L2) := by
          rcases hB with hB | hB
          · exact Or.inl hB
          · exact Or.inr (Or.inl hB)
        rw [if_neg hA, if_pos hB, if_pos hC]
      · have hC : ¬ (c = h ∨ (h < c ∧ c ≤ h + L1) ∨
            (4 * (h / 4 + 1) ≤ c ∧ c < 4 * (h / 4 + 1) + L2)) := by
          intro hC
          rcases hC with hC | hC | hC
          · exact hB (Or.inl hC)
          · exact hB (Or.inr hC)
          · exact hA hC
        rw [if_neg hA, if_neg hB, if_neg hC]
        rfl

/-- On a frame whose cell is not HEAD the release is abandoned: the pool is
returned as it was. -/
theorem release_in_not_head (cur : ContFramePool) (hv : cur.Valid) (f : Nat)
    (h1 : cur.base_frame_no ≤ f) (h2 : f < cur.base_frame_no + cur.nframes)
    (hhead : cur.cell (f - cur.base_frame_no) ≠ HEAD) :
    cur.release_in f = cur := by
  obtain ⟨e1, e2, _⟩ := release_in_index cur hv f h1 h2
  have hn : (f - cur.base_frame_no) % 4 < 4 := Nat.mod_lt _ (by decide)
  have htest := cellOf_head_test (cur.bitmap ((f - cur.base_frame_no) / 4)) (hv.byte_lt _)
    ((f - cur.base_frame_no) % 4) hn
  have hc : ¬ (cur.bitmap ((f - cur.base_frame_no) / 4)
      &&& (0xC0 >>> ((f - cur.base_frame_no) % 4 * 2))
      = 0x40 >>> ((f - cur.base_frame_no) % 4 * 2)) := fun h => hhead (htest.mp h)
  unfold ContFramePool.release_in
  simp only [e1, e2, hc, if_false]

theorem release_in_fields (cur : ContFramePool) (f : Nat) :
    (cur.release_in f).base_frame_no = cur.base_frame_no ∧
    (cur.release_in f).nframes = cur.nframes := by
  unfold ContFramePool.release_in
  dsimp only
  split <;> exact ⟨rfl, rfl⟩

/-! ## The bitmap after construction -/

theorem zeroBitmap_spec (nframes : Nat) :
    ∀ fuel i bm x, nframes ≤ 4 * (i + fuel) →
      zeroBitmap nframes fuel i bm x = if i ≤ x ∧ 4 * x < nframes then 0 else bm x := by
  intro fuel
  induction fuel with
  | zero =>
    intro i bm x h
    have hB : ¬ (i ≤ x ∧ 4 * x < nframes) := by omega
    simp only [zeroBitmap]
    rw [if_neg hB]
  | succ fuel ih =>
    intro i bm x h
    simp only [zeroBitmap]
    by_cases hc : i * (8 / 2) < nframes
    · rw [if_pos hc, ih (i + 1) _ x (by omega)]
      have hc2 : i * 4 < nframes := hc
      by_cases hA : i + 1 ≤ x ∧ 4 * x < nframes
      · have hB : i ≤ x ∧ 4 * x < nframes := by omega
        rw [if_pos hA, if_pos hB]
      · rw [if_neg hA]
        unfold setByte
        by_cases hx : x = i
        · have hB : i ≤ x ∧ 4 * x < nframes := by omega
          rw [if_pos hx, if_pos hB]
        · have hB : ¬ (i ≤ x ∧ 4 * x < nframes) := by omega
          rw [if_neg hx, if_neg hB]
    · have hc2 : ¬ (i * 4 < nframes) := hc
      have hB : ¬ (i ≤ x ∧ 4 * x < nframes) := by omega
      rw [if_neg hc, if_neg hB]

theorem cellOf_zero : ∀ j, j < 4 → cellOf 0 j = 0 := by decide

theorem cellOf_0x40 : ∀ j, j < 4 → cellOf (0x40 % 256) j = if j = 0 then 1 else 0 := by decide

/-- The cells of the bitmap that the constructor leaves when the info frame is
outside the band: every cell of the band is FREE. -/
theorem zeroBitmap_cells (n : Nat) (mem : Nat → Nat) (k : Nat) (hk : k < n) :
    cellAt (zeroBitmap n n 0 mem) k = 0 := by
  unfold cellAt
  rw [zeroBitmap_spec n n 0 mem (k / 4) (by omega)]
  have hB : 0 ≤ k / 4 ∧ 4 * (k / 4) < n := by omega
  rw [if_pos hB]
  exact cellOf_zero _ (Nat.mod_lt _ (by decide))

/-- The cells of the bitmap that the constructor leaves when the info frame is
the first frame of the band: cell 0 is HEAD, the other cells are FREE. -/
theorem zeroBitmap_head_cells (n : Nat) (mem : Nat → Nat) (k : Nat) (hk : k < n) :
    cellAt (setByte (zeroBitmap n n 0 mem) 0 0x40) k = if k = 0 then 1 else 0 := by
  rw [cellAt_setByte]
  by_cases hc : k / 4 = 0
  · rw [if_pos hc, cellOf_0x40 _ (Nat.mod_lt _ (by decide))]
    by_cases hk0 : k = 0
    · have : k % 4 = 0 := by omega
      rw [if_pos this, if_pos hk0]
    · have : ¬ (k % 4 = 0) := by omega
      rw [if_neg this, if_neg hk0]
  · have hk0 : ¬ (k = 0) := by omega
    rw [if_neg hc, if_neg hk0]
    exact zeroBitmap_cells n mem k hk

theorem construct_some (b n info ninfo : Nat) (mem : Nat → Nat)
    (h4 : n % 4 = 0) (hle : n ≤ FRAME_SIZE * 4) :
    ContFramePool.construct b n info ninfo mem = some
      { base_frame_no := b, nframes := n,
        nFreeFrames := if info = 0 then dec32 n else n,
        info_frame_no := info, n_info_frames := ninfo,
        bitmap := if info = 0 then setByte (zeroBitmap n n 0 mem) 0 0x40
                  else zeroBitmap n n 0 mem } := by
  unfold ContFramePool.construct
  have h1 : n ≤ FRAME_SIZE * (8 / 2) := hle
  by_cases hi : info = 0
  · simp only [h1, h4, hi, not_true_eq_false, if_false, if_true]
  · simp only [h1, h4, hi, not_true_eq_false, if_false]

theorem construct_valid (b n info ninfo : Nat) (mem : Nat → Nat) (p : ContFramePool)
    (hmem : ∀ x, mem x < 256) (hband : b + n ≤ U32)
    (hp : ContFramePool.construct b n info ninfo mem = some p) : p.Valid := by
  unfold ContFramePool.construct at hp
  by_cases h1 : n ≤ FRAME_SIZE * (8 / 2)
  · by_cases h4 : n % 4 = 0
    · have hz : ∀ x, zeroBitmap n n 0 mem x < 256 := by
        intro x
        rw [zeroBitmap_spec n n 0 mem x (by omega)]
        split
        · decide
        · exact hmem x
      by_cases hi : info = 0
      · simp only [h1, h4, hi, not_true_eq_false, if_false, if_true, Option.some.injEq] at hp
        subst hp
        exact ⟨setByte_lt _ _ _ hz, h4, h1, hband⟩
      · simp only [h1, h4, hi, not_true_eq_false, if_false, Option.some.injEq] at hp
        subst hp
        exact ⟨hz, h4, h1, hband⟩
    · simp [h1, h4] at hp
  · simp [h1] at hp

/-! ## Validity is preserved -/

theorem inaccFirst_lt (m : Nat) :
    ∀ fuel bm n num m1 m2, (∀ x, bm x < 256) →
      ∀ x, (inaccFirst m fuel bm n num m1 m2).1 x < 256 := by
  intro fuel
  induction fuel with
  | zero => intro bm n num m1 m2 hb; simpa only [inaccFirst] using hb
  | succ fuel ih =>
    intro bm n num m1 m2 hb
    simp only [inaccFirst]
    split
    · exact ih _ _ _ _ _ (setByte_lt bm m _ hb)
    · exact hb

theorem inaccInner_lt (i : Nat) :
    ∀ left bm num m1 m2, (∀ x, bm x < 256) →
      ∀ x, (inaccInner i left bm num m1 m2).1 x < 256 := by
  intro left
  induction left with
  | zero => intro bm num m1 m2 hb; simpa only [inaccInner] using hb
  | succ left ih =>
    intro bm num m1 m2 hb
    simp only [inaccInner]
    split
    · exact hb
    · exact ih _ _ _ _ (setByte_lt bm i _ hb)

theorem inaccOuter_lt :
    ∀ left i bm num, (∀ x, bm x < 256) → ∀ x, (inaccOuter left i bm num).1 x < 256 := by
  intro left
  induction left with
  | zero => intro i bm num hb; simpa only [inaccOuter] using hb
  | succ left ih =>
    intro i bm num hb
    simp only [inaccOuter]
    split
    · exact inaccInner_lt i 4 bm num _ _ hb
    · exact ih _ _ _ (inaccInner_lt i 4 bm num _ _ hb)

theorem mark_inaccessible_valid (p : ContFramePool) (hv : p.Valid) (b n : Nat) :
    (p.mark_inaccessible b n).Valid := by
  refine ⟨?_, hv.mult4, hv.fits, hv.band⟩
  show ∀ x, (p.mark_inaccessible_run b n).1 x < 256
  unfold ContFramePool.mark_inaccessible_run
  exact inaccOuter_lt _ _ _ _ (inaccFirst_lt _ _ _ _ _ _ _ (setByte_lt _ _ _ hv.byte_lt))

theorem release_in_valid (cur : ContFramePool) (hv : cur.Valid) (f : Nat)
    (h1 : cur.base_frame_no ≤ f) (h2 : f < cur.base_frame_no + cur.nframes) :
    (cur.release_in f).Valid := by
  have hf := release_in_fields cur f
  by_cases hhead : cur.cell (f - cur.base_frame_no) = HEAD
  · obtain ⟨L1, L2, _, _, _, _, _, _, hb⟩ := release_in_spec cur hv f h1 h2 hhead
    exact ⟨hb, by rw [hf.2]; exact hv.mult4, by rw [hf.2]; exact hv.fits,
      by rw [hf.1, hf.2]; exact hv.band⟩
  · rw [release_in_not_head cur hv f h1 h2 hhead]
    exact hv

/-- Every pool of the registry after `release_frames` is a pool of the registry
before, or is the result of the release on a pool whose band holds the frame. -/
theorem release_frames_mem (f : Nat) :
    ∀ (reg : List ContFramePool) (q : ContFramePool), q ∈ ContFramePool.release_frames reg f →
      q ∈ reg ∨ ∃ cur, cur ∈ reg ∧ cur.base_frame_no ≤ f ∧
        f < cur.base_frame_no + cur.nframes ∧ q = cur.release_in f := by
  intro reg
  induction reg with
  | nil => intro q hq; simp [ContFramePool.release_frames] at hq
  | cons cur rest ih =>
    intro q hq
    simp only [ContFramePool.release_frames] at hq
    by_cases hc : (cur.base_frame_no + cur.nframes) % U32 ≤ f ∨ cur.base_frame_no > f
    · rw [if_pos hc] at hq
      rcases List.mem_cons.mp hq with hq | hq
      · exact Or.inl (by rw [hq]; exact List.mem_cons_self _ _)
      · rcases ih q hq with h | ⟨c2, hc2, a, b, e⟩
        · exact Or.inl (List.mem_cons_of_mem _ h)
        · exact Or.inr ⟨c2, List.mem_cons_of_mem _ hc2, a, b, e⟩
    · rw [if_neg hc] at hq
      have hle : (cur.base_frame_no + cur.nframes) % U32 ≤ cur.base_frame_no + cur.nframes :=
        Nat.mod_le _ _
      rcases List.mem_cons.mp hq with hq | hq
      · exact Or.inr ⟨cur, List.mem_cons_self _ _, by omega, by omega, hq⟩
      · exact Or.inl (List.mem_cons_of_mem _ hq)

theorem release_frames_valid (reg : List ContFramePool) (hv : ∀ p, p ∈ reg → p.Valid) (f : Nat) :
    ∀ q, q ∈ ContFramePool.release_frames reg f → q.Valid := by
  intro q hq
  rcases release_frames_mem f reg q hq with h | ⟨cur, hc, a, b, e⟩
  · exact hv q h
  · rw [e]; exact release_in_valid cur (hv cur hc) f a b

/-! ## Well-formedness is preserved -/

theorem get_frames_wellFormed (p : ContFramePool) (hv : p.Valid) (hwf : p.WellFormed)
    (n : Nat) (hn : 1 ≤ n) (hn32 : n < U32) : (p.get_frames n).2.WellFormed := by
  by_cases hrun : p.HasFreeRun n
  · obtain ⟨k, hfr, _, _, hcells, _⟩ := get_frames_spec p hv n hn hn32 hrun
    have hnf := (get_frames_fields p n).2.1
    intro c hc h3
    rw [hnf] at hc
    rw [hcells c] at h3
    rw [hcells (c - 1)]
    by_cases c1 : c = k
    · rw [if_pos c1] at h3; exact absurd h3 (by decide)
    · rw [if_neg c1] at h3
      by_cases c2 : k < c ∧ c < k + n
      · refine ⟨by omega, ?_⟩
        by_cases c3 : c - 1 = k
        · rw [if_pos c3]; exact Or.inl rfl
        · have c4 : k < c - 1 ∧ c - 1 < k + n := by omega
          rw [if_neg c3, if_pos c4]; exact Or.inr rfl
      · rw [if_neg c2] at h3
        obtain ⟨hpos, hprev⟩ := hwf c hc h3
        refine ⟨hpos, ?_⟩
        by_cases c3 : c - 1 = k
        · rw [if_pos c3]; exact Or.inl rfl
        · rw [if_neg c3]
          by_cases c4 : k < c - 1 ∧ c - 1 < k + n
          · rw [if_pos c4]; exact Or.inr rfl
          · rw [if_neg c4]; exact hprev
  · rw [get_frames_fail p hv n hn hn32 hrun]
    exact hwf

theorem release_in_wellFormed (cur : ContFramePool) (hv : cur.Valid) (hwf : cur.WellFormed)
    (f : Nat) (h1 : cur.base_frame_no ≤ f) (h2 : f < cur.base_frame_no + cur.nframes) :
    (cur.release_in f).WellFormed := by
  by_cases hhead : cur.cell (f - cur.base_frame_no) = HEAD
  · obtain ⟨L1, L2, hL1, hs1, hend1, hs2, hend2, hcells, _⟩ :=
      release_in_spec cur hv f h1 h2 hhead
    have hnf := (release_in_fields cur f).2
    have hm4 := hv.mult4
    generalize f - cur.base_frame_no = h at *
    intro c hc h3
    rw [hnf] at hc
    rw [hcells c] at h3
    by_cases cA : c = h ∨ (h < c ∧ c ≤ h + L1) ∨
        (4 * (h / 4 + 1) ≤ c ∧ c < 4 * (h / 4 + 1) + L2)
    · rw [if_pos cA] at h3; exact absurd h3 (by decide)
    · rw [if_neg cA] at h3
      obtain ⟨hpos, hprev⟩ := hwf c hc h3
      refine ⟨hpos, ?_⟩
      rw [hcells (c - 1)]
      by_cases cB : c - 1 = h ∨ (h < c - 1 ∧ c - 1 ≤ h + L1) ∨
          (4 * (h / 4 + 1) ≤ c - 1 ∧ c - 1 < 4 * (h / 4 + 1) + L2)
      · exfalso
        by_cases e1 : c = h + 1 + L1
        · by_cases e2 : h % 4 + 1 + L1 < 4
          · exact hend1 e2 (by rw [← e1]; exact h3)
          · have e3 : c = 4 * (h / 4 + 1) + 0 := by omega
            have e4 : L2 = 0 := by omega
            rw [e4] at hend2
            exact hend2 (by omega) (by rw [← e3]; exact h3)
        · have e3 : c = 4 * (h / 4 + 1) + L2 := by omega
          exact hend2 (by omega) (by rw [← e3]; exact h3)
      · rw [if_neg cB]; exact hprev
  · rw [release_in_not_head cur hv f h1 h2 hhead]
    exact hwf

/-! ## The scenario pools are valid -/

theorem poolS1_valid : poolS1.Valid :=
  construct_valid 512 1024 0 0 (fun _ => 0xFF) poolS1
    (fun _ => (by decide : (0xFF : Nat) < 256)) (by decide) (Option.some_get _).symm

theorem poolS2_valid : poolS2.Valid :=
  construct_valid 0 16 1 1 (fun _ => 0xFF) poolS2
    (fun _ => (by decide : (0xFF : Nat) < 256)) (by decide) (Option.some_get _).symm

theorem poolS2marked_valid : poolS2marked.Valid :=
  mark_inaccessible_valid poolS2 poolS2_valid 4 2

theorem poolS2first_valid : poolS2first.Valid :=
  get_frames_valid poolS2marked poolS2marked_valid 4 (by decide) (by decide)

theorem poolS2second_valid : poolS2second.Valid :=
  get_frames_valid poolS2first poolS2first_valid 6 (by decide) (by decide)

/-! ## The claims about get_frames -/

theorem hasFreeRun_lt_U32 (p : ContFramePool) (hv : p.Valid) (n : Nat)
    (hrun : p.HasFreeRun n) : n < U32 := by
  obtain ⟨k, _, hk, _⟩ := hrun
  have := hv.fits
  unfold FRAME_SIZE at this
  unfold U32
  omega

/-- C1 (contiguity of `get_frames`): for every valid pool state and every
`n ≥ 1` for which a run of `n` consecutive FREE cells exists, `get_frames(n)`
returns a frame number `h` with `base_frame_no ≤ h` and
`h + n ≤ base_frame_no + nframes`; the cells `[h-base, h-base+n)` were all FREE
before the call, afterwards cell `h-base` is HEAD and the next `n-1` cells are
ALLOCATED, and every cell outside that range is unchanged. -/
theorem get_frames_contiguity (p : ContFramePool) (hv : p.Valid) (n : Nat) (hn : 1 ≤ n)
    (hrun : p.HasFreeRun n) :
    p.base_frame_no ≤ (p.get_frames n).1 ∧
    (p.get_frames n).1 + n ≤ p.base_frame_no + p.nframes ∧
    (∀ c, (p.get_frames n).1 - p.base_frame_no ≤ c →
      c < (p.get_frames n).1 - p.base_frame_no + n → p.cell c = FREE) ∧
    (p.get_frames n).2.cell ((p.get_frames n).1 - p.base_frame_no) = HEAD ∧
    (∀ c, (p.get_frames n).1 - p.base_frame_no < c →
      c < (p.get_frames n).1 - p.base_frame_no + n → (p.get_frames n).2.cell c = ALLOCATED) ∧
    (∀ c, c < (p.get_frames n).1 - p.base_frame_no ∨
      (p.get_frames n).1 - p.base_frame_no + n ≤ c → (p.get_frames n).2.cell c = p.cell c) := by
  obtain ⟨k, hfr, _, hret, hcells, _⟩ :=
    get_frames_spec p hv n hn (hasFreeRun_lt_U32 p hv n hrun) hrun
  have hk : (p.get_frames n).1 - p.base_frame_no = k := by omega
  rw [hk]
  refine ⟨by omega, by have := hfr.1; omega, fun c c1 c2 => hfr.2 c c2 c1, ?_, ?_, ?_⟩
  · rw [hcells k, if_pos rfl]
  · intro c c1 c2
    rw [hcells c, if_neg (by omega), if_pos ⟨c1, c2⟩]
  · intro c hc
    rw [hcells c, if_neg (by omega), if_neg (by omega)]

/-- Witness for C1, scenario S1: on the pool `base=512`, 1024 frames,
`info_frame_no=0`, `get_frames(1)` returns 513 and bitmap byte 0 becomes
`0x50`. -/
theorem get_frames_contiguity_witness :
    poolS1.Valid ∧ poolS1.HasFreeRun 1 ∧
    (poolS1.get_frames 1).1 = 513 ∧ (poolS1.get_frames 1).2.bitmap 0 = 0x50 ∧
    (poolS1.get_frames 1).2.cell ((poolS1.get_frames 1).1 - poolS1.base_frame_no) = HEAD :=
  ⟨poolS1_valid, ⟨1, by decide, by decide⟩, by decide, by decide,
    (get_frames_contiguity poolS1 poolS1_valid 1 (by decide) ⟨1, by decide, by decide⟩).2.2.2.1⟩

/-- C2 (first fit): for every valid pool state and every `n ≥ 1` (an
`unsigned int`), if `get_frames(n)` succeeds with head `h`, then
`base_frame_no ≤ h`, the cells `h-base .. h-base+n-1` were all FREE before the
call, and `h-base ≤ k` for every `k` such that cells `k .. k+n-1` were all
FREE: `h-base` is the smallest such cell index. -/
theorem get_frames_first_fit (p : ContFramePool) (hv : p.Valid) (n : Nat) (hn : 1 ≤ n)
    (hn32 : n < U32) (hok : p.get_frames_succeeds n) :
    p.base_frame_no ≤ (p.get_frames n).1 ∧
    p.FreeRun ((p.get_frames n).1 - p.base_frame_no) n ∧
    ∀ k, p.FreeRun k n → (p.get_frames n).1 - p.base_frame_no ≤ k := by
  have hrun : p.HasFreeRun n := (get_frames_succeeds_iff p hv n hn hn32).mp hok
  obtain ⟨k0, hfr, hmin, hret, _, _⟩ := get_frames_spec p hv n hn hn32 hrun
  have e : (p.get_frames n).1 - p.base_frame_no = k0 := by omega
  rw [e]
  exact ⟨by omega, hfr, hmin⟩

/-- Witness for C2, scenario S2: on the 16-frame pool with cells 4-5 marked
inaccessible, `get_frames(4)` yields frame 0 and then `get_frames(6)` yields
frame 6, although the later run that starts at cell 10 is FREE as well. -/
theorem get_frames_first_fit_witness :
    poolS2first.Valid ∧ poolS2first.get_frames_succeeds 6 ∧ poolS2first.FreeRun 10 6 ∧
    (poolS2marked.get_frames 4).1 = 0 ∧ (poolS2first.get_frames 6).1 = 6 ∧
    (poolS2first.get_frames 6).1 - poolS2first.base_frame_no ≤ 10 :=
  ⟨poolS2first_valid, by decide, by decide, by decide, by decide,
    (get_frames_first_fit poolS2first poolS2first_valid 6 (by decide) (by decide)
      (by decide)).2.2 10 (by decide)⟩

/-- C3 (failure of `get_frames`): for every valid pool state and every
`n ≥ 1` (an `unsigned int`), if the bitmap contains no run of `n` consecutive
FREE cells then `get_frames(n)` returns 0 and leaves the pool, in particular
the bitmap and `nFreeFrames`, unchanged. -/
theorem get_frames_failure (p : ContFramePool) (hv : p.Valid) (n : Nat) (hn : 1 ≤ n)
    (hn32 : n < U32) (hnone : ¬ p.HasFreeRun n) :
    (p.get_frames n).1 = 0 ∧ (p.get_frames n).2 = p ∧
    (p.get_frames n).2.bitmap = p.bitmap ∧ (p.get_frames n).2.nFreeFrames = p.nFreeFrames := by
  rw [get_frames_fail p hv n hn hn32 hnone]
  exact ⟨rfl, rfl, rfl, rfl⟩

/-- Witness for C3: after S2's two allocations only cells 12..15 are FREE, so
`get_frames(5)` fails. -/
theorem get_frames_failure_witness :
    poolS2second.Valid ∧ ¬ poolS2second.HasFreeRun 5 ∧
    (poolS2second.get_frames 5).1 = 0 ∧ (poolS2second.get_frames 5).2 = poolS2second :=
  ⟨poolS2second_valid, by decide,
    (get_frames_failure poolS2second poolS2second_valid 5 (by decide) (by decide)
      (by decide)).1,
    (get_frames_failure poolS2second poolS2second_valid 5 (by decide) (by decide)
      (by decide)).2.1⟩

/-! ## Sequences of calls on one pool -/

theorem release_cases (p : ContFramePool) (f : Nat) :
    p.release f = p ∨
      (p.base_frame_no ≤ f ∧ f < p.base_frame_no + p.nframes ∧ p.release f = p.release_in f) := by
  unfold ContFramePool.release
  simp only [ContFramePool.release_frames]
  by_cases hc : (p.base_frame_no + p.nframes) % U32 ≤ f ∨ p.base_frame_no > f
  · rw [if_pos hc]; exact Or.inl rfl
  · rw [if_neg hc]
    have hle : (p.base_frame_no + p.nframes) % U32 ≤ p.base_frame_no + p.nframes :=
      Nat.mod_le _ _
    exact Or.inr ⟨by omega, by omega, rfl⟩

theorem step_valid (p : ContFramePool) (hv : p.Valid) (op : PoolOp) (hop : op.WellTyped) :
    (p.step op).Valid := by
  cases op with
  | get_frames n => exact get_frames_valid p hv n hop.1 hop.2
  | release_frames f =>
    show (p.release f).Valid
    rcases release_cases p f with h | ⟨a, b, h⟩
    · rw [h]; exact hv
    · rw [h]; exact release_in_valid p hv f a b

theorem run_valid (ops : List PoolOp) :
    ∀ (p : ContFramePool), p.Valid → (∀ op, op ∈ ops → op.WellTyped) → (p.run ops).Valid := by
  induction ops with
  | nil => intro p hv _; exact hv
  | cons op rest ih =>
    intro p hv hops
    exact ih (p.step op) (step_valid p hv op (hops op (List.mem_cons_self _ _)))
      (fun o ho => hops o (List.mem_cons_of_mem _ ho))

/-- For `n ≥ 1`, `get_frames` never changes a cell that is not FREE. -/
theorem get_frames_keeps_nonfree (p : ContFramePool) (hv : p.Valid) (n : Nat)
    (hn : 1 ≤ n) (hn32 : n < U32) (k : Nat) (hk : p.cell k ≠ FREE) :
    (p.get_frames n).2.cell k = p.cell k := by
  by_cases hrun : p.HasFreeRun n
  · obtain ⟨k0, hfr, _, _, hcells, _⟩ := get_frames_spec p hv n hn hn32 hrun
    rw [hcells k]
    by_cases c1 : k0 ≤ k ∧ k < k0 + n
    · exact absurd (hfr.2 k c1.2 c1.1) hk
    · rw [if_neg (by omega), if_neg (by omega)]
  · rw [get_frames_fail p hv n hn hn32 hrun]

/-- No call of `release_frames` changes an INACCESSIBLE cell. -/
theorem release_keeps_inaccessible (p : ContFramePool) (hv : p.Valid) (f k : Nat)
    (hk : p.cell k = INACCESSIBLE) : (p.release f).cell k = INACCESSIBLE := by
  rcases release_cases p f with h | ⟨a, b, h⟩
  · rw [h]; exact hk
  · rw [h]
    by_cases hhead : p.cell (f - p.base_frame_no) = HEAD
    · obtain ⟨L1, L2, _, hs1, _, hs2, _, hcells, _⟩ := release_in_spec p hv f a b hhead
      rw [hcells k]
      by_cases cA : k = f - p.base_frame_no ∨
          (f - p.base_frame_no < k ∧ k ≤ f - p.base_frame_no + L1) ∨
          (4 * ((f - p.base_frame_no) / 4 + 1) ≤ k ∧
            k < 4 * ((f - p.base_frame_no) / 4 + 1) + L2)
      · exfalso
        rcases cA with c1 | c1 | c1
        · rw [c1, hhead] at hk; exact absurd hk (by decide)
        · rw [hs1 k c1.1 c1.2] at hk; exact absurd hk (by decide)
        · rw [hs2 k c1.1 c1.2] at hk; exact absurd hk (by decide)
      · rw [if_neg cA]; exact hk
    · rw [release_in_not_head p hv f a b hhead]; exact hk

theorem run_keeps_inaccessible (ops : List PoolOp) (k : Nat) :
    ∀ (p : ContFramePool), p.Valid → (∀ op, op ∈ ops → op.WellTyped) →
      p.cell k = INACCESSIBLE → (p.run ops).cell k = INACCESSIBLE := by
  induction ops with
  | nil => intro p _ _ hk; exact hk
  | cons op rest ih =>
    intro p hv hops hk
    have hop := hops op (List.mem_cons_self _ _)
    refine ih (p.step op) (step_valid p hv op hop)
      (fun o ho => hops o (List.mem_cons_of_mem _ ho)) ?_
    cases op with
    | get_frames n =>
      show (p.get_frames n).2.cell k = INACCESSIBLE
      rw [get_frames_keeps_nonfree p hv n hop.1 hop.2 k (by rw [hk]; decide)]
      exact hk
    | release_frames f => exact release_keeps_inaccessible p hv f k hk

/-! ## The free-frame counter -/

/-- C4 (free-count invariant), evaluated on a fresh pool: the pool built with
`base=0, n_frames=16, info_frame_no=1` has 16 FREE cells and
`nFreeFrames = 16`; after `get_frames(4)` (which returns frame 0 and marks
cells 0..3) only 12 cells are FREE but `nFreeFrames` is still 16, and after
the following `release_frames(0)` all 16 cells are FREE again while
`nFreeFrames` is 20. -/
theorem free_count_not_maintained :
    poolS2.freeCount = 16 ∧ poolS2.nFreeFrames = 16 ∧
    (poolS2.run [.get_frames 4]).cells 16 = [1, 3, 3, 3, 0, 0, 0, 0, 0, 0, 0, 0, 0, 0, 0, 0] ∧
    (poolS2.run [.get_frames 4]).freeCount = 12 ∧
    (poolS2.run [.get_frames 4]).nFreeFrames = 16 ∧
    (poolS2.run [.get_frames 4, .release_frames 0]).freeCount = 16 ∧
    (poolS2.run [.get_frames 4, .release_frames 0]).nFreeFrames = 20 := by
  decide

/-! ## release_frames -/

/-- C5 (release frees exactly one run), evaluated on a well-formed pool: with
a one-frame run at cell 0 and a four-frame run at cells 1..4,
`release_frames(0)` frees cell 0 and also cell 4, the last frame of the other
run (the walk resumes at the next byte although it met the HEAD at cell 1). -/
theorem release_frames_frees_foreign_cell :
    poolTwoRuns.WellFormed ∧
    poolTwoRuns.cells 16 = [1, 1, 3, 3, 3, 0, 0, 0, 0, 0, 0, 0, 0, 0, 0, 0] ∧
    (poolTwoRuns.release 0).cells 16 = [0, 1, 3, 3, 0, 0, 0, 0, 0, 0, 0, 0, 0, 0, 0, 0] ∧
    poolTwoRuns.cell 4 = ALLOCATED ∧ (poolTwoRuns.release 0).cell 4 = FREE := by
  decide

/-- The scenario S3 itself behaves as the claim C5 says: after S2's two
allocations `release_frames(0)` frees cells 0..3 and leaves 4..5 and 6..11. -/
theorem release_frames_S3 :
    poolS2second.cells 16 = [1, 3, 3, 3, 1, 2, 1, 3, 3, 3, 3, 3, 0, 0, 0, 0] ∧
    (poolS2second.release 0).cells 16 = [0, 0, 0, 0, 1, 2, 1, 3, 3, 3, 3, 3, 0, 0, 0, 0] := by
  decide

/-- C6 (release of a non-HEAD frame): for every registry of valid pools and
every frame number `h` such that in each pool whose band holds `h` the cell of
`h` is not HEAD (it is FREE, ALLOCATED or INACCESSIBLE), `release_frames(h)`
leaves every pool of the registry, bitmap and `nFreeFrames` included,
unchanged. -/
theorem release_frames_non_head (reg : List ContFramePool) (hv : ∀ p, p ∈ reg → p.Valid)
    (h : Nat)
    (hnh : ∀ p, p ∈ reg → p.base_frame_no ≤ h → h < p.base_frame_no + p.nframes →
      p.cell (h - p.base_frame_no) ≠ HEAD) :
    ContFramePool.release_frames reg h = reg := by
  induction reg with
  | nil => rfl
  | cons cur rest ih =>
    simp only [ContFramePool.release_frames]
    by_cases hc : (cur.base_frame_no + cur.nframes) % U32 ≤ h ∨ cur.base_frame_no > h
    · rw [if_pos hc, ih (fun p hp => hv p (List.mem_cons_of_mem _ hp))
        (fun p hp => hnh p (List.mem_cons_of_mem _ hp))]
    · rw [if_neg hc]
      have hle : (cur.base_frame_no + cur.nframes) % U32 ≤ cur.base_frame_no + cur.nframes :=
        Nat.mod_le _ _
      have hin := List.mem_cons_self cur rest
      rw [release_in_not_head cur (hv cur hin) h (by omega) (by omega)
        (hnh cur hin (by omega) (by omega))]

/-- Witness for C6: in the registry made of the S3 pool (frames 0..15) and the
S1 pool (frames 512..1535), frame 7 is an ALLOCATED, non-HEAD frame of the
first pool and frame 513 a FREE frame of the second. -/
theorem release_frames_non_head_witness :
    poolS2second.cell 7 = ALLOCATED ∧
    ContFramePool.release_frames [poolS2second, poolS1] 7 = [poolS2second, poolS1] :=
  ⟨by decide,
    release_frames_non_head [poolS2second, poolS1]
      (fun p hp => by
        rcases List.mem_cons.mp hp with e | hp
        · rw [e]; exact poolS2second_valid
        · rw [List.mem_singleton.mp hp]; exact poolS1_valid)
      7
      (fun p hp => by
        rcases List.mem_cons.mp hp with e | hp
        · rw [e]; intro _ _; decide
        · rw [List.mem_singleton.mp hp]; intro hlo _; exact absurd hlo (by decide))⟩

/-! ## mark_inaccessible -/

/-- C7 (postcondition of `mark_inaccessible`), evaluated on the fresh 16-frame
pool of S2: `mark_inaccessible(0, 5)` makes cell 0 HEAD and cells 1..3
INACCESSIBLE but leaves cell 4 FREE, and ends with `num_of_frames = 1` (the
"failed" log line); `mark_inaccessible(3, 2)` makes cell 3 HEAD and leaves
cell 4 FREE. The in-byte case of S2, `mark_inaccessible(4, 2)`, gives byte 1
the value `0x60`. -/
theorem mark_inaccessible_stops_at_byte_end :
    poolS2.cells 16 = [0, 0, 0, 0, 0, 0, 0, 0, 0, 0, 0, 0, 0, 0, 0, 0] ∧
    (poolS2.mark_inaccessible 0 5).cells 16
      = [1, 2, 2, 2, 0, 0, 0, 0, 0, 0, 0, 0, 0, 0, 0, 0] ∧
    (poolS2.mark_inaccessible_run 0 5).2 = 1 ∧
    (poolS2.mark_inaccessible 3 2).cells 16
      = [0, 0, 0, 1, 0, 0, 0, 0, 0, 0, 0, 0, 0, 0, 0, 0] ∧
    (poolS2.mark_inaccessible 4 2).bitmap 1 = 0x60 := by
  decide

/-- C8 as stated fails: on the fresh 16-frame pool of S2, after
`mark_inaccessible(4, 2)` the call `release_frames(4)` makes frame 4 FREE
again, and the next `get_frames(5)` returns the run 0..4, which contains
frame 4. A request for zero frames breaks it as well: `get_frames(0)` followed
by `release_frames(0)` leaves frames 4 and 5 FREE. -/
theorem inaccessible_head_is_released :
    poolS2.cell 4 = FREE ∧ poolS2.cell 5 = FREE ∧
    poolS2marked.cells 16 = [0, 0, 0, 0, 1, 2, 0, 0, 0, 0, 0, 0, 0, 0, 0, 0] ∧
    (poolS2marked.run [.release_frames 4]).cell 4 = FREE ∧
    ((poolS2marked.run [.release_frames 4]).get_frames 5).1 = 0 ∧
    ((poolS2marked.run [.release_frames 4]).get_frames 5).2.cells 16
      = [1, 3, 3, 3, 3, 2, 0, 0, 0, 0, 0, 0, 0, 0, 0, 0] ∧
    (poolS2marked.run [.get_frames 0]).cells 16
      = [1, 3, 3, 3, 3, 3, 3, 3, 3, 3, 3, 3, 3, 3, 3, 3] ∧
    (poolS2marked.run [.get_frames 0, .release_frames 0]).cells 16
      = [0, 0, 0, 0, 0, 0, 0, 0, 0, 0, 0, 0, 0, 0, 0, 0] := by
  decide

/-- C8, amended: after `mark_inaccessible(b, n)` on a valid pool, every cell
`k` that the call has left INACCESSIBLE is still INACCESSIBLE (so not FREE)
after every sequence of `get_frames` calls for at least one frame and
`release_frames` calls with any frame numbers, and a successful `get_frames`
call made then returns a run that does not contain the frame of cell `k`. -/
theorem inaccessible_cells_permanent (p : ContFramePool) (hv : p.Valid) (b n k : Nat)
    (hk : (p.mark_inaccessible b n).cell k = INACCESSIBLE)
    (ops : List PoolOp) (hops : ∀ op, op ∈ ops → op.WellTyped) :
    ((p.mark_inaccessible b n).run ops).cell k = INACCESSIBLE ∧
    ∀ m, 1 ≤ m → ((p.mark_inaccessible b n).run ops).HasFreeRun m →
      ¬ ((((p.mark_inaccessible b n).run ops).get_frames m).1
            ≤ ((p.mark_inaccessible b n).run ops).base_frame_no + k ∧
          ((p.mark_inaccessible b n).run ops).base_frame_no + k
            < (((p.mark_inaccessible b n).run ops).get_frames m).1 + m) := by
  have hv1 := mark_inaccessible_valid p hv b n
  have hv2 := run_valid ops _ hv1 hops
  have hk2 := run_keeps_inaccessible ops k _ hv1 hops hk
  refine ⟨hk2, fun m hm hrun => ?_⟩
  obtain ⟨k0, hfr, _, hret, _, _⟩ :=
    get_frames_spec _ hv2 m hm (hasFreeRun_lt_U32 _ hv2 m hrun) hrun
  rw [hret]
  intro hin
  have hfree := hfr.2 k (by omega) (by omega)
  rw [hk2] at hfree
  exact absurd hfree (by decide)

/-- Witness for C8 (amended): in S2, cell 5 stays INACCESSIBLE through both
allocations and the releases of frames 0 and 4. -/
theorem inaccessible_cells_permanent_witness :
    poolS2.Valid ∧ (poolS2.mark_inaccessible 4 2).cell 5 = INACCESSIBLE ∧
    ((poolS2.mark_inaccessible 4 2).run
      [.get_frames 4, .get_frames 6, .release_frames 0, .release_frames 4]).cell 5
        = INACCESSIBLE :=
  ⟨poolS2_valid, by decide,
    (inaccessible_cells_permanent poolS2 poolS2_valid 4 2 5 (by decide)
      [.get_frames 4, .get_frames 6, .release_frames 0, .release_frames 4]
      (fun op hop => by
        simp only [List.mem_cons, List.mem_singleton, List.not_mem_nil, or_false] at hop
        rcases hop with e | e | e | e <;> subst e
        · exact ⟨by decide, by decide⟩
        · exact ⟨by decide, by decide⟩
        · exact trivial
        · exact trivial)).1⟩

/-! ## The well-formedness invariant -/

theorem construct_inv (b n info ninfo : Nat) (mem : Nat → Nat) (p : ContFramePool)
    (hp : ContFramePool.construct b n info ninfo mem = some p) :
    n % 4 = 0 ∧ n ≤ FRAME_SIZE * 4 := by
  unfold ContFramePool.construct at hp
  by_cases h1 : n ≤ FRAME_SIZE * (8 / 2)
  · by_cases h4 : n % 4 = 0
    · exact ⟨h4, h1⟩
    · simp [h1, h4] at hp
  · simp [h1] at hp

/-- The cells of a freshly constructed pool. -/
theorem construct_cells (b n info ninfo : Nat) (mem : Nat → Nat) (p : ContFramePool)
    (hp : ContFramePool.construct b n info ninfo mem = some p) :
    p.nframes = n ∧
    ∀ k, k < n → p.cell k = if info = 0 ∧ k = 0 then HEAD else FREE := by
  obtain ⟨h4, hle⟩ := construct_inv b n info ninfo mem p hp
  rw [construct_some b n info ninfo mem h4 hle] at hp
  simp only [Option.some.injEq] at hp
  subst hp
  refine ⟨rfl, fun k hk => ?_⟩
  show cellAt _ k = _
  by_cases hi : info = 0
  · simp only [hi, if_true, true_and]
    exact zeroBitmap_head_cells n mem k hk
  · simp only [hi, if_false, false_and]
    exact zeroBitmap_cells n mem k hk

/-- C9 (run well-formedness is an invariant): the constructor yields a
well-formed bitmap; `get_frames(n)` with `n ≥ 1` maps a valid well-formed pool
to a well-formed pool; and `release_frames(h)` maps a registry of valid
well-formed pools to a registry of well-formed pools. -/
theorem wellFormed_invariant :
    (∀ (b n info ninfo : Nat) (mem : Nat → Nat) (p : ContFramePool),
      ContFramePool.construct b n info ninfo mem = some p → p.WellFormed) ∧
    (∀ (p : ContFramePool), p.Valid → p.WellFormed →
      ∀ n, 1 ≤ n → n < U32 → (p.get_frames n).2.WellFormed) ∧
    (∀ (reg : List ContFramePool), (∀ p, p ∈ reg → p.Valid ∧ p.WellFormed) →
      ∀ h q, q ∈ ContFramePool.release_frames reg h → q.WellFormed) := by
  refine ⟨?_, ?_, ?_⟩
  · intro b n info ninfo mem p hp c hc h3
    obtain ⟨hn, hcells⟩ := construct_cells b n info ninfo mem p hp
    rw [hn] at hc
    rw [hcells c hc] at h3
    split at h3 <;> exact absurd h3 (by decide)
  · intro p hv hwf n hn hn32
    exact get_frames_wellFormed p hv hwf n hn hn32
  · intro reg hreg h q hq
    rcases release_frames_mem h reg q hq with hin | ⟨cur, hc, a, b, e⟩
    · exact (hreg q hin).2
    · rw [e]
      exact release_in_wellFormed cur (hreg cur hc).1 (hreg cur hc).2 h a b

/-- Witness for C9: the S2 pool is well-formed when built, after
`get_frames(4)`, and after `release_frames(0)` in the S3 state. -/
theorem wellFormed_invariant_witness :
    poolS2.WellFormed ∧ poolS2marked.Valid ∧ poolS2marked.WellFormed ∧
    (poolS2marked.get_frames 4).2.WellFormed ∧
    (∀ q, q ∈ ContFramePool.release_frames [poolS2second] 0 → q.WellFormed) :=
  ⟨wellFormed_invariant.1 0 16 1 1 (fun _ => 0xFF) poolS2 (Option.some_get _).symm,
    poolS2marked_valid, by decide,
    wellFormed_invariant.2.1 poolS2marked poolS2marked_valid (by decide) 4 (by decide)
      (by decide),
    wellFormed_invariant.2.2 [poolS2second]
      (fun p hp => by
        rw [List.mem_singleton.mp hp]
        exact ⟨poolS2second_valid, by decide⟩) 0⟩

/-! ## The constructor -/

/-- C10 as stated fails for the empty band: with `n_frames = 0` (a multiple of
4, at most 16384) and `info_frame_no = 0` the constructor succeeds and leaves
`nFreeFrames = 4294967295`, which is not `n_frames - 1` (and the band has no
FREE cell at all). -/
theorem construct_empty_band :
    0 % 4 = 0 ∧ 0 ≤ 16384 ∧
    ((ContFramePool.construct 512 0 0 0 (fun _ => 0xFF)).map fun p => p.nFreeFrames)
      = some 4294967295 ∧
    ((ContFramePool.construct 512 0 0 0 (fun _ => 0xFF)).map fun p => p.freeCount) = some 0 ∧
    ¬ ((4294967295 : Int) = (0 : Int) - 1) ∧ ¬ ((4294967295 : Nat) = 0 - 1) := by
  decide

/-- C10, amended: for every base and every content of the bitmap memory, a
band length that is not a multiple of 4 is rejected by assertion; for a band
length `n_frames` that is a multiple of 4 and at most 16384 the constructor
succeeds, and if `info_frame_no = 0` and `n_frames > 0` the new pool has cell 0
HEAD, all other cells FREE, bitmap byte 0 equal to `0x40` and
`nFreeFrames = n_frames - 1`, while if `info_frame_no ≠ 0` every cell is FREE
and `nFreeFrames = n_frames`. -/
theorem construct_spec (b n info ninfo : Nat) (mem : Nat → Nat) :
    (n % 4 ≠ 0 → ContFramePool.construct b n info ninfo mem = none) ∧
    (n % 4 = 0 → n ≤ 16384 →
      ∃ p, ContFramePool.construct b n info ninfo mem = some p ∧
        p.base_frame_no = b ∧ p.nframes = n ∧
        (info = 0 → 0 < n →
          p.cell 0 = HEAD ∧ (∀ k, 0 < k → k < n → p.cell k = FREE) ∧
          p.bitmap 0 = 0x40 ∧ p.nFreeFrames = n - 1) ∧
        (info ≠ 0 → (∀ k, k < n → p.cell k = FREE) ∧ p.nFreeFrames = n)) := by
  constructor
  · intro h4
    unfold ContFramePool.construct
    by_cases h1 : n ≤ FRAME_SIZE * (8 / 2)
    · simp [h1, h4]
    · simp [h1]
  · intro h4 hle
    have hs := construct_some b n info ninfo mem h4 hle
    obtain ⟨hn, hcells⟩ := construct_cells b n info ninfo mem _ hs
    refine ⟨_, hs, rfl, rfl, ?_, ?_⟩
    · intro hi hpos
      refine ⟨?_, ?_, ?_, ?_⟩
      · rw [hcells 0 hpos, if_pos ⟨hi, rfl⟩]
      · intro k hk0 hk
        rw [hcells k hk, if_neg (by omega)]
      · simp only [hi, if_true]
        show setByte _ 0 0x40 0 = 0x40
        simp [setByte]
      · simp only [hi, if_true]
        exact dec32_of_pos hpos (by unfold U32; omega)
    · intro hi
      refine ⟨fun k hk => ?_, ?_⟩
      · rw [hcells k hk, if_neg (fun h => hi h.1)]
      · simp only [hi, if_false]

/-- Witness for C10, scenario S1: `base=512, n_frames=1024, info_frame_no=0`
gives bitmap byte 0 = `0x40` and `nFreeFrames = 1023`; a band of 1022 frames is
rejected. -/
theorem construct_spec_witness :
    (∃ p, ContFramePool.construct 512 1024 0 0 (fun _ => 0xFF) = some p ∧
        p.base_frame_no = 512 ∧ p.nframes = 1024 ∧
        (0 = 0 → 0 < 1024 →
          p.cell 0 = HEAD ∧ (∀ k, 0 < k → k < 1024 → p.cell k = FREE) ∧
          p.bitmap 0 = 0x40 ∧ p.nFreeFrames = 1024 - 1) ∧
        (0 ≠ 0 → (∀ k, k < 1024 → p.cell k = FREE) ∧ p.nFreeFrames = 1024)) ∧
    ContFramePool.construct 512 1022 0 0 (fun _ => 0xFF) = none :=
  ⟨(construct_spec 512 1024 0 0 (fun _ => 0xFF)).2 (by decide) (by decide),
    (construct_spec 512 1022 0 0 (fun _ => 0xFF)).1 (by decide)⟩

/-! # Properties of the info-frame count, the virtual-memory pool and the page table -/

set_option maxRecDepth 100000

/-! ## Info frames -/

/-- C11 (`needed_info_frames`): for every `n`, `needed_info_frames(n)` is
`ceil(n / 16384)`, that is the least `k` with `k * (4096 * 4) ≥ n`; it is 0 for
`n = 0`, 1 for `1 ≤ n ≤ 16384`, and 2 for `n = 16385`. -/
theorem needed_info_frames_ceil (n : Nat) :
    ContFramePool.needed_info_frames n = (n + 16383) / 16384 ∧
    n ≤ ContFramePool.needed_info_frames n * (4096 * 4) ∧
    (∀ k, n ≤ k * (4096 * 4) → ContFramePool.needed_info_frames n ≤ k) ∧
    ContFramePool.needed_info_frames 0 = 0 ∧
    (1 ≤ n ∧ n ≤ 16384 → ContFramePool.needed_info_frames n = 1) ∧
    ContFramePool.needed_info_frames 16385 = 2 := by
  have e : ContFramePool.needed_info_frames n
      = n / 16384 + (if n % 16384 > 0 then 1 else 0) := rfl
  refine ⟨?_, ?_, ?_, by decide, ?_, by decide⟩
  · rw [e]; split <;> omega
  · rw [e]; split <;> omega
  · intro k hk; rw [e]; split <;> omega
  · intro h; rw [e]; split <;> omega

/-! ## Placement of regions by allocate -/

theorem setRegion_twice (regions : Nat → region) (i : Nat) (a r : Nat) :
    setRegion (setRegion regions i { (regions i) with base_address := a }) i
      { (setRegion regions i { (regions i) with base_address := a } i) with size := r }
      = setRegion regions i { base_address := a, size := r } := by
  funext x
  unfold setRegion
  by_cases h : x = i <;> simp [h]

theorem pageRound_num_frames (bytes : Nat) (hb : 0 < bytes) (hr : pageRound bytes < U32) :
    ((if bytes % PAGE_SIZE > 0 then inc32 (bytes / PAGE_SIZE) else bytes / PAGE_SIZE)
      * PAGE_SIZE) % U32 = pageRound bytes := by
  unfold pageRound at *
  unfold inc32 PAGE_SIZE U32 at *
  split <;> omega

/-- What a call of `allocate` that passes the assertion does: the new region
is placed at `endAddr` with the page-rounded size, in slot `region_no`. -/
theorem allocate_next (p : VMPool) (bytes : Nat) (hb : 0 < bytes)
    (hr : pageRound bytes < U32) (ha : p.endAddr < U32)
    (hroom : p.region_no = 0 ∨ p.region_no + 1 < p.max_regions) (hmax : p.max_regions ≤ U32) :
    p.allocate bytes = some (p.endAddr,
      { p with regions := setRegion p.regions p.region_no
                 { base_address := p.endAddr, size := pageRound bytes },
               region_no := p.region_no + 1 }) := by
  have hnf := pageRound_num_frames bytes hb hr
  unfold VMPool.allocate
  have hb0 : ¬ bytes = 0 := by omega
  simp only [hb0, if_false]
  by_cases h0 : p.region_no = 0
  · have hend : p.endAddr = p.base_address + 4096 := by simp [VMPool.endAddr, h0]
    have hmod : (p.base_address + PAGE_SIZE) % U32 = p.endAddr := by
      rw [hend] at ha ⊢
      exact Nat.mod_eq_of_lt ha
    have hinc : inc32 p.region_no = p.region_no + 1 := by
      rw [h0]; decide
    rw [if_pos h0]
    simp only [hmod, hnf, setRegion_twice, hinc]
  · have hlt : p.region_no + 1 < p.max_regions := by
      rcases hroom with h | h
      · exact absurd h h0
      · exact h
    have hdec : dec32 p.region_no = p.region_no - 1 :=
      dec32_of_pos (by omega) (by omega)
    have hinc : inc32 p.region_no = p.region_no + 1 := by
      unfold inc32; apply Nat.mod_eq_of_lt; omega
    have hend : p.endAddr = (p.regions (p.region_no - 1)).base_address
        + (p.regions (p.region_no - 1)).size := by simp [VMPool.endAddr, h0]
    have hmod : ((p.regions (p.region_no - 1)).base_address
        + (p.regions (p.region_no - 1)).size) % U32 = p.endAddr := by
      rw [hend] at ha ⊢
      exact Nat.mod_eq_of_lt ha
    have hnot : ¬ ¬ (p.region_no + 1 < p.max_regions) := fun h => h hlt
    rw [if_neg h0]
    simp only [hdec, hinc, hmod, hnf, setRegion_twice, hnot, if_false]

/-- C15 as stated fails: the fresh pool of S4 records size 0, not the rounded
size 4294967296, for `allocate(0xFFFFF001)`. -/
theorem allocate_size_wraps :
    pageRound 0xFFFFF001 = 4294967296 ∧
    ((vmS4.allocate 0xFFFFF001).map fun r => (r.1, r.2.regions 0, r.2.region_no))
      = some (0x10001000, { base_address := 0x10001000, size := 0 }, 1) := by
  decide

/-- C15, amended: for every pool and `bytes > 0` whose page-rounded size `r`
is below 2^32: if `region_no = 0` (and `base_address + 4096` is below 2^32)
`allocate` returns `base_address + 4096` and records `regions[0]` as that
address with size `r`; if `region_no > 0`, `region_no + 1 < max_regions` and
the end of the last region is below 2^32, it returns the end of the last
region and records it with size `r` as the new last region. In both cases
`region_no` increases by 1 and every other descriptor is unchanged. -/
theorem allocate_placement (p : VMPool) (bytes : Nat) (hb : 0 < bytes)
    (hr : pageRound bytes < U32) (hmax : p.max_regions ≤ U32) :
    (p.region_no = 0 → p.base_address + 4096 < U32 →
      ∃ q, p.allocate bytes = some (p.base_address + 4096, q) ∧
        q.regions 0 = { base_address := p.base_address + 4096, size := pageRound bytes } ∧
        q.region_no = 1 ∧ (∀ i, i ≠ 0 → q.regions i = p.regions i) ∧
        q.base_address = p.base_address ∧ q.size = p.size ∧
        q.max_regions = p.max_regions) ∧
    (0 < p.region_no → p.region_no + 1 < p.max_regions →
      (p.regions (p.region_no - 1)).base_address + (p.regions (p.region_no - 1)).size < U32 →
      ∃ q, p.allocate bytes = some ((p.regions (p.region_no - 1)).base_address
            + (p.regions (p.region_no - 1)).size, q) ∧
        q.regions p.region_no
          = { base_address := (p.regions (p.region_no - 1)).base_address
                + (p.regions (p.region_no - 1)).size, size := pageRound bytes } ∧
        q.region_no = p.region_no + 1 ∧
        (∀ i, i ≠ p.region_no → q.regions i = p.regions i) ∧
        q.base_address = p.base_address ∧ q.size = p.size ∧
        q.max_regions = p.max_regions) := by
  constructor
  · intro h0 ha
    have hend : p.endAddr = p.base_address + 4096 := by simp [VMPool.endAddr, h0]
    have h := allocate_next p bytes hb hr (by rw [hend]; exact ha) (Or.inl h0) hmax
    rw [hend] at h
    refine ⟨_, h, ?_, by simp [h0], ?_, rfl, rfl, rfl⟩
    · simp [setRegion, h0]
    · intro i hi; simp [setRegion, h0, hi]
  · intro h0 hroom ha
    have hne : ¬ p.region_no = 0 := by omega
    have hend : p.endAddr = (p.regions (p.region_no - 1)).base_address
        + (p.regions (p.region_no - 1)).size := by simp [VMPool.endAddr, hne]
    have h := allocate_next p bytes hb hr (by rw [hend]; exact ha) (Or.inr hroom) hmax
    rw [hend] at h
    refine ⟨_, h, ?_, rfl, ?_, rfl, rfl, rfl⟩
    · simp [setRegion]
    · intro i hi; simp [setRegion, hi]

/-- Witness for C15 (amended), scenario S4: `allocate(F)` on the fresh pool at
`B = 0x10000000` returns `B + F`. -/
theorem allocate_placement_witness :
    ∃ q, vmS4.allocate 4096 = some (0x10000000 + 4096, q) ∧
      q.regions 0 = { base_address := 0x10000000 + 4096, size := pageRound 4096 } ∧
      q.region_no = 1 ∧ (∀ i, i ≠ 0 → q.regions i = vmS4.regions i) ∧
      q.base_address = vmS4.base_address ∧ q.size = vmS4.size ∧
      q.max_regions = vmS4.max_regions :=
  (allocate_placement vmS4 4096 (by decide) (by decide) (by decide)).1 (by decide) (by decide)

/-! ## Sequences of allocations -/

theorem pageRound_ge (bytes : Nat) (hb : 0 < bytes) : 4096 ≤ pageRound bytes := by
  unfold pageRound
  omega

theorem endAddr_after_allocate (p : VMPool) (a r : Nat) :
    VMPool.endAddr { p with regions := setRegion p.regions p.region_no
                              { base_address := a, size := r },
                            region_no := p.region_no + 1 } = a + r := by
  simp [VMPool.endAddr, setRegion]

/-- A sequence of allocations that fits the address space and the table: every
call succeeds with a non-zero address and the next placement address advances
by the page-rounded sizes. -/
theorem allocateAll_spec (bs : List Nat) :
    ∀ (p : VMPool), p.max_regions = 512 → p.region_no + bs.length < 512 →
      (∀ b, b ∈ bs → 0 < b) → 4096 ≤ p.endAddr →
      p.endAddr + (bs.map pageRound).sum ≤ U32 →
      ∃ addrs q, p.allocateAll bs = some (addrs, q) ∧ (∀ a, a ∈ addrs → a ≠ 0) ∧
        q.region_no = p.region_no + bs.length ∧
        q.endAddr = p.endAddr + (bs.map pageRound).sum ∧
        q.base_address = p.base_address ∧ q.size = p.size ∧ q.max_regions = 512 := by
  induction bs with
  | nil =>
    intro p hmax _ _ _ _
    exact ⟨[], p, rfl, by simp, by simp, by simp, rfl, rfl, hmax⟩
  | cons b bs ih =>
    intro p hmax hlen hpos hend hsum
    have hb : 0 < b := hpos b (List.mem_cons_self _ _)
    have hge := pageRound_ge b hb
    simp only [List.map_cons, List.sum_cons, List.length_cons] at hsum hlen
    have hstep := allocate_next p b hb (by omega) (by omega)
      (Or.inr (by rw [hmax]; omega)) (by rw [hmax]; decide)
    obtain ⟨addrs, q, hq, hnz, hno, hqe, hqb, hqs, hqm⟩ :=
      ih { p with regions := setRegion p.regions p.region_no
                    { base_address := p.endAddr, size := pageRound b },
                  region_no := p.region_no + 1 }
        hmax (by simp only []; omega) (fun x hx => hpos x (List.mem_cons_of_mem _ hx))
        (by rw [endAddr_after_allocate]; omega)
        (by rw [endAddr_after_allocate]; omega)
    rw [endAddr_after_allocate] at hqe
    refine ⟨p.endAddr :: addrs, q, ?_, ?_, ?_, ?_, hqb, hqs, hqm⟩
    · simp only [VMPool.allocateAll, hstep, Option.some_bind, hq, Option.map_some']
    · intro a ha
      rcases List.mem_cons.mp ha with h | h
      · rw [h]; omega
      · exact hnz a h
    · simp only [List.length_cons]
      rw [hno]
      simp only []
      omega
    · simp only [List.map_cons, List.sum_cons]
      rw [hqe]
      omega

/-- C16 (containment), evaluated on the fresh pool of S4 (a window of 16 frames
at `B = 0x10000000`, which ends at `B + 16 F = 0x10010000`): `allocate(32 F)`
passes, returns the non-zero address `B + F` and records a region that ends at
`B + 33 F`, past the end of the window; `allocate` does not read `size`. Of the
addresses of that region, `is_legitimate` of the same pool accepts `B + F` and
rejects `B + 16 F` and the last byte `B + 33 F - 1`. -/
theorem allocate_ignores_window :
    vmS4.base_address + vmS4.size = 0x10010000 ∧
    ((vmS4.allocate (32 * 4096)).map fun r =>
        (r.1, (r.2.regions 0).base_address + (r.2.regions 0).size))
      = some (0x10001000, 0x10021000) ∧
    ¬ (0x10021000 ≤ vmS4.base_address + vmS4.size) ∧
    ((vmS4.allocate (32 * 4096)).map fun r =>
        [r.2.is_legitimate 0x10001000, r.2.is_legitimate 0x10010000,
         r.2.is_legitimate 0x10020FFF])
      = some [true, false, false] := by
  decide

/-- Where a sequence of allocations ends: for every fresh pool
`(base_address, size)` with `base_address + size ≤ 2^32` and every sequence of
`k ≥ 1` allocate calls (`k < 512`) for sizes `b_i > 0` whose page-rounded sizes
`r_i` together with the metadata page total at most `size`, every call returns
a non-zero address and the last region ends at
`base_address + 4096 + Σ r_i`, which is inside the window only because the
caller kept the total within `size`. -/
theorem allocate_stays_in_window (B size : Nat) (mem : Nat → region) (bs : List Nat)
    (hne : bs ≠ []) (hpos : ∀ b, b ∈ bs → 0 < b) (hk : bs.length < 512)
    (hwin : B + size ≤ U32) (hsum : 4096 + (bs.map pageRound).sum ≤ size) :
    ∃ addrs q, (VMPool.construct B size mem).allocateAll bs = some (addrs, q) ∧
      (∀ a, a ∈ addrs → a ≠ 0) ∧ q.region_no = bs.length ∧
      (q.regions (bs.length - 1)).base_address + (q.regions (bs.length - 1)).size
        = B + 4096 + (bs.map pageRound).sum ∧
      (q.regions (bs.length - 1)).base_address + (q.regions (bs.length - 1)).size
        ≤ B + size := by
  have he : (VMPool.construct B size mem).endAddr = B + 4096 := by
    simp [VMPool.endAddr, VMPool.construct]
  obtain ⟨addrs, q, hq, hnz, hno, hqe, _, _, _⟩ :=
    allocateAll_spec bs (VMPool.construct B size mem) rfl
      (by simp only [VMPool.construct]; omega) hpos (by rw [he]; omega) (by rw [he]; omega)
  have hno2 : q.region_no = bs.length := by
    rw [hno]; simp [VMPool.construct]
  have hlen : 0 < bs.length := List.length_pos.mpr hne
  have hend : q.endAddr = (q.regions (bs.length - 1)).base_address
      + (q.regions (bs.length - 1)).size := by
    have hq0 : ¬ q.region_no = 0 := by omega
    unfold VMPool.endAddr
    rw [if_neg hq0, hno2]
  rw [he] at hqe
  refine ⟨addrs, q, hq, hnz, hno2, ?_, ?_⟩
  · rw [← hend, hqe]
  · rw [← hend, hqe]; omega

/-- An instance on the pool of S4: three allocations of 1, 4096 and 4097 bytes
in the 16-frame window end at `B + 5 F`. -/
theorem allocate_stays_in_window_witness :
    ∃ addrs q, (VMPool.construct 0x10000000 (16 * 4096) vmS4.regions).allocateAll
        [1, 4096, 4097] = some (addrs, q) ∧
      (∀ a, a ∈ addrs → a ≠ 0) ∧ q.region_no = 3 ∧
      (q.regions 2).base_address + (q.regions 2).size
        = 0x10000000 + 4096 + ([1, 4096, 4097].map pageRound).sum ∧
      (q.regions 2).base_address + (q.regions 2).size ≤ 0x10000000 + 16 * 4096 :=
  allocate_stays_in_window 0x10000000 (16 * 4096) vmS4.regions [1, 4096, 4097]
    (by decide) (by decide) (by decide) (by decide) (by decide)

/-! ## The assertion of allocate -/

/-- C18 (VMP_FULL boundary), evaluated: with `max_regions = 512` and
`region_no = 511 < max_regions` on entry, `allocate(4096)` fails its assertion
(the test `region_no < max_regions` is made after the increment). The state is
reached from the fresh pool of S4 by 511 allocations; the 512th aborts. -/
theorem allocate_asserts_one_early :
    vmAlmostFull.max_regions = 512 ∧ vmAlmostFull.region_no = 511 ∧
    (vmAlmostFull.allocate 4096).isNone = true ∧
    ((vmS4.allocateAll (List.replicate 511 4096)).map fun r => r.2.region_no) = some 511 ∧
    (vmS4.allocateAll (List.replicate 512 4096)).isNone = true := by
  decide

/-! ## release -/

theorem findRegion_found (regions : Nat → region) (start : Nat) :
    ∀ left i cur j, i ≤ j → j < i + left → (regions j).base_address = start →
      (∀ t, i ≤ t → t < j → (regions t).base_address ≠ start) →
      findRegion regions start left i cur = j := by
  intro left
  induction left with
  | zero => intro i cur j h1 h2; omega
  | succ left ih =>
    intro i cur j h1 h2 hj hbefore
    simp only [findRegion]
    by_cases hi : (regions i).base_address = start
    · rw [if_pos hi]
      by_contra hne
      exact hbefore i (Nat.le_refl _) (by omega) hi
    · rw [if_neg hi]
      have hij : i ≠ j := fun h => hi (by rw [h]; exact hj)
      exact ih (i + 1) cur j (by omega) (by omega) hj
        (fun t h3 h4 => hbefore t (by omega) h4)

theorem findRegion_none (regions : Nat → region) (start : Nat) :
    ∀ left i cur, (∀ t, i ≤ t → t < i + left → (regions t).base_address ≠ start) →
      findRegion regions start left i cur = cur := by
  intro left
  induction left with
  | zero => intro i cur _; rfl
  | succ left ih =>
    intro i cur h
    simp only [findRegion]
    rw [if_neg (h i (Nat.le_refl _) (by omega))]
    exact ih (i + 1) cur (fun t h1 h2 => h t (by omega) (by omega))

theorem shiftRegions_spec :
    ∀ left i (regions : Nat → region) x,
      shiftRegions left i regions x
        = if i ≤ x ∧ x < i + left then regions (x + 1) else regions x := by
  intro left
  induction left with
  | zero =>
    intro i regions x
    have h : ¬ (i ≤ x ∧ x < i + 0) := by omega
    simp only [shiftRegions]
    rw [if_neg h]
  | succ left ih =>
    intro i regions x
    simp only [shiftRegions]
    rw [ih]
    unfold setRegion
    by_cases h1 : i + 1 ≤ x ∧ x < i + 1 + left
    · have h2 : i ≤ x ∧ x < i + (left + 1) := by omega
      have h3 : ¬ (x + 1 = i) := by omega
      rw [if_pos h1, if_pos h2, if_neg h3]
    · rw [if_neg h1]
      by_cases h4 : x = i
      · have h2 : i ≤ x ∧ x < i + (left + 1) := by omega
        rw [if_pos h4, if_pos h2, h4]
      · have h2 : ¬ (i ≤ x ∧ x < i + (left + 1)) := by omega
        rw [if_neg h4, if_neg h2]

theorem freePages_succ (n a : Nat) :
    freePages (n + 1) a = PTCall.free_page a :: freePages n ((a + PAGE_SIZE) % U32) := rfl

theorem freePages_spec :
    ∀ n a, a + n * 4096 ≤ U32 →
      freePages n a = (List.range n).map fun k => PTCall.free_page (a + k * 4096) := by
  intro n
  induction n with
  | zero => intro a _; rfl
  | succ n ih =>
    intro a h
    rw [freePages_succ, List.range_succ_eq_map]
    simp only [List.map_cons, List.map_map, Nat.zero_mul, Nat.add_zero]
    refine congrArg (List.cons (PTCall.free_page a)) ?_
    cases n with
    | zero => rfl
    | succ m =>
      have hlt : a + 4096 < U32 := by omega
      have hmod : (a + PAGE_SIZE) % U32 = a + 4096 := Nat.mod_eq_of_lt hlt
      rw [hmod, ih (a + 4096) (by omega)]
      apply List.map_congr_left
      intro k _
      show PTCall.free_page (a + 4096 + k * 4096) = PTCall.free_page (a + (k + 1) * 4096)
      have e : a + 4096 + k * 4096 = a + (k + 1) * 4096 := by omega
      rw [e]

/-- What `release` does for the start of a live region with pairwise distinct
live bases: page-table calls, new `region_no`, and the new table. -/
theorem release_spec (p : VMPool) (hv : p.max_regions = 512)
    (hm : p.region_no ≤ p.max_regions)
    (hdist : ∀ i j, i < p.region_no → j < p.region_no →
      (p.regions i).base_address = (p.regions j).base_address → i = j)
    (j : Nat) (hj : j < p.region_no)
    (hfit : (p.regions j).base_address + (p.regions j).size ≤ U32) :
    p.release (p.regions j).base_address
      = some ({ p with regions := shiftRegions (p.region_no - 1 - j) j p.regions,
                       region_no := p.region_no - 1 },
              ((List.range ((p.regions j).size / 4096)).map fun k =>
                  PTCall.free_page ((p.regions j).base_address + k * 4096))
                ++ [PTCall.load]) := by
  have hfind : findRegion p.regions (p.regions j).base_address p.max_regions 0 (U32 - 1) = j :=
    findRegion_found p.regions _ p.max_regions 0 (U32 - 1) j (Nat.zero_le _) (by omega) rfl
      (fun t _ h2 h3 => by
        have := hdist t j (by omega) hj h3
        omega)
  have hdec : dec32 p.region_no = p.region_no - 1 :=
    dec32_of_pos (by omega) (by unfold U32; omega)
  have hfree := freePages_spec ((p.regions j).size / 4096) (p.regions j).base_address (by omega)
  unfold VMPool.release
  simp only [hfind, hdec, Nat.not_lt_zero, if_false]
  have hps : (p.regions j).size / PAGE_SIZE = (p.regions j).size / 4096 := rfl
  rw [hps, hfree]

/-- C19 (REGION_NOT_FOUND), evaluated: on the pool of S4 after `allocate(8192)`
(one live region at `0x10001000`), `release(0x5000)` matches no descriptor of
the table, yet the assertion passes (`cur_region` is unsigned, so
`cur_region < 0` is never true): `free_page` is called for the two pages that
the descriptor read before the table announces, and `region_no` drops to 0. -/
theorem release_unknown_start_not_fatal :
    ((vmS4.run [.allocate 8192]).map fun p => (p.region_no, p.regions 0))
      = some (1, { base_address := 0x10001000, size := 8192 }) ∧
    ((vmS4.run [.allocate 8192]).map fun p =>
        findRegion p.regions 0x5000 p.max_regions 0 (U32 - 1)) = some (U32 - 1) ∧
    (((vmS4.run [.allocate 8192]).bind fun p => p.release 0x5000).map fun r =>
        (r.1.region_no, r.2))
      = some (0, [PTCall.free_page 0x5000, PTCall.free_page 0x6000, PTCall.load]) := by
  decide

/-- C20 (release removes exactly one descriptor): for every pool whose table
has the constructor's capacity, with live regions `r_0 .. r_{m-1}` having
pairwise distinct bases, and every `j < m` whose region lies inside the 32-bit
address space, `release(r_j.base)` passes the assertion, calls `free_page` on
`r_j.base + k*4096` for `k = 0 .. r_j.size/4096 - 1`, once each and in that
order, then `load`; it leaves `region_no = m-1`, the descriptors before `j`
unchanged and every later live descriptor moved down by one slot. -/
theorem release_removes_one_descriptor (p : VMPool) (hv : p.max_regions = 512)
    (hm : p.region_no ≤ p.max_regions)
    (hdist : ∀ i j, i < p.region_no → j < p.region_no →
      (p.regions i).base_address = (p.regions j).base_address → i = j)
    (j : Nat) (hj : j < p.region_no)
    (hfit : (p.regions j).base_address + (p.regions j).size ≤ U32) :
    ∃ q calls, p.release (p.regions j).base_address = some (q, calls) ∧
      calls = ((List.range ((p.regions j).size / 4096)).map fun k =>
                  PTCall.free_page ((p.regions j).base_address + k * 4096))
                ++ [PTCall.load] ∧
      q.region_no = p.region_no - 1 ∧
      (∀ i, i < j → q.regions i = p.regions i) ∧
      (∀ i, j ≤ i → i + 1 < p.region_no → q.regions i = p.regions (i + 1)) ∧
      q.base_address = p.base_address ∧ q.size = p.size ∧
      q.max_regions = p.max_regions := by
  refine ⟨_, _, release_spec p hv hm hdist j hj hfit, rfl, rfl, ?_, ?_, rfl, rfl, rfl⟩
  · intro i hi
    show shiftRegions (p.region_no - 1 - j) j p.regions i = _
    rw [shiftRegions_spec, if_neg (by omega)]
  · intro i h1 h2
    show shiftRegions (p.region_no - 1 - j) j p.regions i = _
    rw [shiftRegions_spec, if_pos (by omega)]

/-- Witness for C20: with regions of 2, 1 and 1 pages, `release` of the first
one calls `free_page` on its two pages and leaves the other two, in order. -/
theorem release_removes_one_descriptor_witness :
    ((vmS4.run [.allocate 8192, .allocate 4096, .allocate 4096]).map fun p =>
        (p.region_no, p.regions 0, p.regions 1, p.regions 2))
      = some (vmThree.region_no, vmThree.regions 0, vmThree.regions 1, vmThree.regions 2) ∧
    ∃ q calls, vmThree.release 0x10001000 = some (q, calls) ∧
      calls = [PTCall.free_page 0x10001000, PTCall.free_page 0x10002000, PTCall.load] ∧
      q.region_no = 2 ∧
      q.regions 0 = { base_address := 0x10003000, size := 4096 } ∧
      q.regions 1 = { base_address := 0x10004000, size := 4096 } := by
  refine ⟨by decide, ?_⟩
  obtain ⟨q, calls, h1, h2, h3, _, h5, _⟩ :=
    release_removes_one_descriptor vmThree (by decide) (by decide)
      (fun i j hi hj h => by
        have hi3 : i < 3 := hi
        have hj3 : j < 3 := hj
        interval_cases i <;> interval_cases j <;>
          first | rfl | exact absurd h (by decide))
      0 (by decide) (by decide)
  exact ⟨q, calls, h1, h2, h3, h5 0 (by decide) (by decide), h5 1 (by decide) (by decide)⟩

/-! ## The region table across allocations and releases -/

theorem allocate_some_room (p : VMPool) (hv : p.Valid) (bytes : Nat) (hb : 0 < bytes)
    (r : Nat × VMPool) (h : p.allocate bytes = some r) :
    p.region_no = 0 ∨ p.region_no + 1 < p.max_regions := by
  by_cases h0 : p.region_no = 0
  · exact Or.inl h0
  · right
    unfold VMPool.allocate at h
    have hb0 : ¬ bytes = 0 := by omega
    simp only [hb0, if_false] at h
    rw [if_neg h0] at h
    have hinc : inc32 p.region_no = p.region_no + 1 := by
      unfold inc32; apply Nat.mod_eq_of_lt
      have := hv.2; rw [hv.1] at this; unfold U32; omega
    by_cases hlt : p.region_no + 1 < p.max_regions
    · exact hlt
    · simp [hinc, hlt] at h

theorem ordered_endAddr (p : VMPool) (ho : p.Ordered) : 4096 ≤ p.endAddr := by
  unfold VMPool.endAddr
  by_cases h0 : p.region_no = 0
  · rw [if_pos h0]; omega
  · rw [if_neg h0]
    have := (ho.1 (p.region_no - 1) (by omega)).1
    omega

theorem ordered_mono (p : VMPool) (ho : p.Ordered) :
    ∀ d i, i + d + 1 < p.region_no →
      (p.regions i).base_address + (p.regions i).size ≤ (p.regions (i + d + 1)).base_address := by
  intro d
  induction d with
  | zero => intro i h; exact ho.2.2 i h
  | succ d ih =>
    intro i h
    have h1 := ih i (by omega)
    have h2 := ho.2.2 (i + d + 1) (by omega)
    have h3 := (ho.1 (i + d + 1) (by omega)).1
    have e : i + (d + 1) + 1 = i + d + 1 + 1 := by omega
    rw [e]
    omega

theorem ordered_distinct (p : VMPool) (ho : p.Ordered) :
    ∀ i j, i < p.region_no → j < p.region_no →
      (p.regions i).base_address = (p.regions j).base_address → i = j := by
  intro i j hi hj h
  by_contra hne
  rcases Nat.lt_or_gt_of_ne hne with hlt | hgt
  · have hm := ordered_mono p ho (j - i - 1) i (by omega)
    have e : i + (j - i - 1) + 1 = j := by omega
    rw [e] at hm
    have := (ho.1 i hi).1
    omega
  · have hm := ordered_mono p ho (i - j - 1) j (by omega)
    have e : j + (i - j - 1) + 1 = i := by omega
    rw [e] at hm
    have := (ho.1 j hj).1
    omega

/-- An admissible `allocate` keeps the table valid and ordered, and keeps the
chain of the regions when it held before. -/
theorem allocate_keeps_ordered (p : VMPool) (hv : p.Valid) (ho : p.Ordered) (bytes : Nat)
    (hb : 0 < bytes) (hfit : p.endAddr + pageRound bytes ≤ U32)
    (r : Nat × VMPool) (h : p.allocate bytes = some r) :
    r.2.Valid ∧ r.2.Ordered ∧ r.2.base_address = p.base_address ∧
      (p.Chained → r.2.Chained) := by
  have hend := ordered_endAddr p ho
  have hge := pageRound_ge bytes hb
  have hroom := allocate_some_room p hv bytes hb r h
  have hmax : p.max_regions ≤ U32 := by rw [hv.1]; decide
  have hnext := allocate_next p bytes hb (by omega) (by omega) hroom hmax
  rw [hnext] at h
  simp only [Option.some.injEq] at h
  subst h
  have hrn := hv.2
  have hm512 := hv.1
  refine ⟨⟨hm512, ?_⟩, ⟨?_, ?_, ?_⟩, rfl, ?_⟩
  · show p.region_no + 1 < p.max_regions
    rcases hroom with h0 | h1
    · rw [h0, hm512]; decide
    · exact h1
  · intro k hk
    show 4096 ≤ (setRegion p.regions p.region_no _ k).size ∧
      (setRegion p.regions p.region_no _ k).base_address
        + (setRegion p.regions p.region_no _ k).size ≤ U32
    unfold setRegion
    by_cases hkm : k = p.region_no
    · rw [if_pos hkm]; exact ⟨hge, hfit⟩
    · rw [if_neg hkm]
      exact ho.1 k (by have : k < p.region_no + 1 := hk; omega)
  · intro _
    show p.base_address + 4096 ≤ (setRegion p.regions p.region_no _ 0).base_address
    unfold setRegion
    by_cases h0 : 0 = p.region_no
    · rw [if_pos h0]
      show p.base_address + 4096 ≤ p.endAddr
      unfold VMPool.endAddr
      rw [if_pos h0.symm]
    · rw [if_neg h0]
      exact ho.2.1 (by omega)
  · intro k hk
    have hk2 : k + 1 < p.region_no + 1 := hk
    show (setRegion p.regions p.region_no _ k).base_address
        + (setRegion p.regions p.region_no _ k).size
        ≤ (setRegion p.regions p.region_no _ (k + 1)).base_address
    unfold setRegion
    have hkm : ¬ k = p.region_no := by omega
    rw [if_neg hkm]
    by_cases hk1 : k + 1 = p.region_no
    · rw [if_pos hk1]
      show _ ≤ p.endAddr
      unfold VMPool.endAddr
      have h0 : ¬ p.region_no = 0 := by omega
      have e : p.region_no - 1 = k := by omega
      rw [if_neg h0, e]
    · rw [if_neg hk1]
      exact ho.2.2 k (by omega)
  · intro hc
    constructor
    · intro _
      show (setRegion p.regions p.region_no _ 0).base_address = p.base_address + 4096
      unfold setRegion
      by_cases h0 : 0 = p.region_no
      · rw [if_pos h0]
        show p.endAddr = _
        unfold VMPool.endAddr
        rw [if_pos h0.symm]
      · rw [if_neg h0]
        exact hc.1 (by omega)
    · intro k hk
      have hk2 : k + 1 < p.region_no + 1 := hk
      show (setRegion p.regions p.region_no _ (k + 1)).base_address
          = (setRegion p.regions p.region_no _ k).base_address
            + (setRegion p.regions p.region_no _ k).size
      unfold setRegion
      have hkm : ¬ k = p.region_no := by omega
      rw [if_neg hkm]
      by_cases hk1 : k + 1 = p.region_no
      · rw [if_pos hk1]
        show p.endAddr = _
        unfold VMPool.endAddr
        have h0 : ¬ p.region_no = 0 := by omega
        have e : p.region_no - 1 = k := by omega
        rw [if_neg h0, e]
      · rw [if_neg hk1]
        exact hc.2 k (by omega)

/-- A `release` of the start of a live region keeps the table valid and
ordered. -/
theorem release_keeps_ordered (p : VMPool) (hv : p.Valid) (ho : p.Ordered) (j : Nat)
    (hj : j < p.region_no) (r : VMPool × List PTCall)
    (h : p.release (p.regions j).base_address = some r) :
    r.1.Valid ∧ r.1.Ordered ∧ r.1.base_address = p.base_address := by
  have hrn := hv.2
  have hspec := release_spec p hv.1 (by omega) (ordered_distinct p ho) j hj (ho.1 j hj).2
  rw [hspec] at h
  simp only [Option.some.injEq] at h
  subst h
  have hsh := shiftRegions_spec (p.region_no - 1 - j) j p.regions
  refine ⟨⟨hv.1, ?_⟩, ⟨?_, ?_, ?_⟩, rfl⟩
  · show p.region_no - 1 < p.max_regions
    omega
  · intro k hk
    have hk2 : k < p.region_no - 1 := hk
    show 4096 ≤ (shiftRegions (p.region_no - 1 - j) j p.regions k).size ∧
      (shiftRegions (p.region_no - 1 - j) j p.regions k).base_address
        + (shiftRegions (p.region_no - 1 - j) j p.regions k).size ≤ U32
    rw [hsh k]
    by_cases hc : j ≤ k ∧ k < j + (p.region_no - 1 - j)
    · rw [if_pos hc]; exact ho.1 (k + 1) (by omega)
    · rw [if_neg hc]; exact ho.1 k (by omega)
  · intro hpos
    have hpos2 : 0 < p.region_no - 1 := hpos
    show p.base_address + 4096
      ≤ (shiftRegions (p.region_no - 1 - j) j p.regions 0).base_address
    rw [hsh 0]
    have h0 := ho.2.1 (by omega)
    by_cases hc : j ≤ 0 ∧ 0 < j + (p.region_no - 1 - j)
    · rw [if_pos hc]
      have h1 := ho.2.2 0 (by omega)
      have h2 := (ho.1 0 (by omega)).1
      omega
    · rw [if_neg hc]; exact h0
  · intro k hk
    have hk2 : k + 1 < p.region_no - 1 := hk
    show (shiftRegions (p.region_no - 1 - j) j p.regions k).base_address
        + (shiftRegions (p.region_no - 1 - j) j p.regions k).size
        ≤ (shiftRegions (p.region_no - 1 - j) j p.regions (k + 1)).base_address
    rw [hsh k, hsh (k + 1)]
    by_cases hc : j ≤ k ∧ k < j + (p.region_no - 1 - j)
    · have hc2 : j ≤ k + 1 ∧ k + 1 < j + (p.region_no - 1 - j) := by omega
      rw [if_pos hc, if_pos hc2]
      exact ho.2.2 (k + 1) (by omega)
    · rw [if_neg hc]
      by_cases hc2 : j ≤ k + 1 ∧ k + 1 < j + (p.region_no - 1 - j)
      · rw [if_pos hc2]
        have h1 := ordered_mono p ho 1 k (by omega)
        exact h1
      · rw [if_neg hc2]
        exact ho.2.2 k (by omega)

theorem run_keeps_ordered (ops : List VMOp) :
    ∀ (p : VMPool), p.Valid → p.Ordered → p.Admissible ops →
      ∀ q, p.run ops = some q →
        q.Valid ∧ q.Ordered ∧ q.base_address = p.base_address ∧
          ((∀ op, op ∈ ops → op.isAllocate) → p.Chained → q.Chained) := by
  induction ops with
  | nil =>
    intro p hv ho _ q hq
    simp only [VMPool.run, Option.some.injEq] at hq
    subst hq
    exact ⟨hv, ho, rfl, fun _ hc => hc⟩
  | cons op rest ih =>
    intro p hv ho hadm q hq
    simp only [VMPool.run] at hq
    cases hstep : p.step op with
    | none => rw [hstep] at hq; simp at hq
    | some p1 =>
      rw [hstep] at hq
      simp only [Option.some_bind] at hq
      cases op with
      | allocate bytes =>
        unfold VMPool.Admissible at hadm
        rw [hstep] at hadm
        obtain ⟨⟨hb, hfit⟩, hrest⟩ := hadm
        simp only [VMPool.step, Option.map_eq_some'] at hstep
        obtain ⟨r, hr, hr2⟩ := hstep
        obtain ⟨hv1, ho1, hb1, hc1⟩ := allocate_keeps_ordered p hv ho bytes hb hfit r hr
        rw [hr2] at hv1 ho1 hb1 hc1
        obtain ⟨hv2, ho2, hb2, hc2⟩ := ih p1 hv1 ho1 hrest q hq
        exact ⟨hv2, ho2, by rw [hb2, hb1],
          fun hall hc => hc2 (fun o ho => hall o (List.mem_cons_of_mem _ ho)) (hc1 hc)⟩
      | release start =>
        unfold VMPool.Admissible at hadm
        rw [hstep] at hadm
        obtain ⟨⟨j, hj, hjs⟩, hrest⟩ := hadm
        simp only [VMPool.step, Option.map_eq_some'] at hstep
        obtain ⟨r, hr, hr2⟩ := hstep
        rw [← hjs] at hr
        obtain ⟨hv1, ho1, hb1⟩ := release_keeps_ordered p hv ho j hj r hr
        rw [hr2] at hv1 ho1 hb1
        obtain ⟨hv2, ho2, hb2, _⟩ := ih p1 hv1 ho1 hrest q hq
        exact ⟨hv2, ho2, by rw [hb2, hb1],
          fun hall _ => absurd (hall _ (List.mem_cons_self _ _)) (fun h => h)⟩

/-- C17 as stated fails: on the fresh pool of S4 at `B = 0x10000000`, after
three one-page allocations the release of the middle region leaves
`regions[1].base = B + 3F`, which is not `regions[0].base + regions[0].size
= B + 2F`; and after two allocations the release of the first region leaves
`regions[0].base = B + 2F`, which is not `B + F`. -/
theorem release_breaks_chain :
    vmS4.Admissible [.allocate 4096, .allocate 4096, .allocate 4096, .release 0x10002000] ∧
    ((vmS4.run [.allocate 4096, .allocate 4096, .allocate 4096, .release 0x10002000]).map
        fun p => (p.region_no, p.regions 0, p.regions 1))
      = some (2, { base_address := 0x10001000, size := 4096 },
                 { base_address := 0x10003000, size := 4096 }) ∧
    vmS4.Admissible [.allocate 4096, .allocate 4096, .release 0x10001000] ∧
    ((vmS4.run [.allocate 4096, .allocate 4096, .release 0x10001000]).map
        fun p => (p.base_address, p.region_no, p.regions 0))
      = some (0x10000000, 1, { base_address := 0x10002000, size := 4096 }) := by
  decide

/-- C17, amended: in every state reachable from a fresh pool by a sequence of
`allocate(bytes > 0)` calls whose regions end inside the 32-bit address space
and `release(start of a live region)` calls, if `region_no > 0` then
`regions[0].base ≥ base_address + 4096`, and for every `k` with
`k + 1 < region_no`, `regions[k+1].base ≥ regions[k].base + regions[k].size`;
when the sequence contains no `release`, both hold with equality. -/
theorem regions_stay_ordered (B size : Nat) (mem : Nat → region) (ops : List VMOp)
    (hadm : (VMPool.construct B size mem).Admissible ops) (q : VMPool)
    (hq : (VMPool.construct B size mem).run ops = some q) :
    (0 < q.region_no → B + 4096 ≤ (q.regions 0).base_address) ∧
    (∀ k, k + 1 < q.region_no →
      (q.regions k).base_address + (q.regions k).size ≤ (q.regions (k + 1)).base_address) ∧
    ((∀ op, op ∈ ops → op.isAllocate) →
      (0 < q.region_no → (q.regions 0).base_address = B + 4096) ∧
      ∀ k, k + 1 < q.region_no →
        (q.regions (k + 1)).base_address = (q.regions k).base_address + (q.regions k).size) := by
  have hv : (VMPool.construct B size mem).Valid := by
    exact ⟨rfl, (by decide : 0 < 4096 / 8)⟩
  have ho : (VMPool.construct B size mem).Ordered :=
    ⟨fun k hk => absurd hk (Nat.not_lt_zero k), fun h => absurd h (Nat.lt_irrefl 0),
      fun k hk => absurd hk (Nat.not_lt_zero _)⟩
  have hc : (VMPool.construct B size mem).Chained :=
    ⟨fun h => absurd h (Nat.lt_irrefl 0), fun k hk => absurd hk (Nat.not_lt_zero _)⟩
  obtain ⟨_, hoq, hbq, hcq⟩ := run_keeps_ordered ops _ hv ho hadm q hq
  have hb : q.base_address = B := hbq
  refine ⟨fun h => ?_, hoq.2.2, fun hall => ?_⟩
  · have := hoq.2.1 h
    rw [hb] at this
    exact this
  · have hch := hcq hall hc
    refine ⟨fun h => ?_, hch.2⟩
    have := hch.1 h
    rw [hb] at this
    exact this

/-- Witness for C17 (amended): the state that breaks the chain, reached by
three allocations and the release of the middle region, is still ordered. -/
theorem regions_stay_ordered_witness :
    (VMPool.construct 0x10000000 (16 * 4096) vmS4.regions).Admissible
      [.allocate 4096, .allocate 4096, .allocate 4096, .release 0x10002000] ∧
    ∃ q, (VMPool.construct 0x10000000 (16 * 4096) vmS4.regions).run
        [.allocate 4096, .allocate 4096, .allocate 4096, .release 0x10002000] = some q ∧
      q.region_no = 2 ∧
      (q.regions 0).base_address + (q.regions 0).size ≤ (q.regions 1).base_address := by
  refine ⟨by decide, ?_⟩
  have hs : ((VMPool.construct 0x10000000 (16 * 4096) vmS4.regions).run
      [.allocate 4096, .allocate 4096, .allocate 4096, .release 0x10002000]).isSome = true := by
    decide
  obtain ⟨q, hq⟩ := Option.isSome_iff_exists.mp hs
  have hn : ((VMPool.construct 0x10000000 (16 * 4096) vmS4.regions).run
      [.allocate 4096, .allocate 4096, .allocate 4096, .release 0x10002000]).map
        (fun p => p.region_no) = some 2 := by decide
  rw [hq] at hn
  simp only [Option.map_some', Option.some.injEq] at hn
  exact ⟨q, hq, hn,
    (regions_stay_ordered 0x10000000 (16 * 4096) vmS4.regions _ (by decide) q hq).2.1 0
      (by omega)⟩

/-! ## The page table of MP4: constructor -/

/-- C12 (constructor layout), evaluated on the boot state with the S1 pool as
process pool (directory in frame 513 at `0x201000`, shared page table in frame
514 at `0x202000`). With `shared_size = 8192` the self-map `0x201003` is
written into slot 1 (`shared_frames - 1`), slot 2 and slot 1023 keep the 0
that memory held; with `shared_size = 4096` the self-map is written into slot
0 over the entry of the shared page table, and slots 1 and 1023 keep 0. The
list is: the directory address, slots 0, 1, 2 and 1023 of the directory,
entries 0 and 1 of the shared page table. -/
theorem construct_selfmap_misplaced :
    ((PageTable.construct (kernelBoot 8192)).map fun r =>
      [r.1.page_directory, r.2.mem 0x201000, r.2.mem 0x201004, r.2.mem 0x201008,
       r.2.mem 0x201FFC, r.2.mem 0x202000, r.2.mem 0x202004])
      = some [0x201000, 0x202003, 0x201003, 0, 0, 3, 0x1003] ∧
    ((PageTable.construct (kernelBoot 4096)).map fun r =>
      [r.1.page_directory, r.2.mem 0x201000, r.2.mem 0x201004, r.2.mem 0x201008,
       r.2.mem 0x201FFC, r.2.mem 0x202000, r.2.mem 0x202004])
      = some [0x201000, 0x201003, 0, 0, 0, 3, 0] := by
  decide

/-! ## The page table of MP4: address arithmetic of the recursive mapping -/

theorem shr22 (a : Nat) : a >>> 22 = a / 4194304 := by
  rw [Nat.shiftRight_eq_div_pow]

theorem pt_index (a : Nat) : (a >>> 12) &&& 0x03FF = a / 4096 % 1024 := by
  rw [Nat.shiftRight_eq_div_pow]
  exact Nat.and_pow_two_sub_one_eq_mod _ 10

theorem page_tb_eq (d : Nat) (hd : d < 1024) :
    (d <<< 12) ||| 0xFFC00000 = 0xFFC00000 + d * 4096 := by
  rw [Nat.shiftLeft_eq, Nat.or_comm]
  have h := @Nat.mul_add_lt_is_or 22 (d * 2 ^ 12) (by omega) 1023
  have e : (0xFFC00000 : Nat) = 2 ^ 22 * 1023 := by norm_num
  rw [e, ← h]
  norm_num

theorem or_three (x : Nat) (hx : x % 4096 = 0) : x ||| 3 = x + 3 := by
  have h := @Nat.mul_add_lt_is_or 12 3 (by decide) (x / 4096)
  have e : 2 ^ 12 * (x / 4096) = x := by
    have : (2 : Nat) ^ 12 = 4096 := by norm_num
    rw [this]
    omega
  rw [e] at h
  exact h.symm

theorem frame_entry (f : Nat) :
    ((f * PAGE_SIZE) % U32 ||| 3) % 2 = 1 ∧
    ((f * PAGE_SIZE) % U32 ||| 3) / 4096 * 4096 = (f * PAGE_SIZE) % U32 := by
  have h : ((f * PAGE_SIZE) % U32) % 4096 = 0 := by
    unfold PAGE_SIZE U32
    omega
  rw [or_three _ h]
  omega

theorem walk_directory (mem : Nat → Nat) (cr3 d : Nat) (hd : d < 1024)
    (h1 : mem (cr3 + 4 * 1023) % 2 = 1) (h2 : mem (cr3 + 4 * 1023) / 4096 * 4096 = cr3) :
    walk mem cr3 (0xFFFFF000 + 4 * d) = some (cr3 + 4 * d) := by
  have e1 : (0xFFFFF000 + 4 * d) / 4194304 = 1023 := by omega
  have e2 : (0xFFFFF000 + 4 * d) / 4096 % 1024 = 1023 := by omega
  have e3 : (0xFFFFF000 + 4 * d) % 4096 = 4 * d := by omega
  unfold walk
  simp only [e1, e2, e3, h2]
  rw [if_neg (by omega), if_neg (by omega)]

theorem walk_table (mem : Nat → Nat) (cr3 d i : Nat) (hd : d < 1024) (hi : i < 1024)
    (h1 : mem (cr3 + 4 * 1023) % 2 = 1) (h2 : mem (cr3 + 4 * 1023) / 4096 * 4096 = cr3)
    (hp : mem (cr3 + 4 * d) % 2 = 1) :
    walk mem cr3 (0xFFC00000 + d * 4096 + 4 * i)
      = some (mem (cr3 + 4 * d) / 4096 * 4096 + 4 * i) := by
  have e1 : (0xFFC00000 + d * 4096 + 4 * i) / 4194304 = 1023 := by omega
  have e2 : (0xFFC00000 + d * 4096 + 4 * i) / 4096 % 1024 = d := by omega
  have e3 : (0xFFC00000 + d * 4096 + 4 * i) % 4096 = 4 * i := by omega
  unfold walk
  simp only [e1, e2, e3, h2]
  rw [if_neg (by omega), if_neg (by omega)]

/-! ## The page table of MP4: reads and writes through the self-map -/

theorem translate_directory (k : Kernel) (hs : k.SelfMapped) (d : Nat) (hd : d < 1024) :
    k.translate (0xFFFFF000 + 4 * d) = some (k.cr3 + 4 * d) := by
  obtain ⟨h0, _, _, h1, h2⟩ := hs
  unfold Kernel.translate
  rw [if_neg h0]
  exact walk_directory k.mem k.cr3 d hd h1 h2

theorem translate_table (k : Kernel) (hs : k.SelfMapped) (d i : Nat) (hd : d < 1024)
    (hi : i < 1024) (hp : k.pde d % 2 = 1) :
    k.translate (0xFFC00000 + d * 4096 + 4 * i) = some (k.pde d / 4096 * 4096 + 4 * i) := by
  obtain ⟨h0, _, _, h1, h2⟩ := hs
  unfold Kernel.translate
  rw [if_neg h0]
  exact walk_table k.mem k.cr3 d i hd hi h1 h2 hp

theorem vread_directory (k : Kernel) (hs : k.SelfMapped) (d : Nat) (hd : d < 1024) :
    k.vread (0xFFFFF000 + 4 * d) = some (k.pde d) := by
  unfold Kernel.vread
  rw [translate_directory k hs d hd]
  rfl

theorem vread_table (k : Kernel) (hs : k.SelfMapped) (d i : Nat) (hd : d < 1024)
    (hi : i < 1024) (hp : k.pde d % 2 = 1) :
    k.vread (0xFFC00000 + d * 4096 + 4 * i) = some (k.pte d i) := by
  unfold Kernel.vread
  rw [translate_table k hs d i hd hi hp]
  rfl

theorem vwrite_directory (k : Kernel) (hs : k.SelfMapped) (d : Nat) (hd : d < 1024) (v : Nat) :
    k.vwrite (0xFFFFF000 + 4 * d) v = some { k with mem := store k.mem (k.cr3 + 4 * d) v } := by
  unfold Kernel.vwrite
  rw [translate_directory k hs d hd]
  rfl

theorem vwrite_table (k : Kernel) (hs : k.SelfMapped) (d i : Nat) (hd : d < 1024)
    (hi : i < 1024) (hp : k.pde d % 2 = 1) (v : Nat) :
    k.vwrite (0xFFC00000 + d * 4096 + 4 * i) v
      = some { k with mem := store k.mem (k.pde d / 4096 * 4096 + 4 * i) v } := by
  unfold Kernel.vwrite
  rw [translate_table k hs d i hd hi hp]
  rfl

theorem process_get_frames_eq (k : Kernel) (p : ContFramePool) (n : Nat)
    (hp : k.pools.get? k.process_mem_pool = some p) :
    k.process_get_frames n = some ((p.get_frames n).1,
      { k with pools := k.pools.set k.process_mem_pool (p.get_frames n).2 }) := by
  unfold Kernel.process_get_frames
  rw [hp]

theorem selfMapped_store (k : Kernel) (hs : k.SelfMapped) (x v : Nat)
    (hx : x ≠ k.cr3 + 4 * 1023) (ps : List ContFramePool) :
    Kernel.SelfMapped { k with mem := store k.mem x v, pools := ps } := by
  obtain ⟨h0, ha, hb, h1, h2⟩ := hs
  have e : store k.mem x v (k.cr3 + 4 * 1023) = k.mem (k.cr3 + 4 * 1023) :=
    if_neg (fun h => hx h.symm)
  refine ⟨h0, ha, hb, ?_, ?_⟩
  · show store k.mem x v (k.cr3 + 4 * 1023) % 2 = 1
    rw [e]
    exact h1
  · show store k.mem x v (k.cr3 + 4 * 1023) / 4096 * 4096 = k.cr3
    rw [e]
    exact h2

theorem fillTable_spec (d T : Nat) (hd : d < 1024) :
    ∀ (n i : Nat) (k : Kernel), i + n ≤ 1024 → k.SelfMapped → k.pde d % 2 = 1 →
      k.pde d / 4096 * 4096 = T → T ≠ k.cr3 →
      ∃ k2, fillTable (0xFFC00000 + d * 4096) n i k = some k2 ∧ k2.cr3 = k.cr3 ∧
        k2.paging_enabled = k.paging_enabled ∧ k2.pools = k.pools ∧
        k2.process_mem_pool = k.process_mem_pool ∧
        ∀ x, k2.mem x
          = if T + 4 * i ≤ x ∧ x < T + 4 * (i + n) ∧ x % 4 = 0 then 4 else k.mem x := by
  intro n
  induction n with
  | zero =>
    intro i k _ _ _ _ _
    refine ⟨k, rfl, rfl, rfl, rfl, rfl, fun x => ?_⟩
    rw [if_neg (by omega)]
  | succ n ih =>
    intro i k hin hs hp hT hne
    have hc : k.cr3 % 4096 = 0 := hs.2.1
    have hTa : T % 4096 = 0 := by omega
    have hmod : (0xFFC00000 + d * 4096 + 4 * i) % U32 = 0xFFC00000 + d * 4096 + 4 * i :=
      Nat.mod_eq_of_lt (by unfold U32; omega)
    have hs1 : Kernel.SelfMapped { k with mem := store k.mem (T + 4 * i) 4, pools := k.pools } :=
      selfMapped_store k hs _ _ (by omega) _
    have hkeep : store k.mem (T + 4 * i) 4 (k.cr3 + 4 * d) = k.mem (k.cr3 + 4 * d) :=
      if_neg (by omega)
    obtain ⟨k2, h1, h2, h3, h4, h5, h6⟩ :=
      ih (i + 1) { k with mem := store k.mem (T + 4 * i) 4, pools := k.pools } (by omega) hs1
        (by show store k.mem (T + 4 * i) 4 (k.cr3 + 4 * d) % 2 = 1
            rw [hkeep]
            exact hp)
        (by show store k.mem (T + 4 * i) 4 (k.cr3 + 4 * d) / 4096 * 4096 = T
            rw [hkeep]
            exact hT)
        hne
    refine ⟨k2, ?_, h2, h3, h4, h5, fun x => ?_⟩
    · unfold fillTable
      rw [hmod, vwrite_table k hs d i hd (by omega) hp 4, hT]
      exact h1
    · rw [h6 x]
      show (if T + 4 * (i + 1) ≤ x ∧ x < T + 4 * (i + 1 + n) ∧ x % 4 = 0 then 4
        else store k.mem (T + 4 * i) 4 x) = _
      unfold store
      by_cases hx : x = T + 4 * i
      · rw [if_neg (by omega), if_pos hx, if_pos (by omega)]
      · rw [if_neg hx]
        by_cases hr : T + 4 * (i + 1) ≤ x ∧ x < T + 4 * (i + 1 + n) ∧ x % 4 = 0
        · rw [if_pos hr, if_pos (by omega)]
        · rw [if_neg hr, if_neg (by omega)]

theorem handle_fault_eq (k : Kernel) (a err : Nat) (cpt : PageTable) (ha : a < U32)
    (he : err &&& 1 = 0) (hc : k.current_page_table = some cpt) :
    PageTable.handle_fault k a err =
      (k.vread (0xFFFFF000 + 4 * (a / 4194304))).bind fun pde =>
        if pde % 2 = 1 then
          (k.process_get_frames 1).bind fun r =>
            r.2.vwrite (0xFFC00000 + a / 4194304 * 4096 + 4 * (a / 4096 % 1024))
              (((r.1 * PAGE_SIZE) % U32) ||| 3)
        else
          (k.process_get_frames 1).bind fun r1 =>
          (r1.2.vwrite (0xFFFFF000 + 4 * (a / 4194304))
            (((r1.1 * PAGE_SIZE) % U32) ||| 3)).bind fun k1 =>
          (fillTable (0xFFC00000 + a / 4194304 * 4096) 1024 0 k1).bind fun k2 =>
          (k2.process_get_frames 1).bind fun r2 =>
          r2.2.vwrite (0xFFC00000 + a / 4194304 * 4096 + 4 * (a / 4096 % 1024))
            (((r2.1 * PAGE_SIZE) % U32) ||| 3) := by
  have hpd : a / 4194304 < 1024 := by unfold U32 at ha; omega
  have m1 : (0xFFFFF000 + 4 * (a / 4194304)) % U32 = 0xFFFFF000 + 4 * (a / 4194304) :=
    Nat.mod_eq_of_lt (by unfold U32; omega)
  have m2 : (0xFFC00000 + a / 4194304 * 4096 + 4 * (a / 4096 % 1024)) % U32
      = 0xFFC00000 + a / 4194304 * 4096 + 4 * (a / 4096 % 1024) :=
    Nat.mod_eq_of_lt (by unfold U32; omega)
  have he2 : err % 2 = 0 := by rw [← Nat.and_one_is_mod]; exact he
  unfold PageTable.handle_fault
  simp only [hc, shr22, pt_index, page_tb_eq _ hpd, Nat.and_one_is_mod, m1, m2]
  rw [if_pos he2]

/-! ## The page table of MP4: the fault handler -/

theorem selfMapped_congr (k k2 : Kernel) (hs : k.SelfMapped) (hc : k2.cr3 = k.cr3)
    (hp : k2.paging_enabled = k.paging_enabled)
    (hm : k2.mem (k.cr3 + 4 * 1023) = k.mem (k.cr3 + 4 * 1023)) : k2.SelfMapped := by
  obtain ⟨h0, ha, hb, h1, h2⟩ := hs
  unfold Kernel.SelfMapped Kernel.pde at *
  rw [hc, hp, hm]
  exact ⟨h0, ha, hb, h1, h2⟩

theorem handle_fault_absent (k : Kernel) (a err : Nat) (cpt : PageTable) (p : ContFramePool)
    (hs : k.SelfMapped) (ha : a < U32) (he : err &&& 1 = 0)
    (hc : k.current_page_table = some cpt)
    (hp : k.pools.get? k.process_mem_pool = some p)
    (habs : k.pde (a / 4194304) % 2 = 0)
    (hd : ((p.get_frames 1).1 * PAGE_SIZE) % U32 ≠ k.cr3) :
    ∃ k2, PageTable.handle_fault k a err = some k2 ∧ k2.cr3 = k.cr3 ∧
      ∀ x, k2.mem x =
        if x = ((p.get_frames 1).1 * PAGE_SIZE) % U32 + 4 * (a / 4096 % 1024) then
          (((p.get_frames 1).2.get_frames 1).1 * PAGE_SIZE) % U32 ||| 3
        else if ((p.get_frames 1).1 * PAGE_SIZE) % U32 ≤ x
            ∧ x < ((p.get_frames 1).1 * PAGE_SIZE) % U32 + 4096 ∧ x % 4 = 0 then 4
        else if x = k.cr3 + 4 * (a / 4194304) then
          ((p.get_frames 1).1 * PAGE_SIZE) % U32 ||| 3
        else k.mem x := by
  have hpd : a / 4194304 < 1024 := by unfold U32 at ha; omega
  have hpt : a / 4096 % 1024 < 1024 := by omega
  obtain ⟨fe1, fe2⟩ := frame_entry (p.get_frames 1).1
  have hT : (((p.get_frames 1).1 * PAGE_SIZE) % U32) % 4096 = 0 := by
    unfold PAGE_SIZE U32
    omega
  have hca : k.cr3 % 4096 = 0 := hs.2.1
  have h1023 : k.pde 1023 % 2 = 1 := hs.2.2.2.1
  have hne : a / 4194304 ≠ 1023 := by
    intro h
    rw [h] at habs
    omega
  generalize hT1 : ((p.get_frames 1).1 * PAGE_SIZE) % U32 = T1 at fe1 fe2 hT hd ⊢
  generalize hv2 : (((p.get_frames 1).2.get_frames 1).1 * PAGE_SIZE) % U32 ||| 3 = v2
  have hsA : Kernel.SelfMapped
      { k with pools := k.pools.set k.process_mem_pool (p.get_frames 1).2 } := hs
  obtain ⟨kB, hkB⟩ : ∃ kB : Kernel, kB = { k with
      pools := k.pools.set k.process_mem_pool (p.get_frames 1).2,
      mem := store k.mem (k.cr3 + 4 * (a / 4194304)) (T1 ||| 3) } := ⟨_, rfl⟩
  have hBc : kB.cr3 = k.cr3 := by rw [hkB]
  have hBm : kB.mem = store k.mem (k.cr3 + 4 * (a / 4194304)) (T1 ||| 3) := by rw [hkB]
  have hBpool : kB.pools = k.pools.set k.process_mem_pool (p.get_frames 1).2 := by rw [hkB]
  have hBidx : kB.process_mem_pool = k.process_mem_pool := by rw [hkB]
  have hsB : kB.SelfMapped := by
    rw [hkB]
    exact selfMapped_store k hs _ _ (by omega) _
  have hBpde : kB.pde (a / 4194304) = T1 ||| 3 := by
    unfold Kernel.pde
    rw [hBc, hBm]
    exact if_pos rfl
  obtain ⟨k2, h1, h2, h3, h4, h5, h6⟩ :=
    fillTable_spec (a / 4194304) T1 hpd 1024 0 kB (by omega) hsB
      (by rw [hBpde]; exact fe1) (by rw [hBpde]; exact fe2) (by rw [hBc]; exact hd)
  have hout : ∀ d, d < 1024 → k2.mem (k.cr3 + 4 * d) = kB.mem (k.cr3 + 4 * d) := by
    intro d hd1
    rw [h6]
    exact if_neg (by omega)
  have hs2 : k2.SelfMapped :=
    selfMapped_congr kB k2 hsB h2 h3 (by rw [hBc]; exact hout 1023 (by omega))
  have h2pde : k2.pde (a / 4194304) = T1 ||| 3 := by
    unfold Kernel.pde
    rw [h2, hBc, hout _ hpd, hBm]
    exact if_pos rfl
  have hp2 : k2.pools.get? k2.process_mem_pool = some (p.get_frames 1).2 := by
    rw [h4, h5, hBpool, hBidx, List.get?_eq_getElem?, List.getElem?_set_self',
      ← List.get?_eq_getElem?, hp]
    rfl
  have hsC : Kernel.SelfMapped
      { k2 with pools := k2.pools.set k2.process_mem_pool ((p.get_frames 1).2.get_frames 1).2 } :=
    hs2
  have hCpde : Kernel.pde
      { k2 with pools := k2.pools.set k2.process_mem_pool ((p.get_frames 1).2.get_frames 1).2 }
      (a / 4194304) = T1 ||| 3 := h2pde
  refine ⟨{ k2 with
      pools := k2.pools.set k2.process_mem_pool ((p.get_frames 1).2.get_frames 1).2,
      mem := store k2.mem (T1 + 4 * (a / 4096 % 1024)) v2 }, ?_, ?_, ?_⟩
  · rw [handle_fault_eq k a err cpt ha he hc, vread_directory k hs _ hpd, Option.some_bind,
      if_neg (by omega), process_get_frames_eq k p 1 hp, Option.some_bind]
    simp only []
    rw [hT1, vwrite_directory _ hsA _ hpd, Option.some_bind]
    show ((fillTable (4290772992 + a / 4194304 * 4096) 1024 0
        { k with pools := k.pools.set k.process_mem_pool (p.get_frames 1).2,
                 mem := store k.mem (k.cr3 + 4 * (a / 4194304)) (T1 ||| 3) }).bind _) = _
    rw [← hkB, h1, Option.some_bind, process_get_frames_eq k2 _ 1 hp2, Option.some_bind]
    simp only []
    rw [hv2, vwrite_table _ hsC _ _ hpd hpt (by rw [hCpde]; exact fe1), hCpde, fe2]
  · show k2.cr3 = k.cr3
    rw [h2, hBc]
  · intro x
    show store k2.mem (T1 + 4 * (a / 4096 % 1024)) v2 x = _
    unfold store
    by_cases hx : x = T1 + 4 * (a / 4096 % 1024)
    · rw [if_pos hx, if_pos hx]
    · rw [if_neg hx, if_neg hx, h6, hBm]
      by_cases hr : T1 ≤ x ∧ x < T1 + 4096 ∧ x % 4 = 0
      · rw [if_pos (by omega), if_pos hr]
      · rw [if_neg (by omega), if_neg hr]
        rfl

theorem free_page_eq (k : Kernel) (a : Nat) (ha : a < U32) :
    PageTable.free_page k a =
      (k.vread (0xFFC00000 + a / 4194304 * 4096 + 4 * (a / 4096 % 1024))).bind fun pte =>
        Kernel.vwrite { k with pools := ContFramePool.release_frames k.pools (pte / PAGE_SIZE) }
          (0xFFC00000 + a / 4194304 * 4096 + 4 * (a / 4096 % 1024)) 2 := by
  have hpd : a / 4194304 < 1024 := by unfold U32 at ha; omega
  have m2 : (0xFFC00000 + a / 4194304 * 4096 + 4 * (a / 4096 % 1024)) % U32
      = 0xFFC00000 + a / 4194304 * 4096 + 4 * (a / 4096 % 1024) :=
    Nat.mod_eq_of_lt (by unfold U32; omega)
  unfold PageTable.free_page
  simp only [shr22, pt_index, page_tb_eq _ hpd, m2]

/-- C14 as stated fails inside the window of the recursive mapping: in the
paged state, the page-table entry of `a = 0xFFC00000` (directory index 1023,
table index 0) is present with frame `0x202`, and it is slot 0 of the page
directory; `free_page(a)` writes 2 into it, so page-directory entry 0 changes
from `0x202003` to 2. -/
theorem free_page_rewrites_directory_entry :
    kernelPaged.SelfMapped ∧
    (0xFFC00000 >>> 22 = 1023 ∧ (0xFFC00000 >>> 12) &&& 0x03FF = 0) ∧
    kernelPaged.pte 1023 0 = 0x202003 ∧ kernelPaged.pde 0 = 0x202003 ∧
    ((PageTable.free_page kernelPaged 0xFFC00000).map fun k2 => [k2.pte 1023 0, k2.pde 0])
      = some [2, 2] := by
  decide

/-- C14, amended: in a state where paging runs on a self-mapped directory, for
every address `a < 2^32` whose page-directory entry is present and refers to a
page table other than the page directory itself (so `a` lies outside the
window of the recursive mapping), with `pd = a >> 22` and
`pt = (a >> 12) & 0x3FF`: `free_page(a)` returns, afterwards entry `pt` of page
table `pd` is 2, the registry is the one `release_frames(f)` leaves for the
frame `f` of the old entry, every page-directory entry is as before and no
other word of memory, so no other page-table entry, has changed. -/
theorem free_page_clears_entry (k : Kernel) (a : Nat) (hs : k.SelfMapped) (ha : a < U32)
    (hpd : k.pde (a >>> 22) % 2 = 1)
    (hT : k.pde (a >>> 22) / 4096 * 4096 ≠ k.cr3) :
    ∃ k2, PageTable.free_page k a = some k2 ∧ k2.cr3 = k.cr3 ∧
      k2.pte (a >>> 22) ((a >>> 12) &&& 0x03FF) = 2 ∧
      k2.pools = ContFramePool.release_frames k.pools
        (k.pte (a >>> 22) ((a >>> 12) &&& 0x03FF) / PAGE_SIZE) ∧
      (∀ d, d < 1024 → k2.pde d = k.pde d) ∧
      ∀ x, x ≠ k.pde (a >>> 22) / 4096 * 4096 + 4 * ((a >>> 12) &&& 0x03FF) →
        k2.mem x = k.mem x := by
  rw [shr22, pt_index] at *
  have hd : a / 4194304 < 1024 := by unfold U32 at ha; omega
  have hpt : a / 4096 % 1024 < 1024 := by omega
  have hca : k.cr3 % 4096 = 0 := hs.2.1
  have hsA : Kernel.SelfMapped { k with pools := (ContFramePool.release_frames k.pools
      (k.pte (a / 4194304) (a / 4096 % 1024) / PAGE_SIZE)) } := hs
  have hkeep : ∀ d, d < 1024 →
      store k.mem (k.pde (a / 4194304) / 4096 * 4096 + 4 * (a / 4096 % 1024)) 2 (k.cr3 + 4 * d)
        = k.mem (k.cr3 + 4 * d) := by
    intro d hd1
    exact if_neg (by omega)
  refine ⟨{ k with
      pools := (ContFramePool.release_frames k.pools
        (k.pte (a / 4194304) (a / 4096 % 1024) / PAGE_SIZE)),
      mem := store k.mem (k.pde (a / 4194304) / 4096 * 4096 + 4 * (a / 4096 % 1024)) 2 },
    ?_, rfl, ?_, rfl, ?_, ?_⟩
  · rw [free_page_eq k a ha, vread_table k hs _ _ hd hpt hpd, Option.some_bind]
    exact vwrite_table _ hsA _ _ hd hpt hpd _
  · show store k.mem _ 2 (store k.mem _ 2 (k.cr3 + 4 * (a / 4194304)) / 4096 * 4096
      + 4 * (a / 4096 % 1024)) = 2
    rw [hkeep _ hd]
    exact if_pos rfl
  · intro d hd1
    exact hkeep d hd1
  · intro x hx
    exact if_neg hx

/-- Witness for C14 (amended): in the paged state `free_page(0)` clears entry 0
of the shared page table (frame 0 belongs to no pool of the registry) and
leaves the directory as it is. -/
theorem free_page_clears_entry_witness :
    kernelPaged.SelfMapped ∧ kernelPaged.pte 0 0 = 3 ∧
    ∃ k2, PageTable.free_page kernelPaged 0 = some k2 ∧ k2.pte 0 0 = 2 ∧
      k2.pde 0 = 0x202003 ∧ k2.pde 1023 = 0x201003 := by
  refine ⟨by decide, by decide, ?_⟩
  obtain ⟨k2, h1, _, h3, _, h5, _⟩ :=
    free_page_clears_entry kernelPaged 0 (by decide) (by decide) (by decide) (by decide)
  exact ⟨k2, h1, h3, (h5 0 (by decide)).trans (by decide), (h5 1023 (by decide)).trans (by decide)⟩

/-! ## The page table of MP4: what the constructor writes, for every shared size -/

theorem vwrite_unpaged (k : Kernel) (h0 : k.paging_enabled = 0) (v val : Nat) :
    k.vwrite v val = some { k with mem := store k.mem v val } := by
  unfold Kernel.vwrite Kernel.translate
  rw [if_pos h0]
  rfl

theorem fillShared_spec (T : Nat) (hT : T % 4096 = 0) (hTU : T + 4096 ≤ U32) :
    ∀ (n i pa : Nat) (k : Kernel), i + n ≤ 1024 → pa + n * 4096 < U32 → k.paging_enabled = 0 →
      ∃ k2, fillShared T n i pa k = some k2 ∧ k2.cr3 = k.cr3 ∧
        k2.paging_enabled = k.paging_enabled ∧ k2.pools = k.pools ∧
        k2.process_mem_pool = k.process_mem_pool ∧ k2.shared_size = k.shared_size ∧
        ∀ x, k2.mem x
          = if T + 4 * i ≤ x ∧ x < T + 4 * (i + n) ∧ x % 4 = 0 then
              (pa + ((x - T) / 4 - i) * 4096) ||| 3
            else k.mem x := by
  intro n
  induction n with
  | zero =>
    intro i pa k _ _ _
    refine ⟨k, rfl, rfl, rfl, rfl, rfl, rfl, fun x => ?_⟩
    rw [if_neg (by omega)]
  | succ n ih =>
    intro i pa k hin hpa h0
    have hU : U32 = 4294967296 := rfl
    have hmod : (T + 4 * i) % U32 = T + 4 * i := Nat.mod_eq_of_lt (by omega)
    have hpm : (pa + PAGE_SIZE) % U32 = pa + 4096 :=
      Nat.mod_eq_of_lt (by unfold PAGE_SIZE; omega)
    obtain ⟨k2, h1, h2, h3, h4, h5, h6, h7⟩ :=
      ih (i + 1) (pa + 4096) { k with mem := store k.mem (T + 4 * i) (pa ||| 3) }
        (by omega) (by omega) h0
    refine ⟨k2, ?_, h2, h3, h4, h5, h6, fun x => ?_⟩
    · unfold fillShared
      rw [hmod, vwrite_unpaged k h0, Option.some_bind, hpm]
      exact h1
    · rw [h7 x]
      show (if T + 4 * (i + 1) ≤ x ∧ x < T + 4 * (i + 1 + n) ∧ x % 4 = 0 then
          (pa + 4096 + ((x - T) / 4 - (i + 1)) * 4096) ||| 3
        else store k.mem (T + 4 * i) (pa ||| 3) x) = _
      unfold store
      by_cases hx : x = T + 4 * i
      · rw [if_neg (by omega), if_pos hx, if_pos (by omega)]
        have e : (x - T) / 4 - i = 0 := by omega
        rw [e, Nat.zero_mul, Nat.add_zero]
      · rw [if_neg hx]
        by_cases hr : T + 4 * (i + 1) ≤ x ∧ x < T + 4 * (i + 1 + n) ∧ x % 4 = 0
        · rw [if_pos hr, if_pos (by omega)]
          have e : pa + 4096 + ((x - T) / 4 - (i + 1)) * 4096
              = pa + ((x - T) / 4 - i) * 4096 := by omega
          rw [e]
        · rw [if_neg hr, if_neg (by omega)]

theorem fillDirectory_spec (D : Nat) (hD : D % 4096 = 0) (hDU : D + 4096 ≤ U32) :
    ∀ (n i : Nat) (k : Kernel), i + n ≤ 1024 → k.paging_enabled = 0 →
      ∃ k2, fillDirectory D n i k = some k2 ∧ k2.cr3 = k.cr3 ∧
        k2.paging_enabled = k.paging_enabled ∧ k2.pools = k.pools ∧
        k2.process_mem_pool = k.process_mem_pool ∧ k2.shared_size = k.shared_size ∧
        ∀ x, k2.mem x
          = if D + 4 * i ≤ x ∧ x < D + 4 * (i + n) ∧ x % 4 = 0 then 2 else k.mem x := by
  intro n
  induction n with
  | zero =>
    intro i k _ _
    refine ⟨k, rfl, rfl, rfl, rfl, rfl, rfl, fun x => ?_⟩
    rw [if_neg (by omega)]
  | succ n ih =>
    intro i k hin h0
    have hU : U32 = 4294967296 := rfl
    have hmod : (D + 4 * i) % U32 = D + 4 * i := Nat.mod_eq_of_lt (by omega)
    obtain ⟨k2, h1, h2, h3, h4, h5, h6, h7⟩ :=
      ih (i + 1) { k with mem := store k.mem (D + 4 * i) 2 } (by omega) h0
    refine ⟨k2, ?_, h2, h3, h4, h5, h6, fun x => ?_⟩
    · unfold fillDirectory
      rw [hmod, vwrite_unpaged k h0, Option.some_bind]
      exact h1
    · rw [h7 x]
      show (if D + 4 * (i + 1) ≤ x ∧ x < D + 4 * (i + 1 + n) ∧ x % 4 = 0 then 2
        else store k.mem (D + 4 * i) 2 x) = _
      unfold store
      by_cases hx : x = D + 4 * i
      · rw [if_neg (by omega), if_pos hx, if_pos (by omega)]
      · rw [if_neg hx]
        by_cases hr : D + 4 * (i + 1) ≤ x ∧ x < D + 4 * (i + 1 + n) ∧ x % 4 = 0
        · rw [if_pos hr, if_pos (by omega)]
        · rw [if_neg hr, if_neg (by omega)]

/-- What the constructor of MP4 leaves in memory when paging is off, for every
shared size of `n = shared_size / 4096` pages with `1 ≤ n ≤ 1024`, directory
`D` and shared page table `T` (the frames the process pool hands out, times
4096): the self-map is in slot `n - 1` of the directory, the slots `1 .. n - 2`
hold 2, slot 0 refers to `T` (when `n > 1`), the first `n` entries of `T` map
the pages `0 .. n - 1`, and every other word is as before. Later writes come
first in the case distinction. -/
theorem construct_layout (k : Kernel) (p : ContFramePool) (h0 : k.paging_enabled = 0)
    (hp : k.pools.get? k.process_mem_pool = some p)
    (hn1 : 1 ≤ k.shared_size / PAGE_SIZE) (hn2 : k.shared_size / PAGE_SIZE ≤ 1024) :
    ∃ pt k2, PageTable.construct k = some (pt, k2) ∧
      pt.page_directory = ((p.get_frames 1).1 * PAGE_SIZE) % U32 ∧
      ∀ x, k2.mem x =
        if x = ((p.get_frames 1).1 * PAGE_SIZE) % U32 + 4 * (k.shared_size / PAGE_SIZE - 1) then
          ((p.get_frames 1).1 * PAGE_SIZE) % U32 ||| 3
        else if ((p.get_frames 1).1 * PAGE_SIZE) % U32 + 4 ≤ x
            ∧ x < ((p.get_frames 1).1 * PAGE_SIZE) % U32 + 4 * (k.shared_size / PAGE_SIZE)
            ∧ x % 4 = 0 then 2
        else if x = ((p.get_frames 1).1 * PAGE_SIZE) % U32 then
          (((p.get_frames 1).2.get_frames 1).1 * PAGE_SIZE) % U32 ||| 3
        else if (((p.get_frames 1).2.get_frames 1).1 * PAGE_SIZE) % U32 ≤ x
            ∧ x < (((p.get_frames 1).2.get_frames 1).1 * PAGE_SIZE) % U32
                + 4 * (k.shared_size / PAGE_SIZE)
            ∧ x % 4 = 0 then
          ((x - (((p.get_frames 1).2.get_frames 1).1 * PAGE_SIZE) % U32) / 4 * 4096) ||| 3
        else k.mem x := by
  have hU : U32 = 4294967296 := rfl
  have hD : (((p.get_frames 1).1 * PAGE_SIZE) % U32) % 4096 = 0 := by
    unfold PAGE_SIZE U32
    omega
  have hDU : ((p.get_frames 1).1 * PAGE_SIZE) % U32 + 4096 ≤ U32 := by
    have := Nat.mod_lt ((p.get_frames 1).1 * PAGE_SIZE) (by decide : 0 < U32)
    omega
  have hT : ((((p.get_frames 1).2.get_frames 1).1 * PAGE_SIZE) % U32) % 4096 = 0 := by
    unfold PAGE_SIZE U32
    omega
  have hTU : (((p.get_frames 1).2.get_frames 1).1 * PAGE_SIZE) % U32 + 4096 ≤ U32 := by
    have := Nat.mod_lt (((p.get_frames 1).2.get_frames 1).1 * PAGE_SIZE) (by decide : 0 < U32)
    omega
  generalize hDe : ((p.get_frames 1).1 * PAGE_SIZE) % U32 = D at hD hDU ⊢
  generalize hTe : (((p.get_frames 1).2.get_frames 1).1 * PAGE_SIZE) % U32 = T at hT hTU ⊢
  generalize hne : k.shared_size / PAGE_SIZE = n at hn1 hn2 ⊢
  obtain ⟨kA, hkA⟩ : ∃ kA : Kernel, kA = { k with
      pools := k.pools.set k.process_mem_pool (p.get_frames 1).2 } := ⟨_, rfl⟩
  have hpA : kA.pools.get? kA.process_mem_pool = some (p.get_frames 1).2 := by
    rw [hkA]
    show (k.pools.set k.process_mem_pool _).get? k.process_mem_pool = _
    rw [List.get?_eq_getElem?, List.getElem?_set_self', ← List.get?_eq_getElem?, hp]
    rfl
  obtain ⟨kB, hkB⟩ : ∃ kB : Kernel, kB = { kA with
      pools := kA.pools.set kA.process_mem_pool ((p.get_frames 1).2.get_frames 1).2 } :=
    ⟨_, rfl⟩
  have hB0 : kB.paging_enabled = 0 := by rw [hkB, hkA]; exact h0
  have hBm : kB.mem = k.mem := by rw [hkB, hkA]
  have hAs : kA.shared_size / PAGE_SIZE = n := by rw [hkA]; exact hne
  obtain ⟨k1, a1, _, a3, _, _, _, a7⟩ :=
    fillShared_spec T hT hTU n 0 0 kB (by omega) (by omega) hB0
  have h10 : k1.paging_enabled = 0 := by rw [a3]; exact hB0
  obtain ⟨k2, hk2⟩ : ∃ k2 : Kernel, k2 = { k1 with
      mem := store k1.mem D (T ||| 3) } := ⟨_, rfl⟩
  have h20 : k2.paging_enabled = 0 := by rw [hk2]; exact h10
  have h2m : k2.mem = store k1.mem D (T ||| 3) := by rw [hk2]
  obtain ⟨k3, b1, _, b3, _, _, _, b7⟩ :=
    fillDirectory_spec D hD hDU (n - 1) 1 k2 (by omega) h20
  have h30 : k3.paging_enabled = 0 := by rw [b3]; exact h20
  have m0 : (D + 4 * 0) % U32 = D := Nat.mod_eq_of_lt (by omega)
  have m1 : (D + 4 * dec32 n) % U32 = D + 4 * (n - 1) := by
    rw [dec32_of_pos (by omega) (by omega)]
    exact Nat.mod_eq_of_lt (by omega)
  refine ⟨{ page_directory := D, registered_vm_pool := fun _ => none, vm_pool_no := 0 },
    { k3 with mem := store k3.mem (D + 4 * (n - 1)) (D ||| 3) }, ?_, rfl, fun x => ?_⟩
  · unfold PageTable.construct
    rw [process_get_frames_eq k p 1 hp, Option.some_bind]
    simp only []
    rw [← hkA, process_get_frames_eq kA _ 1 hpA, Option.some_bind]
    simp only []
    rw [← hkB, hDe, hTe, hAs, a1, Option.some_bind, m0, vwrite_unpaged k1 h10,
      Option.some_bind, ← hk2, b1, Option.some_bind, m1, vwrite_unpaged k3 h30,
      Option.some_bind]
  · show store k3.mem (D + 4 * (n - 1)) (D ||| 3) x = _
    unfold store
    by_cases hx : x = D + 4 * (n - 1)
    · rw [if_pos hx, if_pos hx]
    · rw [if_neg hx, if_neg hx, b7, h2m]
      by_cases hr : D + 4 ≤ x ∧ x < D + 4 * n ∧ x % 4 = 0
      · rw [if_pos (by omega), if_pos hr]
      · rw [if_neg (by omega), if_neg hr]
        unfold store
        by_cases hx0 : x = D
        · rw [if_pos hx0, if_pos hx0]
        · rw [if_neg hx0, if_neg hx0, a7, hBm]
          by_cases hs : T ≤ x ∧ x < T + 4 * n ∧ x % 4 = 0
          · rw [if_pos (by omega), if_pos hs]
            have e : 0 + ((x - T) / 4 - 0) * 4096 = (x - T) / 4 * 4096 := by omega
            rw [e]
          · rw [if_neg (by omega), if_neg hs]

/-- The directory the constructor of MP4 leaves, slot by slot: the self-map is
in slot `n - 1` for `n = shared_size / 4096`, the slots `1 .. n - 2` hold 2,
slot 0 refers to the shared page table when `n > 1`, and the slots from `n` on
are not written (the two frames being different). For `n = 1024` (4 MB) this is
the layout with the self-map in slot 1023; for every smaller `n` slot 1023
keeps what memory held. -/
theorem construct_slots (k : Kernel) (p : ContFramePool) (h0 : k.paging_enabled = 0)
    (hp : k.pools.get? k.process_mem_pool = some p)
    (hn1 : 1 ≤ k.shared_size / PAGE_SIZE) (hn2 : k.shared_size / PAGE_SIZE ≤ 1024) :
    ∃ pt k2, PageTable.construct k = some (pt, k2) ∧
      pt.page_directory = ((p.get_frames 1).1 * PAGE_SIZE) % U32 ∧
      k2.mem (pt.page_directory + 4 * (k.shared_size / PAGE_SIZE - 1))
        = pt.page_directory ||| 3 ∧
      (∀ i, 1 ≤ i → i + 1 < k.shared_size / PAGE_SIZE → k2.mem (pt.page_directory + 4 * i) = 2) ∧
      (1 < k.shared_size / PAGE_SIZE → k2.mem pt.page_directory
        = (((p.get_frames 1).2.get_frames 1).1 * PAGE_SIZE) % U32 ||| 3) ∧
      (pt.page_directory ≠ (((p.get_frames 1).2.get_frames 1).1 * PAGE_SIZE) % U32 →
        ∀ i, k.shared_size / PAGE_SIZE ≤ i → i < 1024 →
          k2.mem (pt.page_directory + 4 * i) = k.mem (pt.page_directory + 4 * i)) := by
  obtain ⟨pt, k2, h1, h2, h3⟩ := construct_layout k p h0 hp hn1 hn2
  have hT : ((((p.get_frames 1).2.get_frames 1).1 * PAGE_SIZE) % U32) % 4096 = 0 := by
    unfold PAGE_SIZE U32
    omega
  have hD : (((p.get_frames 1).1 * PAGE_SIZE) % U32) % 4096 = 0 := by
    unfold PAGE_SIZE U32
    omega
  refine ⟨pt, k2, h1, h2, ?_⟩
  rw [h2]
  generalize (((p.get_frames 1).2.get_frames 1).1 * PAGE_SIZE) % U32 = T at *
  generalize k.shared_size / PAGE_SIZE = n at *
  generalize ((p.get_frames 1).1 * PAGE_SIZE) % U32 = D at *
  refine ⟨?_, ?_, ?_, ?_⟩
  · rw [h3, if_pos rfl]
  · intro i hi1 hi2
    rw [h3, if_neg (by omega), if_pos (by omega)]
  · intro hn
    rw [h3, if_neg (by omega), if_neg (by omega), if_pos rfl]
  · intro hne i hi1 hi2
    rw [h3, if_neg (by omega), if_neg (by omega), if_neg (by omega), if_neg (by omega)]

/-! # Properties of the legitimacy test, the scheduler and the blocking disk, and further properties of the frame pool and the fault handler -/

/-! ## Legitimacy of an address -/

/-- C21 (`is_legitimate`): for every pool with `base_address + size < 2^32` and
every address `a`, `is_legitimate(a)` is true if and only if
`base_address ≤ a < base_address + size`; in particular
`is_legitimate(base_address)` is true whenever `size > 0`. -/
theorem is_legitimate_iff (p : VMPool) (a : Nat) (h : p.base_address + p.size < U32) :
    (p.is_legitimate a = true ↔ p.base_address ≤ a ∧ a < p.base_address + p.size) ∧
    (0 < p.size → p.is_legitimate p.base_address = true) := by
  have hm : (p.base_address + p.size) % U32 = p.base_address + p.size := Nat.mod_eq_of_lt h
  unfold VMPool.is_legitimate
  simp only [hm]
  refine ⟨?_, fun hs => ?_⟩
  · by_cases hc : a < p.base_address + p.size ∧ a ≥ p.base_address
    · rw [if_pos hc]
      exact ⟨fun _ => ⟨hc.2, hc.1⟩, fun _ => rfl⟩
    · rw [if_neg hc]
      exact ⟨fun hf => absurd hf (by decide), fun hf => absurd ⟨hf.2, hf.1⟩ hc⟩
  · rw [if_pos ⟨by omega, Nat.le_refl _⟩]

/-- Witness for C21 on the pool of S4 (16 frames at `0x10000000`): its
metadata page and its last byte are legitimate, the byte after its end is
not. -/
theorem is_legitimate_iff_witness :
    vmS4.base_address + vmS4.size < U32 ∧
    vmS4.is_legitimate 0x10000000 = true ∧ vmS4.is_legitimate 0x1000FFFF = true ∧
    vmS4.is_legitimate 0x10010000 = false := by
  have h := is_legitimate_iff vmS4 0x1000FFFF (by decide)
  exact ⟨by decide, h.2 (by decide), h.1.2 (by decide), by decide⟩

/-! ## Scheduler: FIFO order -/

theorem int32_id (x : Int) (h1 : -2147483648 ≤ x) (h2 : x < 2147483648) : int32 x = x := by
  unfold int32
  omega

theorem MP5_enqueueAll_spec : ∀ (calls : List SchedCall) (s : MP5.Scheduler),
    s.size = (s.queue.length : Int) → s.queue.length + calls.length < 2147483648 →
    (s.enqueueAll calls).queue = s.queue ++ calls.map SchedCall.thread ∧
    (s.enqueueAll calls).size = ((s.queue.length + calls.length : Nat) : Int) := by
  intro calls
  induction calls with
  | nil =>
    intro s hs _
    refine ⟨by simp [MP5.Scheduler.enqueueAll], ?_⟩
    simp [MP5.Scheduler.enqueueAll, hs]
  | cons c calls ih =>
    intro s hs hlen
    have hl : (c :: calls).length = calls.length + 1 := rfl
    have hstep : ∀ t, ((({ queue := s.queue.enqueue t, size := int32 (s.size + 1) } :
        MP5.Scheduler).enqueueAll calls).queue = s.queue ++ t :: calls.map SchedCall.thread) ∧
        (({ queue := s.queue.enqueue t, size := int32 (s.size + 1) } :
        MP5.Scheduler).enqueueAll calls).size = ((s.queue.length + (calls.length + 1) : Nat) : Int) := by
      intro t
      have hq : (s.queue.enqueue t).length = s.queue.length + 1 := by
        simp [Queue.enqueue]
      have h := ih { queue := s.queue.enqueue t, size := int32 (s.size + 1) }
        (by show int32 (s.size + 1) = ((s.queue.enqueue t).length : Int)
            rw [hq, int32_id _ (by omega) (by omega), hs]
            push_cast
            rfl)
        (by show (s.queue.enqueue t).length + calls.length < 2147483648
            omega)
      refine ⟨?_, ?_⟩
      · rw [h.1]
        show (s.queue ++ [t]) ++ _ = _
        simp
      · rw [h.2]
        show (((s.queue.enqueue t).length + calls.length : Nat) : Int) = _
        rw [hq]
        congr 1
        omega
    cases c with
    | add t => exact hstep t
    | resume t => exact hstep t

theorem MP5_yields_spec : ∀ (k : Nat) (s : MP5.Scheduler),
    s.size = (s.queue.length : Int) → s.queue.length < 2147483648 → k ≤ s.queue.length →
    s.yields k = some ((s.queue.take k).map some,
      { size := ((s.queue.length - k : Nat) : Int), queue := s.queue.drop k }) := by
  intro k
  induction k with
  | zero =>
    intro s hs _ _
    unfold MP5.Scheduler.yields
    simp [← hs]
  | succ k ih =>
    intro s hs hlen hk
    obtain ⟨size, queue⟩ := s
    cases queue with
    | nil => exact absurd hk (by simp)
    | cons t rest =>
      have hs2 : size = ((rest.length + 1 : Nat) : Int) := hs
      have hl : (t :: rest).length = rest.length + 1 := rfl
      rw [hl] at hlen hk
      have hne : ¬ (size = 0) := by omega
      have hdec : int32 (size - 1) = (rest.length : Int) := by
        rw [int32_id _ (by omega) (by omega)]
        omega
      have hy : MP5.Scheduler.yield { size := size, queue := t :: rest }
          = some (some t, { size := (rest.length : Int), queue := rest }) := by
        unfold MP5.Scheduler.yield
        simp only []
        rw [if_neg hne, hdec]
        rfl
      unfold MP5.Scheduler.yields
      rw [hy, Option.some_bind]
      simp only []
      rw [ih { size := (rest.length : Int), queue := rest } rfl (by show rest.length < _; omega)
        (by show k ≤ rest.length; omega)]
      simp

theorem MP6_enqueueAll_spec : ∀ (calls : List SchedCall) (s : MP6.Scheduler),
    s.size = (s.queue.length : Int) → s.queue.length + calls.length < 2147483648 →
    (s.enqueueAll calls).queue = s.queue ++ calls.map SchedCall.thread ∧
    (s.enqueueAll calls).size = ((s.queue.length + calls.length : Nat) : Int) ∧
    (s.enqueueAll calls).disk = s.disk := by
  intro calls
  induction calls with
  | nil =>
    intro s hs _
    refine ⟨by simp [MP6.Scheduler.enqueueAll], ?_, rfl⟩
    simp [MP6.Scheduler.enqueueAll, hs]
  | cons c calls ih =>
    intro s hs hlen
    have hl : (c :: calls).length = calls.length + 1 := rfl
    have hstep : ∀ t, ((({ s with queue := s.queue.enqueue t, size := int32 (s.size + 1) } :
        MP6.Scheduler).enqueueAll calls).queue = s.queue ++ t :: calls.map SchedCall.thread) ∧
        (({ s with queue := s.queue.enqueue t, size := int32 (s.size + 1) } :
        MP6.Scheduler).enqueueAll calls).size
          = ((s.queue.length + (calls.length + 1) : Nat) : Int) ∧
        (({ s with queue := s.queue.enqueue t, size := int32 (s.size + 1) } :
        MP6.Scheduler).enqueueAll calls).disk = s.disk := by
      intro t
      have hq : (s.queue.enqueue t).length = s.queue.length + 1 := by
        simp [Queue.enqueue]
      have h := ih { s with queue := s.queue.enqueue t, size := int32 (s.size + 1) }
        (by show int32 (s.size + 1) = ((s.queue.enqueue t).length : Int)
            rw [hq, int32_id _ (by omega) (by omega), hs]
            push_cast
            rfl)
        (by show (s.queue.enqueue t).length + calls.length < 2147483648
            omega)
      refine ⟨?_, ?_, h.2.2⟩
      · rw [h.1]
        show (s.queue ++ [t]) ++ _ = _
        simp
      · rw [h.2.1]
        show (((s.queue.enqueue t).length + calls.length : Nat) : Int) = _
        rw [hq]
        congr 1
        omega
    cases c with
    | add t => exact hstep t
    | resume t => exact hstep t

theorem MP6_yield_ready_queue (size : Int) (t : Thread) (rest : Queue) (d : BlockingDisk)
    (is_ready : Bool) (hd : is_ready = false ∨ d.size = 0)
    (hs : size = ((rest.length + 1 : Nat) : Int)) (hlen : rest.length + 1 < 2147483648) :
    MP6.Scheduler.yield { size := size, queue := t :: rest, disk := some d } is_ready
      = some (some t, { size := (rest.length : Int), queue := rest, disk := some d }) := by
  have hne : ¬ (size = 0) := by omega
  have hdec : int32 (size - 1) = (rest.length : Int) := by
    rw [int32_id _ (by omega) (by omega)]
    omega
  have hc : ¬ (is_ready = true ∧ d.size ≠ 0 ∧ (some d).isSome = true) := by
    rintro ⟨h1, h2, _⟩
    rcases hd with h | h
    · rw [h] at h1
      exact absurd h1 (by decide)
    · exact h2 h
  unfold MP6.Scheduler.yield
  simp only []
  rw [if_neg hc, if_neg hne, hdec]
  rfl

theorem MP6_yields_spec (d : BlockingDisk) (hd : d.size = 0) :
    ∀ (polls : List Bool) (size : Int) (queue : Queue),
    size = (queue.length : Int) → queue.length < 2147483648 → polls.length ≤ queue.length →
    MP6.Scheduler.yields polls { size := size, queue := queue, disk := some d }
      = some ((queue.take polls.length).map some,
          { size := ((queue.length - polls.length : Nat) : Int),
            queue := queue.drop polls.length, disk := some d }) := by
  intro polls
  induction polls with
  | nil =>
    intro size queue hs _ _
    unfold MP6.Scheduler.yields
    simp [← hs]
  | cons r polls ih =>
    intro size queue hs hlen hk
    cases queue with
    | nil => exact absurd hk (by simp)
    | cons t rest =>
      have hl : (t :: rest).length = rest.length + 1 := rfl
      have hp : (r :: polls).length = polls.length + 1 := rfl
      rw [hl] at hlen hk
      rw [hp] at hk
      unfold MP6.Scheduler.yields
      rw [MP6_yield_ready_queue size t rest d r (Or.inr hd) hs hlen, Option.some_bind]
      simp only []
      rw [ih (rest.length : Int) rest rfl (by omega) (by omega)]
      simp

/-- C22 (scheduler FIFO): for every sequence of `m < 2^31` `add`/`resume` calls
that enqueue the threads `t_1 .. t_m` on a new scheduler, and every `k ≤ m`,
the next `k` calls of `yield` all return, they dispatch `t_1 .. t_k` in this
order, and they leave `size = m - k` with `t_{k+1} .. t_m` on the ready queue:
in the MP5 scheduler, and in the MP6 scheduler with a registered disk that has
no waiters (its counter `size` is 0), whatever the polls of the disk return. -/
theorem scheduler_fifo (calls : List SchedCall) (hm : calls.length < 2147483648)
    (k : Nat) (hk : k ≤ calls.length) :
    (∃ s, (MP5.Scheduler.construct.enqueueAll calls).yields k
        = some (((calls.map SchedCall.thread).take k).map some, s) ∧
      s.size = ((calls.length - k : Nat) : Int) ∧
      s.queue = (calls.map SchedCall.thread).drop k) ∧
    (∀ (d : BlockingDisk) (polls : List Bool), d.size = 0 → polls.length = k →
      ∃ s, ((MP6.Scheduler.construct.add_BlockingDisk d).enqueueAll calls).yields polls
          = some (((calls.map SchedCall.thread).take k).map some, s) ∧
        s.size = ((calls.length - k : Nat) : Int) ∧
        s.queue = (calls.map SchedCall.thread).drop k ∧ s.disk = some d) := by
  constructor
  · obtain ⟨h1, h2⟩ := MP5_enqueueAll_spec calls MP5.Scheduler.construct rfl
      (by show 0 + calls.length < _; omega)
    have hq : (MP5.Scheduler.construct.enqueueAll calls).queue = calls.map SchedCall.thread := by
      rw [h1]
      rfl
    have hl : (MP5.Scheduler.construct.enqueueAll calls).queue.length = calls.length := by
      rw [hq, List.length_map]
    have h := MP5_yields_spec k (MP5.Scheduler.construct.enqueueAll calls)
      (by rw [h2, hl]
          show ((0 + calls.length : Nat) : Int) = _
          rw [Nat.zero_add])
      (by rw [hl]; exact hm) (by rw [hl]; exact hk)
    rw [hq, List.length_map] at h
    exact ⟨_, h, rfl, rfl⟩
  · intro d polls hd hp
    obtain ⟨h1, h2, h3⟩ := MP6_enqueueAll_spec calls
      (MP6.Scheduler.construct.add_BlockingDisk d) rfl (by show 0 + calls.length < _; omega)
    have hq : ((MP6.Scheduler.construct.add_BlockingDisk d).enqueueAll calls).queue
        = calls.map SchedCall.thread := by
      rw [h1]
      rfl
    have hs : ((MP6.Scheduler.construct.add_BlockingDisk d).enqueueAll calls).size
        = (calls.length : Int) := by
      rw [h2]
      show ((0 + calls.length : Nat) : Int) = _
      rw [Nat.zero_add]
    have hdk : ((MP6.Scheduler.construct.add_BlockingDisk d).enqueueAll calls).disk = some d := h3
    have hst : (MP6.Scheduler.construct.add_BlockingDisk d).enqueueAll calls
        = { size := (calls.length : Int), queue := calls.map SchedCall.thread, disk := some d } := by
      rw [← hq, ← hs, ← hdk]
    have h := MP6_yields_spec d hd polls (calls.length : Int) (calls.map SchedCall.thread)
      (by rw [List.length_map]) (by rw [List.length_map]; exact hm)
      (by rw [List.length_map, hp]; exact hk)
    rw [List.length_map, hp] at h
    rw [hst]
    exact ⟨_, h, rfl, rfl, rfl⟩

/-- Witness for C22: after `add(T1)`, `resume(T2)`, `add(T3)` two yields
dispatch `T1` then `T2` and leave `size = 1`, in MP5 and in MP6 with a new disk
registered (polled ready, then not ready). -/
theorem scheduler_fifo_witness :
    (∃ s, (MP5.Scheduler.construct.enqueueAll [.add T1, .resume T2, .add T3]).yields 2
        = some ([some T1, some T2], s) ∧ s.size = 1 ∧ s.queue = [T3]) ∧
    (∃ s, ((MP6.Scheduler.construct.add_BlockingDisk BlockingDisk.construct).enqueueAll
          [.add T1, .resume T2, .add T3]).yields [true, false]
        = some ([some T1, some T2], s) ∧ s.size = 1 ∧ s.queue = [T3]) := by
  have h := scheduler_fifo [.add T1, .resume T2, .add T3] (by decide) 2 (by decide)
  obtain ⟨⟨s, h1, h2, h3⟩, h6⟩ := h
  obtain ⟨s6, g1, g2, g3, _⟩ := h6 BlockingDisk.construct [true, false] rfl rfl
  exact ⟨⟨s, h1, h2, h3⟩, ⟨s6, g1, g2, g3⟩⟩

/-! ## Scheduler: the disk's waiters come first -/

/-- C23 (disk priority): for every MP6 scheduler state with a registered disk
whose poll returns true and whose waiter queue `t :: rest` is non-empty (with
the counter `size` of the disk equal to its length, below 2^31), `yield`
dispatches `t`, the head of the waiter queue, leaves `rest` on it and
decrements the disk's `size` by 1, and leaves the ready queue and the
scheduler's `size` unchanged. -/
theorem yield_prefers_disk_waiter (s : MP6.Scheduler) (d : BlockingDisk) (t : Thread)
    (rest : Queue) (hd : s.disk = some d) (hq : d.disk_queue = t :: rest)
    (hs : d.size = (d.disk_queue.length : Int)) (hlen : d.disk_queue.length < 2147483648) :
    ∃ s2 d2, s.yield true = some (some t, s2) ∧ s2.disk = some d2 ∧
      d2.disk_queue = rest ∧ d2.size = d.size - 1 ∧
      s2.queue = s.queue ∧ s2.size = s.size := by
  rw [hq] at hs hlen
  have hl : (t :: rest).length = rest.length + 1 := rfl
  rw [hl] at hs hlen
  have hne : d.size ≠ 0 := by omega
  have hdec : int32 (d.size - 1) = d.size - 1 := int32_id _ (by omega) (by omega)
  refine ⟨{ s with disk := some { disk_queue := rest, size := int32 (d.size - 1) } },
    { disk_queue := rest, size := int32 (d.size - 1) }, ?_, rfl, rfl, hdec, rfl, rfl⟩
  unfold MP6.Scheduler.yield
  rw [hd]
  simp only []
  rw [if_pos ⟨trivial, hne, rfl⟩, hq]
  rfl

/-- Witness for C23, scenario S5: ready queue `[T1, T2]`, disk queue `[T3]`,
disk ready: `yield` dispatches `T3`, the next `yield` dispatches `T1`. -/
theorem yield_prefers_disk_waiter_witness :
    (schedS5.queue = [T1, T2] ∧ schedS5.size = 2 ∧
      schedS5.disk = some { size := 1, disk_queue := [T3] }) ∧
    (∃ s2 d2, schedS5.yield true = some (some T3, s2) ∧ s2.disk = some d2 ∧
      d2.disk_queue = [] ∧ d2.size = 0 ∧ s2.queue = [T1, T2] ∧ s2.size = 2) ∧
    (schedS5.yields [true, true]).map (fun r => r.1) = some [some T3, some T1] := by
  refine ⟨by decide, ?_, by decide⟩
  obtain ⟨s2, d2, h1, h2, h3, h4, h5, h6⟩ :=
    yield_prefers_disk_waiter schedS5 { size := 1, disk_queue := [T3] } T3 [] (by decide) rfl
      (by decide) (by decide)
  exact ⟨s2, d2, h1, h2, h3, h4, h5.trans (by decide), h6.trans (by decide)⟩

/-! ## Scheduler: terminate -/

theorem terminateLoop_returns (T : Thread) : ∀ (fuel : Nat) (i size : Int) (queue : Queue),
    0 ≤ i → size - i ≤ (fuel : Int) → size - i ≤ (queue.length : Int) → size < 2147483648 →
    ∃ r, terminateLoop T fuel i size queue = some r := by
  intro fuel
  induction fuel with
  | zero =>
    intro i size queue _ hf _ _
    unfold terminateLoop
    rw [if_neg (by omega)]
    exact ⟨_, rfl⟩
  | succ fuel ih =>
    intro i size queue hi hf hq hs
    unfold terminateLoop
    by_cases hc : i < size
    · rw [if_pos hc]
      cases queue with
      | nil => exact absurd hq (by simp; omega)
      | cons t q =>
        have hl : ((t :: q).length : Int) = (q.length : Int) + 1 := by simp
        rw [hl] at hq
        show ∃ r, (if T.ThreadId = t.ThreadId then
            terminateLoop T fuel (i + 1) (int32 (size - 1)) q
          else terminateLoop T fuel (i + 1) size (Queue.enqueue q t)) = some r
        by_cases hm : T.ThreadId = t.ThreadId
        · rw [if_pos hm, int32_id _ (by omega) (by omega)]
          exact ih (i + 1) (size - 1) q (by omega) (by omega) (by omega) (by omega)
        · rw [if_neg hm]
          have hl2 : ((Queue.enqueue q t).length : Int) = (q.length : Int) + 1 := by
            simp [Queue.enqueue]
          exact ih (i + 1) size (Queue.enqueue q t) (by omega) (by omega) (by omega) hs
    · rw [if_neg hc]
      exact ⟨_, rfl⟩

/-- The call `terminate` returns in every state whose `size` is the length of
the ready queue (the iteration bound of the model is never used up and
`dequeue` never meets an empty queue). -/
theorem terminate_returns (s : MP6.Scheduler) (T : Thread)
    (hs : s.size = (s.queue.length : Int)) (hlen : s.queue.length < 2147483648) :
    ∃ s2, s.terminate T = some s2 := by
  obtain ⟨r, hr⟩ := terminateLoop_returns T s.size.toNat 0 s.size s.queue (Int.le_refl 0)
    (by omega) (by omega) (by omega)
  unfold MP6.Scheduler.terminate
  rw [hr]
  exact ⟨_, rfl⟩

/-- C24 (terminate), evaluated on the MP6 scheduler. Scenario S6: on the ready
queue `[T1, T2, T1, T3]` with `size = 4`, `terminate(T1)` leaves `[T3, T2]`
with `size = 2`, not `[T2, T3]`: the loop bound `size` shrinks while `i` grows,
so the scan stops after three of the four entries and `T3` is never moved
behind `T2`. On `[T2, T1, T1]` it stops after two entries and leaves
`[T1, T2]`: an entry of the terminated thread stays on the queue. On
`[T1, T2, T3]` it leaves `[T3, T2]`. -/
theorem terminate_stops_early :
    ((MP6.Scheduler.terminate { size := 4, queue := [T1, T2, T1, T3], disk := none } T1).map
        fun s => (s.size, s.queue)) = some (2, [T3, T2]) ∧
    ((MP6.Scheduler.terminate { size := 3, queue := [T2, T1, T1], disk := none } T1).map
        fun s => (s.size, s.queue)) = some (2, [T1, T2]) ∧
    ((MP6.Scheduler.terminate { size := 3, queue := [T1, T2, T3], disk := none } T1).map
        fun s => (s.size, s.queue)) = some (2, [T3, T2]) := by
  decide

/-! ## Scheduler: yield without a disk -/

/-- C25 (yield without a disk), evaluated: the constructor of MP6 leaves `disk`
`NULL`, and in every state with `disk = NULL`, whatever the ready queue holds,
`yield` evaluates `disk->is_ready()` (and `disk->size`) through the null
pointer before it tests `disk != NULL`, which is the last operand of the
condition; the model value of that access is `none`. The MP5 scheduler in the
same situations dispatches the head of the ready queue (`T1` after `add(T1)`)
or returns with the state unchanged (empty ready queue). -/
theorem yield_reads_null_disk :
    MP6.Scheduler.construct.disk = none ∧
    (∀ (size : Int) (queue : Queue) (is_ready : Bool),
      MP6.Scheduler.yield { size := size, queue := queue, disk := none } is_ready = none) ∧
    (∀ is_ready, (MP6.Scheduler.construct.add T1).yield is_ready = none) ∧
    (MP5.Scheduler.construct.add T1).yield = some (some T1, { size := 0, queue := [] }) ∧
    MP5.Scheduler.construct.yield = some (none, MP5.Scheduler.construct) :=
  ⟨rfl, fun _ _ _ => rfl, fun _ => rfl, rfl, rfl⟩

/-! ## release_frames at the end of the band -/

/-- C26 (release stops at end-of-band), evaluated on the pool with
`base_frame_no = 16` and 16 frames (a bitmap of `nframes/4 = 4` bytes) after
`get_frames(15)`, which returns frame 17 and allocates the run of cells
1..15, up to the last cell of the band: `release_frames(17)` goes on behind
the bitmap, because its loop runs while `i < base_frame_no + nframes/4 = 20`.
The bytes 4..19, which held `0xFF`, are tested, found ALLOCATED and set to 0
(byte 20 keeps `0xFF`), and `nFreeFrames` grows by 15 + 64. -/
theorem release_frames_walks_past_bitmap :
    poolHigh.base_frame_no = 16 ∧ poolHigh.nframes / 4 = 4 ∧
    (poolHigh.get_frames 15).1 = 17 ∧
    (poolHigh.get_frames 15).2.cells 16 = [1, 1, 3, 3, 3, 3, 3, 3, 3, 3, 3, 3, 3, 3, 3, 3] ∧
    [4, 5, 19, 20].map (poolHigh.get_frames 15).2.bitmap = [0xFF, 0xFF, 0xFF, 0xFF] ∧
    [0, 1, 2, 3, 4, 5, 19, 20].map ((poolHigh.get_frames 15).2.release 17).bitmap
      = [0x40, 0, 0, 0, 0, 0, 0, 0xFF] ∧
    (poolHigh.get_frames 15).2.nFreeFrames = 15 ∧
    ((poolHigh.get_frames 15).2.release 17).nFreeFrames = 15 + 15 + 64 := by
  decide

/-! ## The fault handler and a failed allocation -/

/-- C27 (allocation failure in `handle_fault`), evaluated on the paged state
whose process pool has no FREE frame, so that `get_frames(1)` returns 0. The
not-present fault at `0x1000` (PDE 0 present) installs the entry 3 = `0 | 3`,
present with frame 0, in entry 1 of page table 0. The not-present fault at
`0x400000` (PDE 1 absent) writes the present PDE 3, fills the frame at
physical address 0 as the new page table and installs the present entry 3 in
its entry 0. Frame 0 is outside the band 512..527 of the pool. -/
theorem handle_fault_maps_frame_zero :
    poolExhausted.freeCount = 0 ∧ (poolExhausted.get_frames 1).1 = 0 ∧
    kernelExhausted.SelfMapped ∧
    kernelExhausted.translate 0x1000 = none ∧ kernelExhausted.translate 0x400000 = none ∧
    ((PageTable.handle_fault kernelExhausted 0x1000 0).map fun k => k.pte 0 1) = some 3 ∧
    (∃ k2, PageTable.handle_fault kernelExhausted 0x400000 0 = some k2 ∧
      k2.pde 1 = 3 ∧ k2.pte 1 0 = 3 ∧ k2.pte 1 1 = 4) := by
  refine ⟨by decide, by decide, by decide, by decide, by decide, by decide, ?_⟩
  obtain ⟨k2, h1, h2, h3⟩ := handle_fault_absent kernelExhausted 0x400000 0
    { page_directory := 0x201000, registered_vm_pool := fun _ => none, vm_pool_no := 0 }
    poolExhausted (by decide) (by decide) (by decide) rfl rfl (by decide) (by decide)
  have e1 : ((poolExhausted.get_frames 1).1 * PAGE_SIZE) % U32 = 0 := by decide
  have e2 : (((poolExhausted.get_frames 1).2.get_frames 1).1 * PAGE_SIZE) % U32 ||| 3 = 3 := by
    decide
  rw [e1, e2] at h3
  have hc : k2.cr3 = 0x201000 := h2
  have hpde : k2.pde 1 = 3 := by
    unfold Kernel.pde
    rw [hc, h3]
    decide
  refine ⟨k2, h1, hpde, ?_, ?_⟩
  · unfold Kernel.pte
    rw [hpde, h3]
    decide
  · unfold Kernel.pte
    rw [hpde, h3]
    decide

/-! ## The fault handler and the registered pools -/

theorem withPageTable_vread (k : Kernel) (c : Option PageTable) (v : Nat) :
    (k.withPageTable c).vread v = k.vread v := rfl

theorem withPageTable_vwrite (k : Kernel) (c : Option PageTable) (v x : Nat) :
    (k.withPageTable c).vwrite v x = (k.vwrite v x).map fun k2 => k2.withPageTable c := by
  unfold Kernel.vwrite
  show Option.map _ (k.translate v) = _
  cases k.translate v <;> rfl

theorem withPageTable_get_frames (k : Kernel) (c : Option PageTable) (n : Nat) :
    (k.withPageTable c).process_get_frames n
      = (k.process_get_frames n).map fun r => (r.1, r.2.withPageTable c) := by
  unfold Kernel.process_get_frames
  show (match k.pools.get? k.process_mem_pool with
    | none => none
    | some p => some ((p.get_frames n).1, _)) = _
  cases k.pools.get? k.process_mem_pool <;> rfl

theorem withPageTable_fillTable (T : Nat) (c : Option PageTable) :
    ∀ (n i : Nat) (k : Kernel),
      fillTable T n i (k.withPageTable c) = (fillTable T n i k).map fun k2 => k2.withPageTable c := by
  intro n
  induction n with
  | zero => intro i k; rfl
  | succ n ih =>
    intro i k
    unfold fillTable
    rw [withPageTable_vwrite]
    cases k.vwrite ((T + 4 * i) % U32) 4 with
    | none => rfl
    | some k1 => exact ih (i + 1) k1

theorem handle_fault_withPageTable (k : Kernel) (a err : Nat) (c1 c2 : PageTable) :
    PageTable.handle_fault (k.withPageTable (some c1)) a err
      = (PageTable.handle_fault (k.withPageTable (some c2)) a err).map
          fun k2 => k2.withPageTable (some c1) := by
  unfold PageTable.handle_fault
  by_cases he : err &&& 1 = 0
  · simp only [if_pos he, withPageTable_vread, withPageTable_get_frames]
    show ((k.vread _).bind _) = Option.map _ ((k.vread _).bind _)
    cases k.vread ((4294963200 + 4 * (a >>> 22)) % U32) with
    | none => rfl
    | some pde =>
      simp only [Option.some_bind]
      by_cases hp : pde &&& 1 = 1
      · simp only [if_pos hp]
        cases k.process_get_frames 1 with
        | none => rfl
        | some r =>
          simp only [Option.map_some', Option.some_bind, withPageTable_vwrite]
          generalize Kernel.vwrite r.2 _ _ = o
          cases o <;> rfl
      · simp only [if_neg hp]
        cases k.process_get_frames 1 with
        | none => rfl
        | some r1 =>
          simp only [Option.map_some', Option.some_bind, withPageTable_vwrite]
          generalize Kernel.vwrite r1.2 _ _ = o1
          cases o1 with
          | none => rfl
          | some k1 =>
            simp only [Option.map_some', Option.some_bind, withPageTable_fillTable]
            generalize fillTable _ 1024 0 k1 = o2
            cases o2 with
            | none => rfl
            | some k2 =>
              simp only [Option.map_some', Option.some_bind, withPageTable_get_frames]
              cases k2.process_get_frames 1 with
              | none => rfl
              | some r2 =>
                simp only [Option.map_some', Option.some_bind, withPageTable_vwrite]
                generalize Kernel.vwrite r2.2 _ _ = o3
                cases o3 <;> rfl
  · simp only [if_neg he]
    rfl

/-- C28 (faults are served regardless of legitimacy): for every state, every
fault address and error code, and any two page-table objects `c1`, `c2` as
`current_page_table` (they may differ in `registered_vm_pool` and `vm_pool_no`
at will), `handle_fault` returns in the one case exactly when it does in the
other, and with the same physical memory (page directory and page tables),
the same CR3 and the same frame-pool registry (bitmaps). In the paged state
with the pool of S4 registered, no pool accepts the address `0x1000` (the loop
leaves `vm_idx = -1`), and the fault at `0x1000` installs `0x203003` exactly as
it does with no pool registered. -/
theorem handle_fault_ignores_registered_pools (k : Kernel) (a err : Nat) (c1 c2 : PageTable) :
    ((PageTable.handle_fault (k.withPageTable (some c1)) a err).map Kernel.mem
        = (PageTable.handle_fault (k.withPageTable (some c2)) a err).map Kernel.mem ∧
      (PageTable.handle_fault (k.withPageTable (some c1)) a err).map Kernel.cr3
        = (PageTable.handle_fault (k.withPageTable (some c2)) a err).map Kernel.cr3 ∧
      (PageTable.handle_fault (k.withPageTable (some c1)) a err).map Kernel.pools
        = (PageTable.handle_fault (k.withPageTable (some c2)) a err).map Kernel.pools ∧
      (PageTable.handle_fault (k.withPageTable (some c1)) a err).isSome
        = (PageTable.handle_fault (k.withPageTable (some c2)) a err).isSome) ∧
    (ptRegistered.vm_pool_no = 1 ∧
      (ptRegistered.registered_vm_pool 0).map (fun p => p.is_legitimate 0x1000) = some false ∧
      legitLoop ptRegistered.registered_vm_pool 0x1000 ptRegistered.vm_pool_no 0 (-1) = -1 ∧
      ((PageTable.handle_fault (kernelPaged.withPageTable (some ptRegistered)) 0x1000 0).map
        fun k2 => k2.pte 0 1) = some 0x203003 ∧
      ((PageTable.handle_fault kernelPaged 0x1000 0).map fun k2 => k2.pte 0 1)
        = some 0x203003) := by
  refine ⟨?_, by decide⟩
  rw [handle_fault_withPageTable k a err c1 c2]
  generalize PageTable.handle_fault (k.withPageTable (some c2)) a err = o
  cases o with
  | none => exact ⟨rfl, rfl, rfl, rfl⟩
  | some k2 => exact ⟨rfl, rfl, rfl, rfl⟩
